import Mathlib

/-!
Verification of the heaps + Dijkstra library.

Shallow embedding of the C++ sources:
  - `src/graph/properties.h`          → `Properties`
  - `src/heaps/binary_heap.h`         → `BinaryHeap`
  - `src/heaps/binomial_heap.h`       → `BinomialHeapNode` / `BinomialHeap`
  - `src/heaps/weak_heap.h`           → `WeakHeap`
  - `src/heaps/fibonacci_heap.h`      → `FibNode` / `FibonacciHeap`
  - `src/shortest_path/dijkstra_shortest_path.h` → `DijkstraRun`

C++ `std::unordered_map` is modelled as an association list (`alookup`,
`aset`, `aerase`, `ainsertNew`); pointer structures are modelled as
inductive trees with children lists; `CHECK` failures (process aborts)
are modelled by `Option` results (`none` = abort).

The element type is a generic `α` ordered by a boolean strict order
`lt : α → α → Bool`, mirroring the C++ template parameter `T` and its
`operator<`.  Theorems assume `lt` is a strict weak order (`SWO`),
which holds for every instantiation in the repository (ints,
`DistanceNode` compared by distance).
-/

set_option maxHeartbeats 1000000

universe u

/-- `HeapElement<T>` from `heaps/heap.h`: a pair of a `T` key and an `int` id. -/
abbrev HeapElement (α : Type u) := α × Nat

/-- The assumptions on the C++ `operator<` used by the heap proofs: a strict
weak order given as a boolean relation. -/
structure SWO {α : Type u} (lt : α → α → Bool) : Prop where
  irrefl : ∀ a, lt a a = false
  trans : ∀ a b c, lt a b = true → lt b c = true → lt a c = true
  negTrans : ∀ a b c, lt a b = false → lt b c = false → lt a c = false

/-! ### Association lists (model of `std::unordered_map<int, V>`) -/

/-- `map.find(k)` (then `->second`). -/
def alookup {β : Type u} (m : List (Nat × β)) (k : Nat) : Option β :=
  (m.find? (fun p => p.1 == k)).map Prod.snd

/-- `map[k] = v` (`operator[]` assignment): update the entry if present,
otherwise append a fresh one. -/
def aset {β : Type u} (m : List (Nat × β)) (k : Nat) (v : β) : List (Nat × β) :=
  match m with
  | [] => [(k, v)]
  | p :: rest => if p.1 = k then (k, v) :: rest else p :: aset rest k v

/-- `map.erase(k)`: drop the entry (entries) with key `k`. -/
def aerase {β : Type u} (m : List (Nat × β)) (k : Nat) : List (Nat × β) :=
  match m with
  | [] => []
  | p :: rest => if p.1 = k then aerase rest k else p :: aerase rest k

/-- `map.insert({k, v})` for a key known to be absent (the C++ `CHECK`s
that the insertion succeeded). -/
def ainsertNew {β : Type u} (m : List (Nat × β)) (k : Nat) (v : β) : List (Nat × β) :=
  (k, v) :: m

/-! ### `Properties<T>` (graph/properties.h) -/

/-- `Properties<T>`: a growable vector of values with a default. -/
structure Properties (α : Type u) where
  properties : List α
  default_value : α

/-- `Properties<T>::Set`: resize (filling with the default) if needed, then
assign at `index`. -/
def Properties.Set {α : Type u} (p : Properties α) (index : Nat) (value : α) :
    Properties α :=
  let props :=
    if p.properties.length ≤ index then
      p.properties ++ List.replicate (index + 1 - p.properties.length) p.default_value
    else p.properties
  { p with properties := props.set index value }

/-- `Properties<T>::Get`: the stored value if `index` is in range, else the
default. -/
def Properties.Get {α : Type u} (p : Properties α) (index : Nat) : α :=
  if h : index < p.properties.length then p.properties.get ⟨index, h⟩
  else p.default_value

/-- Apply a sequence of `Set` operations in order. -/
def Properties.applySets {α : Type u} (p : Properties α)
    (ops : List (Nat × α)) : Properties α :=
  ops.foldl (fun q op => q.Set op.1 op.2) p

/-! ### Binary heap (heaps/binary_heap.h) -/

/-- The state of a `BinaryHeap<T>`: the backing vector `elements_` and the
index map `key_to_index_`. -/
structure BinaryHeap (α : Type u) where
  elements : List (HeapElement α)
  key_to_index : List (Nat × Nat)

/-- `BinaryHeap::size`. -/
def BinaryHeap.size {α : Type u} (h : BinaryHeap α) : Nat :=
  h.elements.length

/-- `BinaryHeap::SetElement_` applied to the two components: write `element`
at `pos` and point the index map at it. -/
def binSetElement {α : Type u} (elements : List (HeapElement α))
    (kti : List (Nat × Nat)) (pos : Nat) (element : HeapElement α) :
    List (HeapElement α) × List (Nat × Nat) :=
  (elements.set pos element, aset kti element.2 pos)

/-- `BinaryHeap::SiftUp_`, with the moving element taken out: repeatedly move
the parent down while the element is strictly smaller, then place the element. -/
def binSiftUp {α : Type u} (lt : α → α → Bool) (elements : List (HeapElement α))
    (kti : List (Nat × Nat)) (element : HeapElement α) (pos : Nat) :
    List (HeapElement α) × List (Nat × Nat) :=
  if _h0 : pos = 0 then binSetElement elements kti pos element
  else
    let parent := (pos - 1) / 2
    match elements[parent]? with
    | none => binSetElement elements kti pos element
    | some pe =>
      if lt element.1 pe.1 then
        let ek := binSetElement elements kti pos pe
        binSiftUp lt ek.1 ek.2 element parent
      else binSetElement elements kti pos element
termination_by pos
decreasing_by
  omega

/-- The child selection in `BinaryHeap::SiftDown_`: move to the right child
only when it is strictly smaller than the left one. -/
def binPickChild {α : Type u} (lt : α → α → Bool)
    (elements : List (HeapElement α)) (child : Nat) (cl : HeapElement α) :
    Nat × HeapElement α :=
  match elements[child + 1]? with
  | some cr => if lt cr.1 cl.1 then (child + 1, cr) else (child, cl)
  | none => (child, cl)

/-- `BinaryHeap::SiftDown_`, with the moving element taken out: repeatedly
pull the strictly smaller child up while it is strictly smaller than the
element, then place the element. -/
def binSiftDown {α : Type u} (lt : α → α → Bool) (elements : List (HeapElement α))
    (kti : List (Nat × Nat)) (element : HeapElement α) (pos : Nat) :
    List (HeapElement α) × List (Nat × Nat) :=
  match hc : elements[pos * 2 + 1]? with
  | none => binSetElement elements kti pos element
  | some cl =>
    if lt (binPickChild lt elements (pos * 2 + 1) cl).2.1 element.1 then
      binSiftDown lt
        (elements.set pos (binPickChild lt elements (pos * 2 + 1) cl).2)
        (aset kti (binPickChild lt elements (pos * 2 + 1) cl).2.2 pos)
        element (binPickChild lt elements (pos * 2 + 1) cl).1
    else binSetElement elements kti pos element
termination_by elements.length - pos
decreasing_by
  have hchild : pos * 2 + 1 < elements.length := by
    by_contra hge
    rw [List.getElem?_eq_none (by omega)] at hc
    exact Option.noConfusion hc
  have h12 : pos * 2 + 1 ≤ (binPickChild lt elements (pos * 2 + 1) cl).1 ∧
      (binPickChild lt elements (pos * 2 + 1) cl).1 < elements.length := by
    unfold binPickChild
    cases hr : elements[pos * 2 + 1 + 1]? with
    | none => simpa using hchild
    | some cr =>
      have : pos * 2 + 1 + 1 < elements.length := by
        by_contra hge
        rw [List.getElem?_eq_none (by omega)] at hr
        exact Option.noConfusion hr
      simp only
      split <;> simp <;> omega
  simp only [List.length_set]
  omega

/-- `BinaryHeap::Add`.  The `CHECK` on the index-map insertion is modelled by
returning `none` (process abort) when the id is already present. -/
def BinaryHeap.Add {α : Type u} (lt : α → α → Bool) (h : BinaryHeap α)
    (value : α) (key : Nat) : Option (BinaryHeap α) :=
  let pos := h.elements.length
  match alookup h.key_to_index key with
  | some _ => none
  | none =>
    let elements := h.elements ++ [(value, key)]
    let kti := ainsertNew h.key_to_index key pos
    let ek := binSiftUp lt elements kti (value, key) pos
    some ⟨ek.1, ek.2⟩

/-- `BinaryHeap::ReduceValue`.  The two `CHECK`s (id present, new value not
greater than the current one) are modelled by `none` on failure.  The C++
writes the new value into the slot and then calls `SiftUp_`, which treats
that slot as the hole (it is never read, only finally overwritten); the
model passes the array unchanged and the new element as the sift element. -/
def BinaryHeap.ReduceValue {α : Type u} (lt : α → α → Bool) (h : BinaryHeap α)
    (new_value : α) (key : Nat) : Option (BinaryHeap α) :=
  match alookup h.key_to_index key with
  | none => none
  | some index =>
    match h.elements[index]? with
    | none => none
    | some cur =>
      if lt cur.1 new_value then none
      else
        let ek := binSiftUp lt h.elements h.key_to_index (new_value, cur.2) index
        some ⟨ek.1, ek.2⟩

/-- `BinaryHeap::LookUp`: `nullptr` becomes `none`. -/
def BinaryHeap.LookUp {α : Type u} (h : BinaryHeap α) (key : Nat) : Option α :=
  match alookup h.key_to_index key with
  | none => none
  | some index => (h.elements[index]?).map Prod.fst

/-- `BinaryHeap::Min` (`elements_.front()`; undefined on an empty heap,
modelled as `none`). -/
def BinaryHeap.Min {α : Type u} (h : BinaryHeap α) : Option (HeapElement α) :=
  h.elements.head?

/-- `BinaryHeap::PopMinimum` (undefined on an empty heap, modelled as
`none`). -/
def BinaryHeap.PopMinimum {α : Type u} (lt : α → α → Bool) (h : BinaryHeap α) :
    Option (HeapElement α × BinaryHeap α) :=
  match hel : h.elements with
  | [] => none
  | min :: rest =>
    let kti := aerase h.key_to_index min.2
    match rest with
    | [] => some (min, ⟨[], kti⟩)
    | r :: rs =>
      let back := (min :: r :: rs).getLast (by simp)
      let elements := ((min :: r :: rs).set 0 back).dropLast
      let kti2 := aset kti back.2 0
      let ek := binSiftDown lt elements kti2 back 0
      some (min, ⟨ek.1, ek.2⟩)

/-- The empty binary heap (a freshly constructed `BinaryHeap<T>`). -/
def BinaryHeap.empty {α : Type u} : BinaryHeap α := ⟨[], []⟩

/-- The property checked by `BinaryHeap::Validate`: heap order along parent
links, index-map agreement at every position, and equal sizes. -/
def BinaryHeap.ValidateProp {α : Type u} (lt : α → α → Bool) (h : BinaryHeap α) :
    Prop :=
  (∀ i, (hi : i < h.elements.length) → 0 < i →
    lt (h.elements.get ⟨i, hi⟩).1
      (h.elements.get ⟨(i - 1) / 2, by omega⟩).1 = false) ∧
  (∀ i, (hi : i < h.elements.length) →
    alookup h.key_to_index (h.elements.get ⟨i, hi⟩).2 = some i) ∧
  h.key_to_index.length = h.elements.length

/-- Min-heap order of the backing array: every element is not smaller than
the one at its parent index. -/
def HeapOrdered {α : Type u} (lt : α → α → Bool) (e : List (HeapElement α)) :
    Prop :=
  ∀ i x px, 0 < i → e[i]? = some x → e[(i - 1) / 2]? = some px →
    lt x.1 px.1 = false

/-- Correctness of the id → index map relative to the backing array. -/
def MapCorrect {α : Type u} (e : List (HeapElement α))
    (kti : List (Nat × Nat)) : Prop :=
  (∀ i x, e[i]? = some x → alookup kti x.2 = some i) ∧
  (∀ k j, alookup kti k = some j → ∃ x, e[j]? = some x ∧ x.2 = k) ∧
  (kti.map Prod.fst).Nodup ∧
  kti.length = e.length

/-- The full binary-heap invariant. -/
def BinInv {α : Type u} (lt : α → α → Bool) (h : BinaryHeap α) : Prop :=
  HeapOrdered lt h.elements ∧ MapCorrect h.elements h.key_to_index

/-- Invariant of the array during `SiftUp_`: heap order away from the hole,
the hole's children are not smaller than the moving element, and (if the
hole has a child) the hole's stale content still satisfies its upward
constraint. -/
def UpInv {α : Type u} (lt : α → α → Bool) (e : List (HeapElement α))
    (element : HeapElement α) (hole : Nat) : Prop :=
  (∀ i x px, 0 < i → i ≠ hole → e[i]? = some x → e[(i - 1) / 2]? = some px →
    lt x.1 px.1 = false) ∧
  (∀ i x, 0 < i → (i - 1) / 2 = hole → e[i]? = some x →
    lt x.1 element.1 = false) ∧
  (∀ i, 0 < i → (i - 1) / 2 = hole → i < e.length → 0 < hole →
    ∀ hx hp, e[hole]? = some hx → e[(hole - 1) / 2]? = some hp →
      lt hx.1 hp.1 = false)

/-- Invariant of the array during `SiftDown_`: heap order away from the
hole, the hole's children satisfy the constraint against the hole's parent,
and the moving element is not smaller than the hole's parent. -/
def DownInv {α : Type u} (lt : α → α → Bool) (e : List (HeapElement α))
    (element : HeapElement α) (hole : Nat) : Prop :=
  (∀ i x px, 0 < i → i ≠ hole → (i - 1) / 2 ≠ hole → e[i]? = some x →
    e[(i - 1) / 2]? = some px → lt x.1 px.1 = false) ∧
  (∀ i x, 0 < i → (i - 1) / 2 = hole → e[i]? = some x → 0 < hole →
    ∀ hp, e[(hole - 1) / 2]? = some hp → lt x.1 hp.1 = false) ∧
  (0 < hole → ∀ hp, e[(hole - 1) / 2]? = some hp →
    lt element.1 hp.1 = false)

/-- Correctness of the id → index map during a sift, where the entry for the
moving element's id is allowed to be stale and the hole position is
unaccounted. -/
def MapOkHole {α : Type u} (e : List (HeapElement α)) (kti : List (Nat × Nat))
    (element : HeapElement α) (hole : Nat) : Prop :=
  (∀ i x, e[i]? = some x → i ≠ hole → alookup kti x.2 = some i) ∧
  (∀ k j, alookup kti k = some j →
    k = element.2 ∨ (j ≠ hole ∧ ∃ x, e[j]? = some x ∧ x.2 = k)) ∧
  (alookup kti element.2).isSome = true ∧
  (∀ i x, e[i]? = some x → i ≠ hole → x.2 ≠ element.2) ∧
  (kti.map Prod.fst).Nodup ∧
  kti.length = e.length

/-- One operation against a heap, as issued by the tests. -/
inductive HeapOp (α : Type u) where
  | add (key : α) (id : Nat)
  | reduce (key : α) (id : Nat)
  | pop

/-- Run a sequence of operations against a binary heap, collecting the
popped elements.  A `CHECK` failure (`none`) aborts the whole run. -/
def runBinOps {α : Type u} (lt : α → α → Bool) (h : BinaryHeap α) :
    List (HeapOp α) → Option (BinaryHeap α × List (HeapElement α))
  | [] => some (h, [])
  | op :: rest =>
    match op with
    | .add k id => (h.Add lt k id).bind (fun h2 => runBinOps lt h2 rest)
    | .reduce k id => (h.ReduceValue lt k id).bind (fun h2 => runBinOps lt h2 rest)
    | .pop =>
      (h.PopMinimum lt).bind (fun eh =>
        (runBinOps lt eh.2 rest).map (fun r => (r.1, eh.1 :: r.2)))

/-- Number of `add` operations in a sequence. -/
def numAdds {α : Type u} (ops : List (HeapOp α)) : Nat :=
  ops.countP (fun op => match op with | .add _ _ => true | _ => false)

/-- Number of `pop` operations in a sequence. -/
def numPops {α : Type u} (ops : List (HeapOp α)) : Nat :=
  ops.countP (fun op => match op with | .pop => true | _ => false)

/-- Number of `add` operations carrying a given id. -/
def numAddsOf {α : Type u} (ops : List (HeapOp α)) (id : Nat) : Nat :=
  ops.countP (fun op => match op with | .add _ i => i == id | _ => false)

/-- Pop from a binary heap until it is empty (with fuel). -/
def binPopAll {α : Type u} (lt : α → α → Bool) (h : BinaryHeap α) :
    Nat → List (HeapElement α)
  | 0 => []
  | fuel + 1 =>
    match h.PopMinimum lt with
    | none => []
    | some eh => eh.1 :: binPopAll lt eh.2 fuel

/-- Add a list of (key, id) pairs to a binary heap, in order. -/
def binAddAll {α : Type u} (lt : α → α → Bool) (h : BinaryHeap α)
    (l : List (HeapElement α)) : Option (BinaryHeap α) :=
  l.foldl (fun h? p => h?.bind (fun h2 => h2.Add lt p.1 p.2)) (some h)

/-! ### Binomial heap (heaps/binomial_heap.h) -/

/-- A node of a binomial heap (`BinomialHeapNode<T>`): key, id, dimension and
the chain of children reachable from `child_` via `right_`, highest dimension
first.  Parent pointers are implicit: each child's parent is the node whose
children list it sits in. -/
inductive BinomialHeapNode (α : Type u) where
  | mk (key : α) (id : Nat) (dimension : Nat)
       (children : List (BinomialHeapNode α))

/-- The key stored at a node. -/
def BinomialHeapNode.key {α : Type u} : BinomialHeapNode α → α
  | .mk k _ _ _ => k

/-- The id stored at a node. -/
def BinomialHeapNode.id {α : Type u} : BinomialHeapNode α → Nat
  | .mk _ i _ _ => i

/-- The dimension of a node. -/
def BinomialHeapNode.dimension {α : Type u} : BinomialHeapNode α → Nat
  | .mk _ _ d _ => d

/-- The children chain of a node (highest dimension first). -/
def BinomialHeapNode.children {α : Type u} :
    BinomialHeapNode α → List (BinomialHeapNode α)
  | .mk _ _ _ ch => ch

/-- `BinomialHeapNode::MergeTrees`: make the larger-keyed root a child of the
smaller one (ties keep the first argument as root) and increment the
dimension. -/
def BinomialHeapNode.MergeTrees {α : Type u} (lt : α → α → Bool)
    (a b : BinomialHeapNode α) : BinomialHeapNode α :=
  if lt b.key a.key then
    .mk b.key b.id (b.dimension + 1) (a :: b.children)
  else
    .mk a.key a.id (a.dimension + 1) (b :: a.children)

/-- `BinomialHeapNode::AddToTreeList`: insert (or carry-merge) a tree into a
root list kept in ascending dimension order. -/
def BinomialHeapNode.AddToTreeList {α : Type u} (lt : α → α → Bool) :
    BinomialHeapNode α → List (BinomialHeapNode α) → List (BinomialHeapNode α)
  | tree, [] => [tree]
  | tree, curr :: rest =>
    if curr.dimension < tree.dimension then
      curr :: AddToTreeList lt tree rest
    else if curr.dimension = tree.dimension then
      AddToTreeList lt (MergeTrees lt curr tree) rest
    else
      tree :: curr :: rest

/-- `BinomialHeapNode::MergeTreeLists`: merge two ascending root lists,
carrying merged trees of equal dimension. -/
def BinomialHeapNode.MergeTreeLists {α : Type u} (lt : α → α → Bool) :
    List (BinomialHeapNode α) → List (BinomialHeapNode α) →
    List (BinomialHeapNode α)
  | [], b => b
  | a :: as, [] => a :: as
  | a :: as, b :: bs =>
    if a.dimension = b.dimension then
      MergeTreeLists lt (AddToTreeList lt (MergeTrees lt a b) as) bs
    else if a.dimension < b.dimension then
      a :: MergeTreeLists lt as (b :: bs)
    else
      b :: MergeTreeLists lt (a :: as) bs
termination_by l1 l2 => (l2.length, l1.length)
decreasing_by
  · apply Prod.Lex.left
    simp
  · apply Prod.Lex.right
    simp
  · apply Prod.Lex.left
    simp

/-- `BinomialHeapNode::DetachChildren`: the children of a node in ascending
dimension order (the source reverses the descending chain). -/
def BinomialHeapNode.DetachChildren {α : Type u} (n : BinomialHeapNode α) :
    List (BinomialHeapNode α) :=
  n.children.reverse

/-- `BinomialHeap::Min_` without the `prev` bookkeeping: the running minimum
over the root list (strict improvement only, so the first minimal root
wins). -/
def bnMinNode {α : Type u} (lt : α → α → Bool) :
    BinomialHeapNode α → List (BinomialHeapNode α) → BinomialHeapNode α
  | cur, [] => cur
  | cur, r :: rest =>
    if lt r.key cur.key then bnMinNode lt r rest else bnMinNode lt cur rest

/-- The splice `prev_node->set_right(min_root->right())` of
`BinomialHeap::PopMinimum`: remove the first root carrying `id` (the C++
removes the min node by pointer; root ids are unique under the heap
invariant, so this is removal of its id). -/
def bnRemoveId {α : Type u} (id : Nat) :
    List (BinomialHeapNode α) → List (BinomialHeapNode α)
  | [] => []
  | r :: rest => if r.id = id then rest else r :: bnRemoveId id rest

/-- Overwrite the root payload of the (first) node with identifier `id`
(used when the sifted payload moves one level up and the parent payload
moves down into that node). -/
def bnReplaceRootPayload {α : Type u} (id : Nat) (nk : α) (nid : Nat) :
    List (BinomialHeapNode α) → List (BinomialHeapNode α)
  | [] => []
  | c :: rest =>
    if c.id = id then .mk nk nid c.dimension c.children :: rest
    else c :: bnReplaceRootPayload id nk nid rest

mutual
/-- The payload sift of `BinomialHeap::SiftUp_` on a subtree: place key `k`
at the node with identifier `id` and bubble the payload towards the root
while strictly smaller; returns the rewritten subtree and whether the moving
payload sits at its root (and wants to climb further). `none` when `id` does
not occur in the subtree. -/
def bnSiftNode {α : Type u} (lt : α → α → Bool) (k : α) (id : Nat) :
    BinomialHeapNode α → Option (BinomialHeapNode α × Bool)
  | .mk nk nid nd nch =>
    if nid = id then some (.mk k id nd nch, true)
    else
      match bnSiftList lt k id nch with
      | none => none
      | some (nch2, false) => some (.mk nk nid nd nch2, false)
      | some (nch2, true) =>
        if lt k nk then
          some (.mk k id nd (bnReplaceRootPayload id nk nid nch2), true)
        else
          some (.mk nk nid nd nch2, false)

/-- Apply `bnSiftNode` to the first child of the list containing `id`. -/
def bnSiftList {α : Type u} (lt : α → α → Bool) (k : α) (id : Nat) :
    List (BinomialHeapNode α) → Option (List (BinomialHeapNode α) × Bool)
  | [] => none
  | c :: rest =>
    match bnSiftNode lt k id c with
    | some (c2, flag) => some (c2 :: rest, flag)
    | none =>
      match bnSiftList lt k id rest with
      | none => none
      | some (rest2, flag) => some (c :: rest2, flag)
end

/-- Remove an id from the modelled key set of `id_to_node_`. -/
def iderase : List Nat → Nat → List Nat
  | [], _ => []
  | i :: rest, x => if i = x then iderase rest x else i :: iderase rest x

/-- The state of a `BinomialHeap<T>`: the root list (ascending dimension)
and the key set of the `id_to_node_` map. -/
structure BinomialHeap (α : Type u) where
  root : List (BinomialHeapNode α)
  ids : List Nat

/-- `BinomialHeap::size` (the size of `id_to_node_`). -/
def BinomialHeap.size {α : Type u} (h : BinomialHeap α) : Nat :=
  h.ids.length

/-- `BinomialHeap::Add`: `CHECK` the id is fresh, then insert a singleton
tree into the root list. -/
def BinomialHeap.Add {α : Type u} (lt : α → α → Bool) (h : BinomialHeap α)
    (key : α) (id : Nat) : Option (BinomialHeap α) :=
  if id ∈ h.ids then none
  else some ⟨BinomialHeapNode.AddToTreeList lt (.mk key id 0 []) h.root,
    id :: h.ids⟩

/-- `BinomialHeap::ReduceKey`: set the new key on the node with identifier
`id` and sift the payload up.  The C++ performs no checks; calling it with
an absent id dereferences a null pointer (undefined behaviour), so the model
is meaningful only when `id` is present, and it leaves the heap unchanged
otherwise. -/
def BinomialHeap.ReduceKey {α : Type u} (lt : α → α → Bool)
    (h : BinomialHeap α) (new_key : α) (id : Nat) : BinomialHeap α :=
  ⟨bnSiftRoots lt new_key id h.root, h.ids⟩
where
  bnSiftRoots (lt : α → α → Bool) (k : α) (id : Nat) :
      List (BinomialHeapNode α) → List (BinomialHeapNode α)
    | [] => []
    | r :: rest =>
      match bnSiftNode lt k id r with
      | some rf => rf.1 :: rest
      | none => r :: bnSiftRoots lt k id rest

/-- `BinomialHeap::Min` (undefined on an empty heap, modelled as `none`). -/
def BinomialHeap.Min {α : Type u} (lt : α → α → Bool) (h : BinomialHeap α) :
    Option (α × Nat) :=
  match h.root with
  | [] => none
  | r :: rest => some ((bnMinNode lt r rest).key, (bnMinNode lt r rest).id)

/-- `BinomialHeap::PopMinimum`: splice out the minimal root, merge its
reversed children back into the root list, erase its id. -/
def BinomialHeap.PopMinimum {α : Type u} (lt : α → α → Bool)
    (h : BinomialHeap α) : Option ((α × Nat) × BinomialHeap α) :=
  match h.root with
  | [] => none
  | r :: rest =>
    let m := bnMinNode lt r rest
    some ((m.key, m.id),
      ⟨BinomialHeapNode.MergeTreeLists lt (bnRemoveId m.id (r :: rest))
          m.DetachChildren,
        iderase h.ids m.id⟩)

mutual
/-- Find the key stored under `id` in a subtree. -/
def bnFindNode {α : Type u} (id : Nat) : BinomialHeapNode α → Option α
  | .mk nk nid _ nch => if nid = id then some nk else bnFindList id nch

/-- Find the key stored under `id` in a forest. -/
def bnFindList {α : Type u} (id : Nat) : List (BinomialHeapNode α) → Option α
  | [] => none
  | c :: rest =>
    match bnFindNode id c with
    | some k => some k
    | none => bnFindList id rest
end

/-- `BinomialHeap::LookUp`: the C++ consults `id_to_node_` and reads the key
through the stored node pointer; under the heap invariant that pointer
references the unique node carrying `id`, modelled by a forest search
guarded by membership in the id set. -/
def BinomialHeap.LookUp {α : Type u} (h : BinomialHeap α) (id : Nat) :
    Option α :=
  if id ∈ h.ids then bnFindList id h.root else none

/-- The structural check of `BinomialHeapNode::Validate`: a node of
dimension `k` has exactly `k` children of dimensions `k-1, …, 0` in that
order (each child's parent pointer is implicit in the model), recursively. -/
def bnValidate {α : Type u} : BinomialHeapNode α → Bool
  | .mk _ _ d ch =>
    decide (ch.map BinomialHeapNode.dimension = (List.range d).reverse)
      && ch.attach.all (fun c => bnValidate c.1)
decreasing_by
  have := List.sizeOf_lt_of_mem c.2
  simp only [BinomialHeapNode.mk.sizeOf_spec]
  omega

/-- The root-list check of `BinomialHeap::Validate`: strictly ascending
dimensions. -/
def bnAscending {α : Type u} : List (BinomialHeapNode α) → Bool
  | [] => true
  | [_] => true
  | r1 :: r2 :: rest =>
    decide (r1.dimension < r2.dimension) && bnAscending (r2 :: rest)

/-- All (key, id) payloads of a subtree. -/
def bnPairs {α : Type u} : BinomialHeapNode α → List (α × Nat)
  | .mk k i _ ch => (k, i) :: (ch.attach.map (fun c => bnPairs c.1)).flatten
decreasing_by
  have := List.sizeOf_lt_of_mem c.2
  simp only [BinomialHeapNode.mk.sizeOf_spec]
  omega

/-- All (key, id) payloads of a forest. -/
def bnForestPairs {α : Type u} (l : List (BinomialHeapNode α)) :
    List (α × Nat) :=
  (l.map bnPairs).flatten

/-- Min-heap order within a subtree: no child key is smaller than its
parent key. -/
def bnOrdered {α : Type u} (lt : α → α → Bool) : BinomialHeapNode α → Bool
  | .mk k _ _ ch =>
    ch.attach.all (fun c => !(lt c.1.key k) && bnOrdered lt c.1)
decreasing_by
  have := List.sizeOf_lt_of_mem c.2
  simp only [BinomialHeapNode.mk.sizeOf_spec]
  omega

/-- The ids carried by the `add` operations of a sequence, in order. -/
def addedIds {α : Type u} (ops : List (HeapOp α)) : List Nat :=
  ops.filterMap (fun op => match op with | .add _ i => some i | _ => none)

/-- The ids stored in a forest, in `bnForestPairs` order. -/
def bnForestIds {α : Type u} (l : List (BinomialHeapNode α)) : List Nat :=
  (bnForestPairs l).map Prod.snd

/-- The structural invariant checked by `BinomialHeap::Validate`: every tree
is a well-formed binomial tree and the root list is strictly ascending by
dimension. -/
def BinomStruct {α : Type u} (h : BinomialHeap α) : Prop :=
  (∀ r ∈ h.root, bnValidate r = true) ∧ bnAscending h.root = true

/-- The full binomial-heap invariant: structure, min-heap order, and the
`id_to_node_` key set matching the ids stored in the forest, without
duplicates. -/
def BinomInv {α : Type u} (lt : α → α → Bool) (h : BinomialHeap α) : Prop :=
  BinomStruct h ∧ (∀ r ∈ h.root, bnOrdered lt r = true) ∧
    h.ids.Perm (bnForestIds h.root) ∧ h.ids.Nodup

/-- Run a sequence of operations against a binomial heap, collecting popped
elements.  A `CHECK` failure or a call whose precondition the C++ does not
check but whose violation is undefined behaviour (`ReduceKey` on an absent
id, `PopMinimum` on an empty heap) aborts the run. -/
def runBinomOps {α : Type u} (lt : α → α → Bool) (h : BinomialHeap α) :
    List (HeapOp α) → Option (BinomialHeap α × List (α × Nat))
  | [] => some (h, [])
  | op :: rest =>
    match op with
    | .add k id => (h.Add lt k id).bind (fun h2 => runBinomOps lt h2 rest)
    | .reduce k id =>
      match h.LookUp id with
      | none => none
      | some cur =>
        if lt cur k then none
        else runBinomOps lt (h.ReduceKey lt k id) rest
    | .pop =>
      (h.PopMinimum lt).bind (fun eh =>
        (runBinomOps lt eh.2 rest).map (fun r => (r.1, eh.1 :: r.2)))

/-- Pop from a binomial heap until it is empty (with fuel). -/
def binomPopAll {α : Type u} (lt : α → α → Bool) (h : BinomialHeap α) :
    Nat → List (α × Nat)
  | 0 => []
  | fuel + 1 =>
    match h.PopMinimum lt with
    | none => []
    | some eh => eh.1 :: binomPopAll lt eh.2 fuel

/-- Add a list of (key, id) pairs to a binomial heap, in order. -/
def binomAddAll {α : Type u} (lt : α → α → Bool) (h : BinomialHeap α)
    (l : List (α × Nat)) : Option (BinomialHeap α) :=
  l.foldl (fun h? p => h?.bind (fun h2 => h2.Add lt p.1 p.2)) (some h)

/-! ### Fibonacci heap (heaps/fibonacci_heap.h) -/

/-- A node of a Fibonacci heap (`FibonacciHeapNode<T>`): key, id, mark bit
and the circular child list represented from `child_` following `right_`
(most recently added child first).  The degree is the length of the list
and parent pointers are implicit. -/
inductive FibNode (α : Type u) where
  | mk (key : α) (id : Nat) (marked : Bool) (children : List (FibNode α))

/-- The key stored at a node. -/
def FibNode.key {α : Type u} : FibNode α → α
  | .mk k _ _ _ => k

/-- The id stored at a node. -/
def FibNode.id {α : Type u} : FibNode α → Nat
  | .mk _ i _ _ => i

/-- The mark bit (`marked_`). -/
def FibNode.marked {α : Type u} : FibNode α → Bool
  | .mk _ _ m _ => m

/-- The children list. -/
def FibNode.children {α : Type u} : FibNode α → List (FibNode α)
  | .mk _ _ _ ch => ch

/-- `FibonacciHeapNode::AddChild`: the new child becomes `child_` (head of
the list) and the degree grows by one. -/
def fibAddChild {α : Type u} (parent child : FibNode α) : FibNode α :=
  .mk parent.key parent.id parent.marked (child :: parent.children)

/-- Outcome of the cut cascade of `FibonacciHeap::ReduceKey` on the
children of one node: the id was not found, or the subtree was rewritten
with no pending cascade (`noCut`), or a child was cut away so the caller
must run the marking step (`cut`).  `cuts` lists the nodes passed to
`roots_.AddSibling`, in call order. -/
inductive FibChildRes (α : Type u) where
  | notFound
  | noCut (ch : List (FibNode α)) (cuts : List (FibNode α))
  | cut (ch : List (FibNode α)) (cuts : List (FibNode α))

/-- Outcome of the cascade on one subtree: `done` means the cascade ended
inside (the rewritten subtree stays in place), `cutMe` means the subtree
root itself was marked, so the caller must detach it and append it to the
root list (its mark has been cleared). -/
inductive FibSiftRes (α : Type u) where
  | notFound
  | done (t : FibNode α) (cuts : List (FibNode α))
  | cutMe (t : FibNode α) (cuts : List (FibNode α))

mutual
/-- The body of `FibonacciHeap::ReduceKey` below one node: find `id`
strictly inside the subtree, set the key, cut if it violates order with
its parent, and run the marking cascade (`set_mark` / `clear_mark` +
`Cut`).  The moved node keeps all its other fields — in particular the
source never clears the mark of the node whose key was reduced. -/
def fibSiftNode {α : Type u} (lt : α → α → Bool) (k : α) (id : Nat) :
    FibNode α → FibSiftRes α
  | .mk nk ni nm ch =>
    match fibSiftChildren lt k id nk ch with
    | .notFound => .notFound
    | .noCut ch2 cuts => .done (.mk nk ni nm ch2) cuts
    | .cut ch2 cuts =>
      if nm then .cutMe (.mk nk ni false ch2) cuts
      else .done (.mk nk ni true ch2) cuts

/-- Scan a children list (parent key `pk`) for the node carrying `id`. -/
def fibSiftChildren {α : Type u} (lt : α → α → Bool) (k : α) (id : Nat)
    (pk : α) : List (FibNode α) → FibChildRes α
  | [] => .notFound
  | c :: rest =>
    if c.id = id then
      if lt k pk then
        .cut rest [.mk k id c.marked c.children]
      else
        .noCut (.mk k id c.marked c.children :: rest) []
    else
      match fibSiftNode lt k id c with
      | .done c2 cuts => .noCut (c2 :: rest) cuts
      | .cutMe c2 cuts => .cut rest (cuts ++ [c2])
      | .notFound =>
        match fibSiftChildren lt k id pk rest with
        | .notFound => .notFound
        | .noCut ch2 cuts => .noCut (c :: ch2) cuts
        | .cut ch2 cuts => .cut (c :: ch2) cuts
end

/-- `ReduceKey` over the root list: a root carrying `id` just gets the new
key (it has no parent); otherwise the first tree containing `id` is
rewritten and the cut nodes are appended (via `roots_.AddSibling`) at the
end of the list.  `none` when the id is nowhere (the C++ would dereference
a null pointer). -/
def fibSiftRoots {α : Type u} (lt : α → α → Bool) (k : α) (id : Nat) :
    List (FibNode α) → Option (List (FibNode α) × List (FibNode α))
  | [] => none
  | r :: rest =>
    if r.id = id then
      some (FibNode.mk k id r.marked r.children :: rest, [])
    else
      match fibSiftNode lt k id r with
      | .done r2 cuts => some (r2 :: rest, cuts)
      | .cutMe r2 cuts => some (rest, cuts ++ [r2])
      | .notFound =>
        match fibSiftRoots lt k id rest with
        | none => none
        | some (rest2, cuts) => some (r :: rest2, cuts)

mutual
/-- Find the node carrying `id` in a subtree (pre-order, as the sift). -/
def fibFindNode {α : Type u} (id : Nat) : FibNode α → Option (FibNode α)
  | .mk nk ni nm ch =>
    if ni = id then some (.mk nk ni nm ch) else fibFindList id ch

/-- Find the node carrying `id` in a forest. -/
def fibFindList {α : Type u} (id : Nat) :
    List (FibNode α) → Option (FibNode α)
  | [] => none
  | c :: rest =>
    match fibFindNode id c with
    | some n => some n
    | none => fibFindList id rest
end

mutual
/-- The parent of the node carrying `id` inside a subtree (pre-order scan
aligned with `fibSiftChildren`). -/
def fibParentNode {α : Type u} (id : Nat) :
    FibNode α → Option (FibNode α)
  | .mk nk ni nm ch => fibParentScan id (.mk nk ni nm ch) ch

/-- Scan the children of `p` for `id`; descend when not a direct child. -/
def fibParentScan {α : Type u} (id : Nat) (p : FibNode α) :
    List (FibNode α) → Option (FibNode α)
  | [] => none
  | c :: rest =>
    if c.id = id then some p
    else
      match fibParentNode id c with
      | some q => some q
      | none => fibParentScan id p rest
end

/-- The parent of the node carrying `id` in the forest (`none` when `id`
names a root or is absent). -/
def fibParentList {α : Type u} (id : Nat) :
    List (FibNode α) → Option (FibNode α)
  | [] => none
  | r :: rest =>
    if r.id = id then none
    else
      match fibParentNode id r with
      | some p => some p
      | none => fibParentList id rest

/-- All (key, id) payloads of a Fibonacci subtree. -/
def fibPairs {α : Type u} : FibNode α → List (α × Nat)
  | .mk k i _ ch => (k, i) :: (ch.attach.map (fun c => fibPairs c.1)).flatten
decreasing_by
  have := List.sizeOf_lt_of_mem c.2
  simp only [FibNode.mk.sizeOf_spec]
  omega

/-- Remove the first root carrying `id` (pointer splice of `Cut` on a
root; root ids are unique under the heap invariant). -/
def fibRemoveId {α : Type u} (id : Nat) :
    List (FibNode α) → List (FibNode α)
  | [] => []
  | r :: rest => if r.id = id then rest else r :: fibRemoveId id rest

/-- The first root carrying `id` (the `min_root_` pointer always
references a root under the heap invariant). -/
def fibFindRoot {α : Type u} (id : Nat) :
    List (FibNode α) → Option (FibNode α)
  | [] => none
  | r :: rest => if r.id = id then some r else fibFindRoot id rest

/-- The running minimum of `FibonacciHeap::PopMinimum`'s final scan
(strict improvement only, first minimal root wins). -/
def fibRunMin {α : Type u} (lt : α → α → Bool) :
    FibNode α → List (FibNode α) → FibNode α
  | cur, [] => cur
  | cur, r :: rest =>
    if lt r.key cur.key then fibRunMin lt r rest else fibRunMin lt cur rest

/-- `FibonacciHeap::MergeRoot_`: place `root` into `roots_by_degree_`,
carry-merging while a tree of equal degree is present.  The `while (true)`
loop is modelled with fuel; every iteration clears one occupied slot, so
any fuel larger than the number of occupied slots is enough and the
fuel-out branch is unreachable at the call sites. -/
def fibMergeRoot {α : Type u} (lt : α → α → Bool) :
    Nat → FibNode α → List (Option (FibNode α)) →
    List (Option (FibNode α))
  | 0, root, rbd =>
    (if rbd.length < root.children.length + 1 then
      rbd ++ List.replicate (root.children.length + 1 - rbd.length) none
    else rbd).set root.children.length (some root)
  | fuel + 1, root, rbd =>
    let d := root.children.length
    let rbd2 := if rbd.length < d + 1 then
        rbd ++ List.replicate (d + 1 - rbd.length) none
      else rbd
    match rbd2.getD d none with
    | none => rbd2.set d (some root)
    | some root2 =>
      if lt root.key root2.key then
        fibMergeRoot lt fuel (fibAddChild root root2) (rbd2.set d none)
      else
        fibMergeRoot lt fuel (fibAddChild root2 root) (rbd2.set d none)

/-- The state of a `FibonacciHeap<T>`: the `roots_` list in sibling
order, the id held by `min_root_` (`none` when the heap is empty) and the
key set of `id_to_node_`. -/
structure FibHeap (α : Type u) where
  roots : List (FibNode α)
  minId : Option Nat
  ids : List Nat

/-- `FibonacciHeap::size`. -/
def FibHeap.size {α : Type u} (h : FibHeap α) : Nat :=
  h.ids.length

/-- `FibonacciHeap::Add`: `CHECK` the id is fresh, append a fresh singleton
root (`roots_.AddSibling` inserts at the tail) and update `min_root_`
(comparing against its current key). -/
def FibHeap.Add {α : Type u} (lt : α → α → Bool) (h : FibHeap α)
    (key : α) (id : Nat) : Option (FibHeap α) :=
  if id ∈ h.ids then none
  else
    some ⟨h.roots ++ [FibNode.mk key id false []],
      match h.minId with
      | none => some id
      | some mid =>
        match fibFindRoot mid h.roots with
        | none => some mid
        | some mn => if lt key mn.key then some id else some mid,
      id :: h.ids⟩

/-- `FibonacciHeap::ReduceKey`: set the key, update `min_root_`, cut the
node to the root list when it violates order with its parent, and run the
marking cascade.  On an absent id the C++ dereferences a null pointer
(undefined behaviour); the model leaves the heap unchanged. -/
def FibHeap.ReduceKey {α : Type u} (lt : α → α → Bool) (h : FibHeap α)
    (new_key : α) (id : Nat) : FibHeap α :=
  match fibSiftRoots lt new_key id h.roots with
  | none => h
  | some (roots2, cuts) =>
    ⟨roots2 ++ cuts,
      match h.minId with
      | none => h.minId
      | some mid =>
        match fibFindRoot mid h.roots with
        | none => h.minId
        | some mn => if lt new_key mn.key then some id else some mid,
      h.ids⟩

/-- `FibonacciHeap::LookUp`. -/
def FibHeap.LookUp {α : Type u} (h : FibHeap α) (id : Nat) : Option α :=
  if id ∈ h.ids then (fibFindList id h.roots).map FibNode.key else none

/-- `FibonacciHeap::Min` (undefined on an empty heap, modelled as
`none`): the pair held by `min_root_`. -/
def FibHeap.Min {α : Type u} (h : FibHeap α) : Option (α × Nat) :=
  match h.minId with
  | none => none
  | some mid =>
    match fibFindRoot mid h.roots with
    | none => none
    | some mn => some (mn.key, mn.id)

/-- `FibonacciHeap::PopMinimum`: read the pair held by `min_root_`, cut it
out, merge the remaining roots then its children into
`roots_by_degree_`, and rebuild `roots_` and `min_root_` from the
degree-ordered scan. -/
def FibHeap.PopMinimum {α : Type u} (lt : α → α → Bool) (h : FibHeap α) :
    Option ((α × Nat) × FibHeap α) :=
  match h.minId with
  | none => none
  | some mid =>
    match fibFindRoot mid h.roots with
    | none => none
    | some mn =>
      let fuelE := h.ids.length + 1
      let rbd1 := (fibRemoveId mid h.roots).foldl
        (fun rbd r => fibMergeRoot lt fuelE r rbd) []
      let rbd2 := mn.children.foldl
        (fun rbd r => fibMergeRoot lt fuelE r rbd) rbd1
      let newRoots := rbd2.filterMap (fun o => o)
      some ((mn.key, mn.id),
        ⟨newRoots,
          match newRoots with
          | [] => none
          | r :: rest => some (fibRunMin lt r rest).id,
          iderase h.ids mid⟩)

/-- The empty Fibonacci heap. -/
def FibHeap.empty {α : Type u} : FibHeap α := ⟨[], none, []⟩

/-! ### Graph (graph/graph.h), weighted graph and paths
(shortest_path/shortest_path.h) -/

/-- A directed edge (`Edge`): graph-unique id and destination vertex. -/
structure Edge where
  id : Nat
  to_vertex_id : Nat

/-- A vertex (`Vertex`): its id and outgoing edges. -/
structure Vertex where
  id : Nat
  edges : List Edge

/-- An immutable `Graph`: vertices indexed by their ids (the builder makes
`vertices_[i].id() == i`). -/
structure Graph where
  vertices : List Vertex

/-- `Graph::GetVertex` (`vertices_[vertex_id]`; indexing out of range is
undefined behaviour in the C++, modelled by an edgeless dummy vertex and
excluded by the well-formedness hypotheses). -/
def Graph.GetVertex (g : Graph) (vertex_id : Nat) : Vertex :=
  g.vertices.getD vertex_id ⟨vertex_id, []⟩

/-- A `WeightedGraph<T>` with `T = int` modelled by `Int`. -/
structure WeightedGraph where
  graph : Graph
  edge_weights : Properties Int

/-- `Path<T>`: vertex sequence and total distance. -/
structure PathM where
  vertices : List Nat
  distance : Int

/-- The well-formedness the graph builder guarantees: vertex ids equal
their positions and every edge stays inside the graph. -/
def WFGraph (g : Graph) : Prop :=
  (∀ i (h : i < g.vertices.length), (g.vertices.get ⟨i, h⟩).id = i) ∧
  (∀ v ∈ g.vertices, ∀ e ∈ v.edges, e.to_vertex_id < g.vertices.length)

/-- A walk along directed edges: `WalkFrom g u es v` holds when following
the edges `es` from `u` (each taken from the edge list of the vertex it
leaves) reaches `v`. -/
def WalkFrom (g : Graph) : Nat → List Edge → Nat → Prop
  | u, [], v => u = v
  | u, e :: es, v =>
    e ∈ (g.GetVertex u).edges ∧ WalkFrom g e.to_vertex_id es v

/-- The total weight of a walk. -/
def walkWeight (wg : WeightedGraph) (es : List Edge) : Int :=
  (es.map (fun e => wg.edge_weights.Get e.id)).sum

/-- Reachability with a given total distance. -/
def ReachableW (wg : WeightedGraph) (s v : Nat) (d : Int) : Prop :=
  ∃ es, WalkFrom wg.graph s es v ∧ walkWeight wg es = d

/-- Plain reachability. -/
def ReachableG (wg : WeightedGraph) (s v : Nat) : Prop :=
  ∃ es, WalkFrom wg.graph s es v

/-! ### Dijkstra (shortest_path/dijkstra_shortest_path.h) -/

/-- `DistanceNode<T>` with `T = int`. -/
structure DistanceNode where
  vertex_id : Nat
  distance : Int

/-- `DistanceNode::operator<`: compares by distance only. -/
def dnLt (a b : DistanceNode) : Bool := a.distance < b.distance

/-- The heap interface `Heap<DistanceNode<int>>` seen through a backend
state type `σ` (`Run` receives the backend through a factory and uses
exactly these five operations; `empty()` is `size() == 0`).  Operations
whose C++ contract can fail (a `CHECK` or undefined behaviour) return
`none` on the failing branch. -/
structure HeapImpl (σ : Type) where
  empty : σ
  size : σ → Nat
  Add : σ → DistanceNode → Nat → Option σ
  ReduceKey : σ → DistanceNode → Nat → Option σ
  LookUp : σ → Nat → Option DistanceNode
  PopMinimum : σ → Option ((DistanceNode × Nat) × σ)

/-- The loop state of `DijkstraShortestPath::Run`: the heap, the
`results` map and the `prev_vertex_map`. -/
structure DijkState (σ : Type) where
  heap : σ
  results : List (Nat × PathM)
  prev : List (Nat × Nat)

/-- The edge-relaxation loop body of `Run` (the `for (const Edge &edge :
from_vertex.edges())` loop): skip settled targets, `CHECK` the total is
non-negative, `Add` undiscovered targets, `ReduceKey` improved ones, and
record the predecessor. -/
def dijkstraRelax {σ : Type} (H : HeapImpl σ) (wg : WeightedGraph)
    (minNode : DistanceNode) :
    List Edge → DijkState σ → Option (DijkState σ)
  | [], st => some st
  | e :: rest, st =>
    if (alookup st.results e.to_vertex_id).isSome then
      dijkstraRelax H wg minNode rest st
    else
      let total := minNode.distance + wg.edge_weights.Get e.id
      if total < 0 then none
      else
        match H.LookUp st.heap e.to_vertex_id with
        | none =>
          match H.Add st.heap ⟨e.to_vertex_id, total⟩ e.to_vertex_id with
          | none => none
          | some h2 =>
            dijkstraRelax H wg minNode rest
              ⟨h2, st.results, aset st.prev e.to_vertex_id minNode.vertex_id⟩
        | some to_node =>
          if total < to_node.distance then
            match H.ReduceKey st.heap ⟨e.to_vertex_id, total⟩
                e.to_vertex_id with
            | none => none
            | some h2 =>
              dijkstraRelax H wg minNode rest
                ⟨h2, st.results, aset st.prev e.to_vertex_id
                  minNode.vertex_id⟩
          else dijkstraRelax H wg minNode rest st

/-- The main `while (!heap->empty())` loop of `Run`, with fuel for the
shallow embedding (the correctness theorem shows any fuel of at least
`dijkPotential` makes the fuel-out branch unreachable). -/
def dijkstraLoop {σ : Type} (H : HeapImpl σ) (wg : WeightedGraph) :
    Nat → DijkState σ → Option (DijkState σ)
  | 0, st => if H.size st.heap = 0 then some st else none
  | fuel + 1, st =>
    if H.size st.heap = 0 then some st
    else
      match H.PopMinimum st.heap with
      | none => none
      | some (m, h2) =>
        match alookup st.results m.1.vertex_id with
        | some _ => dijkstraLoop H wg fuel ⟨h2, st.results, st.prev⟩
        | none =>
          match dijkstraRelax H wg m.1
              (wg.graph.GetVertex m.1.vertex_id).edges
              ⟨h2, ainsertNew st.results m.1.vertex_id ⟨[], m.1.distance⟩,
                st.prev⟩ with
          | none => none
          | some st2 => dijkstraLoop H wg fuel st2

/-- The backwards trace of `prev_vertex_map` performed for each result
(`while (vertex_id != start_vertex_id) ...`), with fuel; it yields the
vertex list from `v` back to `start`. -/
def tracePath (prev : List (Nat × Nat)) (start : Nat) :
    Nat → Nat → Option (List Nat)
  | 0, v => if v = start then some [start] else none
  | fuel + 1, v =>
    if v = start then some [start]
    else
      match alookup prev v with
      | none => none
      | some p => (tracePath prev start fuel p).map (fun l => v :: l)

/-- The path-reconstruction pass at the end of `Run`: fill in
`path.vertices` for every result by tracing `prev_vertex_map` and
reversing. -/
def dijkstraFinish {σ : Type} (st : DijkState σ) (start : Nat) :
    Option (List (Nat × PathM)) :=
  st.results.mapM (fun r =>
    (tracePath st.prev start st.results.length r.1).map
      (fun l => (r.1, PathM.mk l.reverse r.2.distance)))

/-- `DijkstraShortestPath::Run`: seed the heap with the start vertex at
distance `0`, run the main loop, then reconstruct the paths. -/
def DijkstraRun {σ : Type} (H : HeapImpl σ) (wg : WeightedGraph)
    (start : Nat) (fuel : Nat) : Option (List (Nat × PathM)) :=
  match H.Add H.empty ⟨start, 0⟩ start with
  | none => none
  | some h1 =>
    match dijkstraLoop H wg fuel ⟨h1, [], []⟩ with
    | none => none
    | some st => dijkstraFinish st start

/-- The laws a heap backend must satisfy, phrased through an invariant
`inv` and a contents view `view` (the list of stored (key, id) pairs up
to permutation).  Each clause matches a proved specification of the
concrete heaps in this file. -/
structure HeapLaws {σ : Type} (H : HeapImpl σ) (inv : σ → Prop)
    (view : σ → List (DistanceNode × Nat)) : Prop where
  inv_empty : inv H.empty
  view_empty : view H.empty = []
  nodup : ∀ s, inv s → ((view s).map Prod.snd).Nodup
  size_eq : ∀ s, inv s → H.size s = (view s).length
  lookup_mem : ∀ s, inv s → ∀ id k,
    H.LookUp s id = some k ↔ (k, id) ∈ view s
  add_fresh : ∀ s, inv s → ∀ k id, id ∉ (view s).map Prod.snd →
    ∃ s2, H.Add s k id = some s2 ∧ inv s2 ∧
      (view s2).Perm ((k, id) :: view s)
  reduce : ∀ s, inv s → ∀ k id cur, H.LookUp s id = some cur →
    dnLt k cur = true →
    ∃ s2 rest, H.ReduceKey s k id = some s2 ∧ inv s2 ∧
      (view s).Perm ((cur, id) :: rest) ∧
      (view s2).Perm ((k, id) :: rest)
  pop : ∀ s, inv s → view s ≠ [] →
    ∃ m s2, H.PopMinimum s = some (m, s2) ∧ inv s2 ∧
      (m :: view s2).Perm (view s) ∧
      ∀ x ∈ view s, dnLt x.1 m.1 = false

/-- The edge relation with weights used to state the Dijkstra claims. -/
def HasEdge (wg : WeightedGraph) (u v : Nat) (w : Int) : Prop :=
  ∃ e ∈ (wg.graph.GetVertex u).edges,
    e.to_vertex_id = v ∧ wg.edge_weights.Get e.id = w

/-- Non-negative edge weights (the hypothesis of Dijkstra's algorithm). -/
def WNonneg (wg : WeightedGraph) : Prop :=
  ∀ i : Nat, 0 ≤ wg.edge_weights.Get i

/-- Termination potential of the main loop: heap size plus the number of
vertices not yet discovered.  Every iteration decreases it. -/
def dijkPotential {σ : Type} (wg : WeightedGraph)
    (view : σ → List (DistanceNode × Nat)) (st : DijkState σ) : Nat :=
  (view st.heap).length +
    (List.range wg.graph.vertices.length).countP (fun v =>
      (alookup st.results v).isNone &&
        !((view st.heap).map Prod.snd).contains v)

/-- Core of the loop invariant of `DijkstraShortestPath::Run` (everything
except the frontier-coverage clause): heap entries are consistent,
non-negative and realizable with recorded predecessors; settled results
are exact shortest distances whose paths trace back through settled
vertices; before the first pop the state is exactly the seeded one. -/
def DijkCore {σ : Type} (inv : σ → Prop)
    (view : σ → List (DistanceNode × Nat)) (wg : WeightedGraph)
    (start : Nat) (st : DijkState σ) : Prop :=
  inv st.heap ∧
  (st.results.map Prod.fst).Nodup ∧
  (∀ p ∈ view st.heap, p.1.vertex_id = p.2 ∧
    alookup st.results p.2 = none ∧ 0 ≤ p.1.distance ∧
    p.2 < wg.graph.vertices.length) ∧
  (∀ p ∈ view st.heap, ReachableW wg start p.2 p.1.distance) ∧
  (∀ r ∈ st.results, 0 ≤ r.2.distance ∧ r.1 < wg.graph.vertices.length ∧
    ∃ es, WalkFrom wg.graph start es r.1 ∧
      walkWeight wg es = r.2.distance ∧
      tracePath st.prev start st.results.length r.1 =
        some (start :: es.map Edge.to_vertex_id).reverse ∧
      ∀ x ∈ start :: es.map Edge.to_vertex_id,
        (alookup st.results x).isSome = true) ∧
  (∀ r ∈ st.results, ∀ es, WalkFrom wg.graph start es r.1 →
    r.2.distance ≤ walkWeight wg es) ∧
  (∀ p ∈ view st.heap, p.2 ≠ start →
    ∃ u pu w, alookup st.prev p.2 = some u ∧
      alookup st.results u = some pu ∧ HasEdge wg u p.2 w ∧
      p.1.distance = pu.distance + w) ∧
  (alookup st.results start = none →
    st.results = [] ∧ st.prev = [] ∧
    (view st.heap).Perm [(⟨start, 0⟩, start)])

/-- Frontier coverage: every edge out of a settled vertex into an
unsettled one is matched by a heap entry at most as distant. -/
def DijkFrontier {σ : Type}
    (view : σ → List (DistanceNode × Nat)) (wg : WeightedGraph)
    (st : DijkState σ) : Prop :=
  ∀ r ∈ st.results, ∀ e ∈ (wg.graph.GetVertex r.1).edges,
    alookup st.results e.to_vertex_id = none →
    ∃ kx, (kx, e.to_vertex_id) ∈ view st.heap ∧
      kx.distance ≤ r.2.distance + wg.edge_weights.Get e.id

/-- Frontier coverage while the relaxation loop for the just-settled
vertex `mv` still has the edges `todo` to process. -/
def DijkFrontierR {σ : Type}
    (view : σ → List (DistanceNode × Nat)) (wg : WeightedGraph)
    (mv : Nat) (todo : List Edge) (st : DijkState σ) : Prop :=
  ∀ r ∈ st.results, ∀ e ∈ (wg.graph.GetVertex r.1).edges,
    alookup st.results e.to_vertex_id = none →
    (r.1 = mv ∧ e ∈ todo) ∨
    ∃ kx, (kx, e.to_vertex_id) ∈ view st.heap ∧
      kx.distance ≤ r.2.distance + wg.edge_weights.Get e.id

/-- The full loop invariant. -/
def DijkInv {σ : Type} (inv : σ → Prop)
    (view : σ → List (DistanceNode × Nat)) (wg : WeightedGraph)
    (start : Nat) (st : DijkState σ) : Prop :=
  DijkCore inv view wg start st ∧ DijkFrontier view wg st

/-- The binary heap (`BinaryHeap<DistanceNode<int>>`) as a Dijkstra
backend. -/
def binHeapImpl : HeapImpl (BinaryHeap DistanceNode) where
  empty := BinaryHeap.empty
  size := BinaryHeap.size
  Add := fun s k id => s.Add dnLt k id
  ReduceKey := fun s k id => s.ReduceValue dnLt k id
  LookUp := BinaryHeap.LookUp
  PopMinimum := fun s => s.PopMinimum dnLt

/-! ### Pairing heap (heaps/pairing_heap.h) -/

/-- `PairingHeapNode<T>`: value, key and the child chain (`child_`
followed by the `right_` siblings, first child first).  The `left_`
back-pointers are bookkeeping recoverable from the tree shape. -/
inductive PairingHeapNode (α : Type u) where
  | mk (value : α) (key : Nat) (children : List (PairingHeapNode α))

/-- The value stored at a node. -/
def PairingHeapNode.value {α : Type u} : PairingHeapNode α → α
  | .mk v _ _ => v

/-- The key stored at a node. -/
def PairingHeapNode.key {α : Type u} : PairingHeapNode α → Nat
  | .mk _ k _ => k

/-- The child chain of a node. -/
def PairingHeapNode.children {α : Type u} :
    PairingHeapNode α → List (PairingHeapNode α)
  | .mk _ _ ch => ch

/-- `PairingHeapNode::AddChild`: the new child becomes the first child. -/
def PairingHeapNode.AddChild {α : Type u} (n c : PairingHeapNode α) :
    PairingHeapNode α :=
  .mk n.value n.key (c :: n.children)

/-- `PairingHeapNode::MergeTrees`: the larger root becomes the first
child of the smaller. -/
def PairingHeapNode.MergeTrees {α : Type u} (lt : α → α → Bool)
    (a b : PairingHeapNode α) : PairingHeapNode α :=
  if lt a.value b.value then a.AddChild b else b.AddChild a

/-- First pass of `MergeTreeList`: merge adjacent pairs left to right,
prepending each result (`merged->right_ = merged_head`), so the
accumulator holds the merged pairs in reverse order; an odd final tree
is prepended alone. -/
def phPass1 {α : Type u} (lt : α → α → Bool) :
    List (PairingHeapNode α) → List (PairingHeapNode α) →
      List (PairingHeapNode α)
  | acc, [] => acc
  | acc, [a] => a :: acc
  | acc, a :: b :: rest =>
    phPass1 lt (PairingHeapNode.MergeTrees lt a b :: acc) rest

/-- Second pass of `MergeTreeList`: fold the reversed pair list into one
tree (`merged_head = MergeTrees(node, merged_head)`). -/
def phPass2 {α : Type u} (lt : α → α → Bool) :
    PairingHeapNode α → List (PairingHeapNode α) → PairingHeapNode α
  | m, [] => m
  | m, a :: rest => phPass2 lt (PairingHeapNode.MergeTrees lt a m) rest

/-- `PairingHeapNode::MergeTreeList`. -/
def PairingHeapNode.MergeTreeList {α : Type u} (lt : α → α → Bool)
    (l : List (PairingHeapNode α)) : Option (PairingHeapNode α) :=
  match phPass1 lt [] l with
  | [] => none
  | m :: rest => some (phPass2 lt m rest)

/-- A `PairingHeap<T>`: the min root (maybe null) and the key set of
`key_to_node_` (the mapped nodes live inside the tree). -/
structure PairingHeap (α : Type u) where
  root : Option (PairingHeapNode α)
  keys : List Nat

/-- `PairingHeap::Add` (`CHECK`s that the key is fresh). -/
def PairingHeap.Add {α : Type u} (lt : α → α → Bool) (h : PairingHeap α)
    (value : α) (key : Nat) : Option (PairingHeap α) :=
  if key ∈ h.keys then none
  else
    match h.root with
    | none => some ⟨some (PairingHeapNode.mk value key []), key :: h.keys⟩
    | some r =>
      some ⟨some (PairingHeapNode.MergeTrees lt r
        (PairingHeapNode.mk value key [])), key :: h.keys⟩

/-- `PairingHeap::PopMinimum` (`DCHECK(size() > 0)`: undefined on the
empty heap, modelled as `none`). -/
def PairingHeap.PopMinimum {α : Type u} (lt : α → α → Bool)
    (h : PairingHeap α) : Option ((α × Nat) × PairingHeap α) :=
  match h.root with
  | none => none
  | some r =>
    some ((r.value, r.key),
      ⟨PairingHeapNode.MergeTreeList lt r.children, h.keys.erase r.key⟩)

/-- `PairingHeap::Min` (`DCHECK(size() > 0)`: undefined on the empty
heap, modelled as `none`). -/
def PairingHeap.Min {α : Type u} (h : PairingHeap α) : Option (α × Nat) :=
  match h.root with
  | none => none
  | some r => some (r.value, r.key)

/-- A freshly constructed `PairingHeap<T>`. -/
def PairingHeap.empty {α : Type u} : PairingHeap α := ⟨none, []⟩

/-- All (value, key) payloads of a pairing tree. -/
def phPairs {α : Type u} : PairingHeapNode α → List (α × Nat)
  | .mk v k ch => (v, k) :: (ch.attach.map (fun c => phPairs c.1)).flatten
decreasing_by
  have := List.sizeOf_lt_of_mem c.2
  simp only [PairingHeapNode.mk.sizeOf_spec]
  omega

/-- Min-heap order within a pairing tree: no child value is smaller than
its parent value. -/
def phOrdered {α : Type u} (lt : α → α → Bool) : PairingHeapNode α → Bool
  | .mk v _ ch =>
    ch.attach.all (fun c => !(lt c.1.value v) && phOrdered lt c.1)
decreasing_by
  have := List.sizeOf_lt_of_mem c.2
  simp only [PairingHeapNode.mk.sizeOf_spec]
  omega

/-- The payloads stored in a pairing heap. -/
def phHeapPairs {α : Type u} (h : PairingHeap α) : List (α × Nat) :=
  match h.root with
  | none => []
  | some r => phPairs r

/-- Add a list of (value, key) pairs in order. -/
def phAddAll {α : Type u} (lt : α → α → Bool) (h : PairingHeap α)
    (l : List (α × Nat)) : Option (PairingHeap α) :=
  l.foldl (fun acc p => acc.bind (fun hh => hh.Add lt p.1 p.2)) (some h)

/-- Pop every element (with fuel). -/
def phPopAll {α : Type u} (lt : α → α → Bool) :
    PairingHeap α → Nat → List (α × Nat)
  | _, 0 => []
  | h, fuel + 1 =>
    match h.PopMinimum lt with
    | none => []
    | some (p, h2) => p :: phPopAll lt h2 fuel

/-- The strict order `operator<` of `int` keys. -/
def intLt (a b : Int) : Bool := a < b

/-- A freshly constructed `BinomialHeap<T>`. -/
def BinomialHeap.empty {α : Type u} : BinomialHeap α := ⟨[], []⟩

/-- A concrete 4-vertex weighted digraph (edges 0→1 w5, 0→2 w3, 1→3 w10,
2→3 w20) used to instantiate the Dijkstra theorems. -/
def g1 : WeightedGraph :=
  ⟨⟨[⟨0, [⟨0, 1⟩, ⟨1, 2⟩]⟩, ⟨1, [⟨2, 3⟩]⟩, ⟨2, [⟨3, 3⟩]⟩, ⟨3, []⟩]⟩,
    ⟨[5, 3, 10, 20], 0⟩⟩

/-- A concrete Fibonacci heap state, reached from the empty heap by
`Add(1,0) … Add(5,4)`, `PopMinimum`, `ReduceKey(0,4)` (which cuts node 4
and marks node 3). -/
def fibMarkHeap : FibHeap Int :=
  ⟨[FibNode.mk 2 1 false [FibNode.mk 4 3 true [], FibNode.mk 3 2 false []],
    FibNode.mk 0 4 false []], some 4, [1, 2, 3, 4]⟩

/-! ## Theorems -/

/-- `lt` is asymmetric (derived). -/
theorem SWO.asymm {α : Type u} {lt : α → α → Bool} (h : SWO lt) (a b : α)
    (hab : lt a b = true) : lt b a = false := by
  by_contra hba
  rw [Bool.not_eq_false] at hba
  have := h.trans a b a hab hba
  rw [h.irrefl a] at this
  exact Bool.false_ne_true this

/-- If `x` is not below `b` but `k` is, then `x` is not below `k`. -/
theorem SWO.negOfLt {α : Type u} {lt : α → α → Bool} (h : SWO lt)
    (x b k : α) (hxb : lt x b = false) (hkb : lt k b = true) :
    lt x k = false := by
  by_contra h2
  rw [Bool.not_eq_false] at h2
  have := h.trans _ _ _ h2 hkb
  rw [hxb] at this
  exact Bool.false_ne_true this

/-! ### Association-list lemmas -/

theorem alookup_cons {β : Type u} (p : Nat × β) (m : List (Nat × β)) (k : Nat) :
    alookup (p :: m) k = if p.1 = k then some p.2 else alookup m k := by
  by_cases h : p.1 = k <;> simp [alookup, List.find?_cons, h]

theorem alookup_aset_self {β : Type u} (m : List (Nat × β)) (k : Nat) (v : β) :
    alookup (aset m k v) k = some v := by
  induction m with
  | nil => simp [aset, alookup_cons]
  | cons p rest ih =>
    by_cases h : p.1 = k
    · simp [aset, h, alookup_cons]
    · simp [aset, h, alookup_cons, ih]

theorem alookup_aset_ne {β : Type u} (m : List (Nat × β)) (k : Nat) (v : β)
    (k2 : Nat) (h : k2 ≠ k) : alookup (aset m k v) k2 = alookup m k2 := by
  induction m with
  | nil =>
    show alookup [(k, v)] k2 = alookup [] k2
    rw [alookup_cons, if_neg (Ne.symm h)]
  | cons p rest ih =>
    by_cases hp : p.1 = k
    · show alookup (if p.1 = k then (k, v) :: rest else p :: aset rest k v) k2 = _
      rw [if_pos hp, alookup_cons, alookup_cons, if_neg (Ne.symm h),
        if_neg (by rw [hp]; exact Ne.symm h)]
    · show alookup (if p.1 = k then (k, v) :: rest else p :: aset rest k v) k2 = _
      rw [if_neg hp, alookup_cons, alookup_cons, ih]

theorem keys_aset_mem {β : Type u} (m : List (Nat × β)) (k : Nat) (v : β)
    (x : Nat) (hx : x ∈ (aset m k v).map Prod.fst) :
    x ∈ m.map Prod.fst ∨ x = k := by
  induction m with
  | nil =>
    right
    rcases (List.mem_map.mp hx) with ⟨q, hq, hqx⟩
    rcases List.mem_singleton.mp hq with rfl
    exact hqx.symm
  | cons p rest ih =>
    by_cases hp : p.1 = k
    · rw [show aset (p :: rest) k v = (k, v) :: rest from by rw [aset, if_pos hp]]
        at hx
      rw [List.map_cons, List.mem_cons] at hx
      rcases hx with h2 | h2
      · exact Or.inr h2
      · exact Or.inl (by rw [List.map_cons, List.mem_cons]; exact Or.inr h2)
    · rw [show aset (p :: rest) k v = p :: aset rest k v from by
        rw [aset, if_neg hp]] at hx
      rw [List.map_cons, List.mem_cons] at hx
      rcases hx with h2 | h2
      · exact Or.inl (by rw [List.map_cons, List.mem_cons]; exact Or.inl h2)
      · rcases ih h2 with h3 | h3
        · exact Or.inl (by rw [List.map_cons, List.mem_cons]; exact Or.inr h3)
        · exact Or.inr h3

theorem nodup_keys_aset {β : Type u} (m : List (Nat × β)) (k : Nat) (v : β)
    (h : (m.map Prod.fst).Nodup) : ((aset m k v).map Prod.fst).Nodup := by
  induction m with
  | nil => simp [aset]
  | cons p rest ih =>
    by_cases hp : p.1 = k
    · rw [show aset (p :: rest) k v = (k, v) :: rest from by rw [aset, if_pos hp]]
      rw [List.map_cons, List.nodup_cons]
      rw [List.map_cons, List.nodup_cons] at h
      exact ⟨hp ▸ h.1, h.2⟩
    · rw [show aset (p :: rest) k v = p :: aset rest k v from by
        rw [aset, if_neg hp]]
      rw [List.map_cons, List.nodup_cons]
      rw [List.map_cons, List.nodup_cons] at h
      refine ⟨?_, ih h.2⟩
      intro hmem
      rcases keys_aset_mem rest k v p.1 hmem with h2 | h2
      · exact h.1 h2
      · exact hp h2

theorem length_aset_present {β : Type u} (m : List (Nat × β)) (k : Nat) (v : β)
    (h : (alookup m k).isSome = true) : (aset m k v).length = m.length := by
  induction m with
  | nil => simp [alookup] at h
  | cons p rest ih =>
    by_cases hp : p.1 = k
    · rw [show aset (p :: rest) k v = (k, v) :: rest from by rw [aset, if_pos hp]]
      simp
    · rw [alookup_cons, if_neg hp] at h
      rw [show aset (p :: rest) k v = p :: aset rest k v from by
        rw [aset, if_neg hp]]
      simp [ih h]

theorem alookup_of_absent {β : Type u} (m : List (Nat × β)) (k : Nat)
    (h : k ∉ m.map Prod.fst) : alookup m k = none := by
  induction m with
  | nil => rfl
  | cons p rest ih =>
    rw [List.map_cons, List.mem_cons] at h
    push_neg at h
    rw [alookup_cons, if_neg (Ne.symm h.1)]
    exact ih h.2

theorem aerase_of_absent {β : Type u} (m : List (Nat × β)) (k : Nat)
    (h : k ∉ m.map Prod.fst) : aerase m k = m := by
  induction m with
  | nil => rfl
  | cons p rest ih =>
    rw [List.map_cons, List.mem_cons] at h
    push_neg at h
    rw [aerase, if_neg (fun hh => h.1 hh.symm), ih h.2]

theorem alookup_aerase_self {β : Type u} (m : List (Nat × β)) (k : Nat) :
    alookup (aerase m k) k = none := by
  induction m with
  | nil => rfl
  | cons p rest ih =>
    by_cases hp : p.1 = k
    · rw [aerase, if_pos hp]
      exact ih
    · rw [aerase, if_neg hp, alookup_cons, if_neg hp]
      exact ih

theorem alookup_aerase_ne {β : Type u} (m : List (Nat × β)) (k k2 : Nat)
    (h : k2 ≠ k) : alookup (aerase m k) k2 = alookup m k2 := by
  induction m with
  | nil => rfl
  | cons p rest ih =>
    by_cases hp : p.1 = k
    · rw [aerase, if_pos hp, alookup_cons,
        if_neg (by rw [hp]; exact Ne.symm h), ih]
    · rw [aerase, if_neg hp, alookup_cons, alookup_cons]
      by_cases hpk : p.1 = k2
      · rw [if_pos hpk, if_pos hpk]
      · rw [if_neg hpk, if_neg hpk, ih]

theorem aerase_sublist {β : Type u} (m : List (Nat × β)) (k : Nat) :
    (aerase m k).Sublist m := by
  induction m with
  | nil => exact List.Sublist.refl []
  | cons p rest ih =>
    by_cases hp : p.1 = k
    · rw [aerase, if_pos hp]
      exact ih.cons p
    · rw [aerase, if_neg hp]
      exact ih.cons₂ p

theorem nodup_keys_aerase {β : Type u} (m : List (Nat × β)) (k : Nat)
    (h : (m.map Prod.fst).Nodup) : ((aerase m k).map Prod.fst).Nodup :=
  ((aerase_sublist m k).map Prod.fst).nodup h

theorem length_aerase_present {β : Type u} (m : List (Nat × β)) (k : Nat)
    (hnd : (m.map Prod.fst).Nodup) (h : (alookup m k).isSome = true) :
    (aerase m k).length + 1 = m.length := by
  induction m with
  | nil => simp [alookup] at h
  | cons p rest ih =>
    rw [List.map_cons, List.nodup_cons] at hnd
    by_cases hp : p.1 = k
    · rw [aerase, if_pos hp,
        show aerase rest k = rest from aerase_of_absent rest k (hp ▸ hnd.1)]
      simp
    · rw [alookup_cons, if_neg hp] at h
      rw [aerase, if_neg hp, List.length_cons, List.length_cons, ih hnd.2 h]

/-! ### List helpers -/

theorem cons_set_swap_perm {γ : Type u} :
    ∀ (t : List γ) (m : Nat) (a b : γ), m < t.length →
      (a :: t.set m b).Perm (b :: t.set m a)
  | y :: s, 0, a, b, _ => by
    simpa using List.Perm.swap b a s
  | y :: s, m + 1, a, b, hm => by
    have ih := cons_set_swap_perm s m a b (by simpa using hm)
    have t1 : (a :: y :: s.set m b).Perm (y :: a :: s.set m b) :=
      List.Perm.swap y a _
    have t2 : (y :: a :: s.set m b).Perm (y :: b :: s.set m a) := ih.cons y
    have t3 : (y :: b :: s.set m a).Perm (b :: y :: s.set m a) :=
      List.Perm.swap b y _
    simpa using (t1.trans t2).trans t3

theorem set_set_swap_perm {γ : Type u} :
    ∀ (l : List γ) (i j : Nat) (a b : γ), i < j → j < l.length →
      ((l.set i a).set j b).Perm ((l.set i b).set j a)
  | [], _, _, _, _, _, hj => by simp at hj
  | x :: t, 0, j, a, b, hij, hj => by
    have hj2 : j - 1 < t.length := by simp at hj; omega
    have h1 : (((x :: t).set 0 a).set j b) = a :: t.set (j - 1) b := by
      cases j with
      | zero => omega
      | succ j2 => simp
    have h2 : (((x :: t).set 0 b).set j a) = b :: t.set (j - 1) a := by
      cases j with
      | zero => omega
      | succ j2 => simp
    rw [h1, h2]
    exact cons_set_swap_perm t (j - 1) a b hj2
  | x :: t, i + 1, j, a, b, hij, hj => by
    cases j with
    | zero => omega
    | succ j2 =>
      have ih := set_set_swap_perm t i j2 a b (by omega) (by simp at hj; omega)
      simpa using ih.cons x

theorem set_getElem?_eq_self {γ : Type u} :
    ∀ (l : List γ) (i : Nat) (a : γ), l[i]? = some a → l.set i a = l
  | [], i, a, h => by simp at h
  | x :: t, 0, a, h => by simp at h; simp [h]
  | x :: t, i + 1, a, h => by
    simp only [List.getElem?_cons_succ] at h
    simp [set_getElem?_eq_self t i a h]

/-! ### Binary heap: sift invariant machinery -/

theorem binSetElement_mapCorrect {α : Type u} (e : List (HeapElement α))
    (kti : List (Nat × Nat)) (element : HeapElement α) (hole : Nat)
    (hh : hole < e.length) (hmap : MapOkHole e kti element hole) :
    MapCorrect (e.set hole element) (aset kti element.2 hole) := by
  obtain ⟨m1, m2, m3, m4, m5, m6⟩ := hmap
  refine ⟨?_, ?_, nodup_keys_aset kti element.2 hole m5, ?_⟩
  · intro i x hx
    by_cases hih : i = hole
    · rw [hih] at hx
      rw [List.getElem?_set_self hh] at hx
      cases hx
      rw [hih]
      exact alookup_aset_self kti element.2 hole
    · rw [List.getElem?_set_ne (fun hh2 => hih hh2.symm)] at hx
      rw [alookup_aset_ne kti element.2 hole x.2 (m4 i x hx hih)]
      exact m1 i x hx hih
  · intro k j hkj
    by_cases hk : k = element.2
    · rw [hk] at hkj ⊢
      rw [alookup_aset_self kti element.2 hole] at hkj
      cases hkj
      exact ⟨element, List.getElem?_set_self hh, rfl⟩
    · rw [alookup_aset_ne kti element.2 hole k hk] at hkj
      rcases m2 k j hkj with h2 | ⟨hjh, x, hx1, hx2⟩
      · exact absurd h2 hk
      · exact ⟨x, by rw [List.getElem?_set_ne (fun hh2 => hjh hh2.symm)]; exact hx1, hx2⟩
  · rw [length_aset_present kti element.2 hole m3, m6, List.length_set]

theorem heapOrdered_min {α : Type u} {lt : α → α → Bool} (hswo : SWO lt)
    {e : List (HeapElement α)} (hord : HeapOrdered lt e) (m : HeapElement α)
    (hm : e[0]? = some m) :
    ∀ (i : Nat) (x : HeapElement α), e[i]? = some x → lt x.1 m.1 = false := by
  intro i
  induction i using Nat.strong_induction_on with
  | _ i ih =>
    intro x hx
    cases Nat.eq_zero_or_pos i with
    | inl h0 =>
      subst h0
      rw [hm] at hx
      cases hx
      exact hswo.irrefl m.1
    | inr hpos =>
      have hilen : i < e.length := (List.getElem?_eq_some_iff.mp hx).1
      have hplen : (i - 1) / 2 < e.length := by omega
      have hpx : e[(i - 1) / 2]? = some (e.get ⟨(i - 1) / 2, hplen⟩) := by
        rw [List.getElem?_eq_getElem hplen]
        rfl
      have h1 := hord i x _ hpos hx hpx
      have h2 := ih ((i - 1) / 2) (by omega) _ hpx
      exact hswo.negTrans _ _ _ h1 h2


theorem upPlace_ordered {α : Type u} {lt : α → α → Bool}
    (e : List (HeapElement α)) (element : HeapElement α) (hole : Nat)
    (hlen : hole < e.length) (hup : UpInv lt e element hole)
    (hstop : 0 < hole →
      ∀ pe, e[(hole - 1) / 2]? = some pe → lt element.1 pe.1 = false) :
    HeapOrdered lt (e.set hole element) := by
  intro i x px hi hx hpx
  by_cases hih : i = hole
  · subst hih
    rw [List.getElem?_set_self hlen] at hx
    obtain rfl := (Option.some_inj.mp hx).symm
    have hpar : (i - 1) / 2 ≠ i := by omega
    rw [List.getElem?_set_ne (fun hh => hpar hh.symm)] at hpx
    exact hstop hi px hpx
  · rw [List.getElem?_set_ne (fun hh => hih hh.symm)] at hx
    by_cases hph : (i - 1) / 2 = hole
    · rw [hph, List.getElem?_set_self hlen] at hpx
      obtain rfl := (Option.some_inj.mp hpx).symm
      exact hup.2.1 i x hi hph hx
    · rw [List.getElem?_set_ne (fun hh => hph hh.symm)] at hpx
      exact hup.1 i x px hi hih hx hpx

theorem binSiftUp_spec {α : Type u} {lt : α → α → Bool} (hswo : SWO lt) :
    ∀ (hole : Nat) (e : List (HeapElement α)) (kti : List (Nat × Nat))
      (element : HeapElement α), hole < e.length →
      UpInv lt e element hole → MapOkHole e kti element hole →
      HeapOrdered lt (binSiftUp lt e kti element hole).1 ∧
      MapCorrect (binSiftUp lt e kti element hole).1
        (binSiftUp lt e kti element hole).2 ∧
      (binSiftUp lt e kti element hole).1.Perm (e.set hole element) := by
  intro hole
  induction hole using Nat.strong_induction_on with
  | _ hole ih =>
    intro e kti element hlen hup hmap
    by_cases h0 : hole = 0
    · subst h0
      rw [binSiftUp]
      simp only [dif_pos rfl, binSetElement]
      exact ⟨upPlace_ordered e element 0 hlen hup (fun hc => by omega),
        binSetElement_mapCorrect e kti element 0 hlen hmap, List.Perm.refl _⟩
    · have hpos : 0 < hole := Nat.pos_of_ne_zero h0
      have hparlt : (hole - 1) / 2 < e.length := by omega
      obtain ⟨pe, hpe⟩ : ∃ y, e[(hole - 1) / 2]? = some y :=
        ⟨_, List.getElem?_eq_getElem hparlt⟩
      rw [binSiftUp]
      simp only [dif_neg h0, hpe]
      by_cases hlt : lt element.1 pe.1 = true
      · rw [if_pos hlt]
        simp only [binSetElement]
        have hparhole : (hole - 1) / 2 ≠ hole := by omega
        have hgetE2 : ∀ j, j ≠ hole → (e.set hole pe)[j]? = e[j]? := fun j hj =>
          List.getElem?_set_ne (fun hh => hj hh.symm)
        have hgetE2hole : (e.set hole pe)[hole]? = some pe :=
          List.getElem?_set_self hlen
        obtain ⟨x0, hstale⟩ : ∃ y, e[hole]? = some y :=
          ⟨_, List.getElem?_eq_getElem hlen⟩
        have hdistinct : ∀ i x, e[i]? = some x → i ≠ hole → x.2 = pe.2 →
            i = (hole - 1) / 2 := by
          intro i x hx hih hxpe
          have h1 := hmap.1 i x hx hih
          have h2 := hmap.1 _ pe hpe hparhole
          rw [hxpe, h2] at h1
          exact (Option.some_inj.mp h1).symm
        have hup2 : UpInv lt (e.set hole pe) element ((hole - 1) / 2) := by
          refine ⟨?_, ?_, ?_⟩
          · intro i x px hi hip hx hpx
            by_cases hih : i = hole
            · rw [hih, hgetE2hole] at hx
              have hx2 := Option.some_inj.mp hx
              rw [hih] at hpx
              rw [hgetE2 _ hparhole, hpe] at hpx
              have hpx2 := Option.some_inj.mp hpx
              rw [← hx2, ← hpx2]
              exact hswo.irrefl pe.1
            · rw [hgetE2 i hih] at hx
              by_cases hph : (i - 1) / 2 = hole
              · rw [hph, hgetE2hole] at hpx
                obtain rfl := (Option.some_inj.mp hpx).symm
                have hilen : i < e.length := (List.getElem?_eq_some_iff.mp hx).1
                have h1 := hup.1 i x x0 hi hih hx (by rw [hph]; exact hstale)
                have h2 := hup.2.2 i hi hph hilen hpos x0 px hstale hpe
                exact hswo.negTrans _ _ _ h1 h2
              · rw [hgetE2 _ hph] at hpx
                exact hup.1 i x px hi hih hx hpx
          · intro i x hi hph hx
            by_cases hih : i = hole
            · rw [hih, hgetE2hole] at hx
              obtain rfl := (Option.some_inj.mp hx).symm
              exact hswo.asymm _ _ hlt
            · rw [hgetE2 i hih] at hx
              have h1 := hup.1 i x pe hi hih hx (by rw [hph]; exact hpe)
              by_contra hcon
              rw [Bool.not_eq_false] at hcon
              have h2 := hswo.trans _ _ _ hcon hlt
              rw [h1] at h2
              exact Bool.false_ne_true h2
          · intro i hi hph hilen hppos hx hp hhx hhp
            have hgp : ((hole - 1) / 2 - 1) / 2 ≠ hole := by omega
            rw [hgetE2 _ hparhole, hpe] at hhx
            have hhx2 := Option.some_inj.mp hhx
            rw [hgetE2 _ hgp] at hhp
            rw [← hhx2]
            exact hup.1 _ pe hp hppos hparhole hpe hhp
        have hmap2 : MapOkHole (e.set hole pe) (aset kti pe.2 hole) element
            ((hole - 1) / 2) := by
          obtain ⟨m1, m2, m3, m4, m5, m6⟩ := hmap
          have hpepos := m1 _ pe hpe hparhole
          have hpene : pe.2 ≠ element.2 := m4 _ pe hpe hparhole
          refine ⟨?_, ?_, ?_, ?_, ?_, ?_⟩
          · intro i x hx hip
            by_cases hih : i = hole
            · rw [hih, hgetE2hole] at hx
              obtain rfl := (Option.some_inj.mp hx).symm
              rw [hih]
              exact alookup_aset_self kti x.2 hole
            · rw [hgetE2 i hih] at hx
              have hxpe : x.2 ≠ pe.2 := by
                intro hh
                exact hip (hdistinct i x hx hih hh)
              rw [alookup_aset_ne kti pe.2 hole x.2 hxpe]
              exact m1 i x hx hih
          · intro k j hkj
            by_cases hk : k = pe.2
            · rw [hk, alookup_aset_self] at hkj
              obtain rfl := (Option.some_inj.mp hkj).symm
              exact Or.inr ⟨Ne.symm hparhole, pe, hgetE2hole, hk.symm⟩
            · rw [alookup_aset_ne kti pe.2 hole k hk] at hkj
              rcases m2 k j hkj with h2 | ⟨hjh, x, hx1, hx2⟩
              · exact Or.inl h2
              · refine Or.inr ⟨?_, x, by rw [hgetE2 j hjh]; exact hx1, hx2⟩
                intro hjp
                rw [hjp, hpe] at hx1
                obtain rfl := (Option.some_inj.mp hx1).symm
                exact hk hx2.symm
          · rw [alookup_aset_ne kti pe.2 hole element.2 (Ne.symm hpene)]
            exact m3
          · intro i x hx hip
            by_cases hih : i = hole
            · rw [hih, hgetE2hole] at hx
              obtain rfl := (Option.some_inj.mp hx).symm
              exact hpene
            · rw [hgetE2 i hih] at hx
              exact m4 i x hx hih
          · exact nodup_keys_aset kti pe.2 hole m5
          · rw [length_aset_present kti pe.2 hole (by rw [hpepos]; rfl),
              m6, List.length_set]
        have hlen2 : (hole - 1) / 2 < (e.set hole pe).length := by
          rw [List.length_set]; omega
        have hrec := ih ((hole - 1) / 2) (by omega) (e.set hole pe)
          (aset kti pe.2 hole) element hlen2 hup2 hmap2
        refine ⟨hrec.1, hrec.2.1, ?_⟩
        refine hrec.2.2.trans ?_
        rw [List.set_comm pe element e (Ne.symm hparhole)]
        have hswap := set_set_swap_perm e ((hole - 1) / 2) hole element pe
          (by omega) hlen
        refine hswap.trans ?_
        rw [set_getElem?_eq_self e ((hole - 1) / 2) pe hpe]
      · rw [if_neg hlt]
        simp only [binSetElement]
        rw [Bool.not_eq_true] at hlt
        refine ⟨?_, binSetElement_mapCorrect e kti element hole hlen hmap,
          List.Perm.refl _⟩
        refine upPlace_ordered e element hole hlen hup ?_
        intro hc pe2 hpe2
        rw [hpe] at hpe2
        obtain rfl := (Option.some_inj.mp hpe2).symm
        exact hlt

theorem binPickChild_spec {α : Type u} (lt : α → α → Bool)
    (e : List (HeapElement α)) (child : Nat) (cl : HeapElement α) :
    (binPickChild lt e child cl = (child, cl) ∧
      (∀ cr, e[child + 1]? = some cr → lt cr.1 cl.1 = false)) ∨
    (∃ cr, e[child + 1]? = some cr ∧ lt cr.1 cl.1 = true ∧
      binPickChild lt e child cl = (child + 1, cr)) := by
  unfold binPickChild
  cases hr : e[child + 1]? with
  | none =>
    left
    exact ⟨rfl, fun cr hcr => Option.noConfusion hcr⟩
  | some cr =>
    by_cases hlt : lt cr.1 cl.1 = true
    · right
      exact ⟨cr, rfl, hlt, by simp [hlt]⟩
    · left
      rw [Bool.not_eq_true] at hlt
      refine ⟨by simp [hlt], fun cr2 hcr2 => ?_⟩
      obtain rfl := Option.some_inj.mp hcr2
      exact hlt

theorem binSiftDown_eq_none {α : Type u} (lt : α → α → Bool)
    (e : List (HeapElement α)) (kti : List (Nat × Nat))
    (element : HeapElement α) (pos : Nat) (h : e[pos * 2 + 1]? = none) :
    binSiftDown lt e kti element pos = binSetElement e kti pos element := by
  rw [binSiftDown]
  split
  · rfl
  · rename_i cl heq
    rw [h] at heq
    cases heq

theorem binSiftDown_eq_some {α : Type u} (lt : α → α → Bool)
    (e : List (HeapElement α)) (kti : List (Nat × Nat))
    (element : HeapElement α) (pos : Nat) (cl : HeapElement α)
    (h : e[pos * 2 + 1]? = some cl) :
    binSiftDown lt e kti element pos =
      if lt (binPickChild lt e (pos * 2 + 1) cl).2.1 element.1 then
        binSiftDown lt
          (e.set pos (binPickChild lt e (pos * 2 + 1) cl).2)
          (aset kti (binPickChild lt e (pos * 2 + 1) cl).2.2 pos)
          element (binPickChild lt e (pos * 2 + 1) cl).1
      else binSetElement e kti pos element := by
  rw [binSiftDown]
  split
  · rename_i heq
    rw [h] at heq
    cases heq
  · rename_i cl2 heq
    rw [h] at heq
    obtain rfl := Option.some_inj.mp heq
    rfl

theorem downPlace_ordered {α : Type u} {lt : α → α → Bool}
    (e : List (HeapElement α)) (element : HeapElement α) (hole : Nat)
    (hlen : hole < e.length) (hdown : DownInv lt e element hole)
    (hchild : ∀ i x, 0 < i → (i - 1) / 2 = hole → e[i]? = some x →
      lt x.1 element.1 = false) :
    HeapOrdered lt (e.set hole element) := by
  intro i x px hi hx hpx
  by_cases hih : i = hole
  · rw [hih, List.getElem?_set_self hlen] at hx
    have hx2 := Option.some_inj.mp hx
    have hpar : (i - 1) / 2 ≠ hole := by omega
    rw [List.getElem?_set_ne (fun hh => hpar hh.symm)] at hpx
    rw [← hx2]
    rw [hih] at hpx
    exact hdown.2.2 (by omega) px hpx
  · rw [List.getElem?_set_ne (fun hh => hih hh.symm)] at hx
    by_cases hph : (i - 1) / 2 = hole
    · rw [hph, List.getElem?_set_self hlen] at hpx
      have hpx2 := Option.some_inj.mp hpx
      rw [← hpx2]
      exact hchild i x hi hph hx
    · rw [List.getElem?_set_ne (fun hh => hph hh.symm)] at hpx
      exact hdown.1 i x px hi hih hph hx hpx

theorem binSiftDown_specAux {α : Type u} {lt : α → α → Bool} (hswo : SWO lt) :
    ∀ (n : Nat) (e : List (HeapElement α)) (kti : List (Nat × Nat))
      (element : HeapElement α) (hole : Nat), e.length - hole ≤ n →
      hole < e.length →
      DownInv lt e element hole → MapOkHole e kti element hole →
      HeapOrdered lt (binSiftDown lt e kti element hole).1 ∧
      MapCorrect (binSiftDown lt e kti element hole).1
        (binSiftDown lt e kti element hole).2 ∧
      (binSiftDown lt e kti element hole).1.Perm (e.set hole element) := by
  intro n
  induction n with
  | zero =>
    intro e kti element hole hn hlen hdown hmap
    omega
  | succ n ihn =>
    intro e kti element hole hn hlen hdown hmap
    cases hc : e[hole * 2 + 1]? with
    | none =>
      rw [binSiftDown_eq_none lt e kti element hole hc]
      simp only [binSetElement]
      refine ⟨?_, binSetElement_mapCorrect e kti element hole hlen hmap,
        List.Perm.refl _⟩
      refine downPlace_ordered e element hole hlen hdown ?_
      intro i x hi hph hx
      exfalso
      have hilen : i < e.length := (List.getElem?_eq_some_iff.mp hx).1
      have hcn : ¬ hole * 2 + 1 < e.length := by
        intro hcc
        rw [List.getElem?_eq_getElem hcc] at hc
        cases hc
      omega
    | some cl =>
      rw [binSiftDown_eq_some lt e kti element hole cl hc]
      by_cases hlt : lt (binPickChild lt e (hole * 2 + 1) cl).2.1 element.1 = true
      · rw [if_pos hlt]
        obtain ⟨hcpos1, hcpos2, hce⟩ :
            hole * 2 + 1 ≤ (binPickChild lt e (hole * 2 + 1) cl).1 ∧
            (binPickChild lt e (hole * 2 + 1) cl).1 ≤ hole * 2 + 2 ∧
            e[(binPickChild lt e (hole * 2 + 1) cl).1]? =
              some (binPickChild lt e (hole * 2 + 1) cl).2 := by
          rcases binPickChild_spec lt e (hole * 2 + 1) cl with
            ⟨hr, _⟩ | ⟨cr, hcr, _, hr⟩
          · rw [hr]
            exact ⟨Nat.le_refl _, by omega, hc⟩
          · rw [hr]
            exact ⟨by omega, by omega, hcr⟩
        generalize hcedef : (binPickChild lt e (hole * 2 + 1) cl).2 = ce at *
        generalize hcposdef : (binPickChild lt e (hole * 2 + 1) cl).1 = cpos at *
        have hcposlen : cpos < e.length := (List.getElem?_eq_some_iff.mp hce).1
        have hcphole : cpos ≠ hole := by omega
        have hgetE2 : ∀ j, j ≠ hole → (e.set hole ce)[j]? = e[j]? := fun j hj =>
          List.getElem?_set_ne (fun hh => hj hh.symm)
        have hgetE2hole : (e.set hole ce)[hole]? = some ce :=
          List.getElem?_set_self hlen
        have hdown2 : DownInv lt (e.set hole ce) element cpos := by
          refine ⟨?_, ?_, ?_⟩
          · intro i x px hi hic hipc hx hpx
            by_cases hih : i = hole
            · rw [hih, hgetE2hole] at hx
              have hx2 := Option.some_inj.mp hx
              have hpar : (hole - 1) / 2 ≠ hole := by omega
              rw [hih, hgetE2 _ hpar] at hpx
              rw [← hx2]
              have hcpos0 : 0 < cpos := by omega
              have hcppar : (cpos - 1) / 2 = hole := by omega
              exact hdown.2.1 cpos ce hcpos0 hcppar hce (by omega) px hpx
            · rw [hgetE2 i hih] at hx
              by_cases hph : (i - 1) / 2 = hole
              · rw [hph, hgetE2hole] at hpx
                have hpx2 := Option.some_inj.mp hpx
                rw [← hpx2]
                rcases binPickChild_spec lt e (hole * 2 + 1) cl with
                  ⟨hr, hnr⟩ | ⟨cr, hcr, hlt2, hr⟩
                · have hcp : cpos = hole * 2 + 1 := by rw [← hcposdef, hr]
                  have hcecl : ce = cl := by rw [← hcedef, hr]
                  have h2 : i = hole * 2 + 2 := by omega
                  have hcrx : e[hole * 2 + 1 + 1]? = some x := by
                    rw [show hole * 2 + 1 + 1 = hole * 2 + 2 from rfl, ← h2]
                    exact hx
                  rw [hcecl]
                  exact hnr x hcrx
                · have hcp : cpos = hole * 2 + 2 := by rw [← hcposdef, hr]
                  have hcecr : ce = cr := by rw [← hcedef, hr]
                  have h2 : i = hole * 2 + 1 := by omega
                  rw [h2, hc] at hx
                  obtain rfl := (Option.some_inj.mp hx).symm
                  rw [hcecr]
                  exact hswo.asymm _ _ hlt2
              · rw [hgetE2 _ hph] at hpx
                exact hdown.1 i x px hi hih hph hx hpx
          · intro i x hi hph hx hcpos0 hp hhp
            have hcppar : (cpos - 1) / 2 = hole := by omega
            rw [hcppar, hgetE2hole] at hhp
            have hhp2 := Option.some_inj.mp hhp
            rw [← hhp2]
            have hih : i ≠ hole := by omega
            rw [hgetE2 i hih] at hx
            exact hdown.1 i x ce hi hih (by omega) hx (by rw [hph]; exact hce)
          · intro hcpos0 hp hhp
            have hcppar : (cpos - 1) / 2 = hole := by omega
            rw [hcppar, hgetE2hole] at hhp
            have hhp2 := Option.some_inj.mp hhp
            rw [← hhp2]
            exact hswo.asymm _ _ hlt
        have hmap2 : MapOkHole (e.set hole ce) (aset kti ce.2 hole)
            element cpos := by
          obtain ⟨m1, m2, m3, m4, m5, m6⟩ := hmap
          have hcepos := m1 cpos ce hce hcphole
          have hcene : ce.2 ≠ element.2 := m4 cpos ce hce hcphole
          have hdistinct : ∀ i x, e[i]? = some x → i ≠ hole → x.2 = ce.2 →
              i = cpos := by
            intro i x hx hih hxce
            have h1 := m1 i x hx hih
            rw [hxce, hcepos] at h1
            exact (Option.some_inj.mp h1).symm
          refine ⟨?_, ?_, ?_, ?_, ?_, ?_⟩
          · intro i x hx hip
            by_cases hih : i = hole
            · rw [hih, hgetE2hole] at hx
              have hx2 := Option.some_inj.mp hx
              rw [← hx2, hih]
              exact alookup_aset_self kti ce.2 hole
            · rw [hgetE2 i hih] at hx
              have hxce : x.2 ≠ ce.2 := fun hh => hip (hdistinct i x hx hih hh)
              rw [alookup_aset_ne kti ce.2 hole x.2 hxce]
              exact m1 i x hx hih
          · intro k j hkj
            by_cases hk : k = ce.2
            · rw [hk, alookup_aset_self] at hkj
              obtain rfl := (Option.some_inj.mp hkj).symm
              exact Or.inr ⟨Ne.symm hcphole, ce, hgetE2hole, hk.symm⟩
            · rw [alookup_aset_ne kti ce.2 hole k hk] at hkj
              rcases m2 k j hkj with h2 | ⟨hjh, x, hx1, hx2⟩
              · exact Or.inl h2
              · refine Or.inr ⟨?_, x, by rw [hgetE2 j hjh]; exact hx1, hx2⟩
                intro hjc
                rw [hjc, hce] at hx1
                have hx3 := Option.some_inj.mp hx1
                rw [← hx3] at hx2
                exact hk hx2.symm
          · rw [alookup_aset_ne kti ce.2 hole element.2 (Ne.symm hcene)]
            exact m3
          · intro i x hx hip
            by_cases hih : i = hole
            · rw [hih, hgetE2hole] at hx
              have hx2 := Option.some_inj.mp hx
              rw [← hx2]
              exact hcene
            · rw [hgetE2 i hih] at hx
              exact m4 i x hx hih
          · exact nodup_keys_aset kti ce.2 hole m5
          · rw [length_aset_present kti ce.2 hole (by rw [hcepos]; rfl),
              m6, List.length_set]
        have hlen2 : cpos < (e.set hole ce).length := by
          rw [List.length_set]; omega
        have hmeas : (e.set hole ce).length - cpos ≤ n := by
          rw [List.length_set]; omega
        have hrec := ihn (e.set hole ce) (aset kti ce.2 hole) element cpos
          hmeas hlen2 hdown2 hmap2
        refine ⟨hrec.1, hrec.2.1, ?_⟩
        refine hrec.2.2.trans ?_
        have hswap := set_set_swap_perm e hole cpos element ce
          (by omega) hcposlen
        have hstep : ((e.set hole element).set cpos ce).Perm
            (e.set hole element) := by
          rw [set_getElem?_eq_self (e.set hole element) cpos ce
            (by rw [List.getElem?_set_ne (fun hh => hcphole hh.symm)]; exact hce)]
        exact hswap.symm.trans hstep
      · rw [if_neg hlt]
        simp only [binSetElement]
        rw [Bool.not_eq_true] at hlt
        refine ⟨?_, binSetElement_mapCorrect e kti element hole hlen hmap,
          List.Perm.refl _⟩
        refine downPlace_ordered e element hole hlen hdown ?_
        intro i x hi hph hx
        rcases binPickChild_spec lt e (hole * 2 + 1) cl with
          ⟨hr, hnr⟩ | ⟨cr, hcr, hlt2, hr⟩
        · rw [hr] at hlt
          have hchoose : i = hole * 2 + 1 ∨ i = hole * 2 + 2 := by omega
          rcases hchoose with h2 | h2
          · rw [h2, hc] at hx
            obtain rfl := (Option.some_inj.mp hx).symm
            exact hlt
          · have hcrx : e[hole * 2 + 1 + 1]? = some x := by
              rw [show hole * 2 + 1 + 1 = hole * 2 + 2 from rfl, ← h2]
              exact hx
            exact hswo.negTrans _ _ _ (hnr x hcrx) hlt
        · rw [hr] at hlt
          have hchoose : i = hole * 2 + 1 ∨ i = hole * 2 + 2 := by omega
          rcases hchoose with h2 | h2
          · rw [h2, hc] at hx
            obtain rfl := (Option.some_inj.mp hx).symm
            by_contra hcon
            rw [Bool.not_eq_false] at hcon
            have h3 := hswo.trans _ _ _ hlt2 hcon
            rw [hlt] at h3
            exact Bool.false_ne_true h3
          · have hcrx : e[hole * 2 + 1 + 1]? = some x := by
              rw [show hole * 2 + 1 + 1 = hole * 2 + 2 from rfl, ← h2]
              exact hx
            rw [hcr] at hcrx
            obtain rfl := (Option.some_inj.mp hcrx).symm
            exact hlt

theorem binSiftDown_spec {α : Type u} {lt : α → α → Bool} (hswo : SWO lt)
    (e : List (HeapElement α)) (kti : List (Nat × Nat))
    (element : HeapElement α) (hole : Nat) (hlen : hole < e.length)
    (hdown : DownInv lt e element hole) (hmap : MapOkHole e kti element hole) :
    HeapOrdered lt (binSiftDown lt e kti element hole).1 ∧
    MapCorrect (binSiftDown lt e kti element hole).1
      (binSiftDown lt e kti element hole).2 ∧
    (binSiftDown lt e kti element hole).1.Perm (e.set hole element) :=
  binSiftDown_specAux hswo e.length e kti element hole (by omega) hlen hdown hmap

/-! ### Binary heap: operation specifications -/

theorem alookup_isSome_of_mem {β : Type u} (m : List (Nat × β)) (k : Nat)
    (h : k ∈ m.map Prod.fst) : (alookup m k).isSome = true := by
  induction m with
  | nil => simp at h
  | cons p rest ih =>
    rw [alookup_cons]
    by_cases hp : p.1 = k
    · rw [if_pos hp]; rfl
    · rw [if_neg hp]
      rw [List.map_cons, List.mem_cons] at h
      rcases h with h2 | h2
      · exact absurd h2.symm hp
      · exact ih h2

theorem BinaryHeap.Add_none_iff {α : Type u} (lt : α → α → Bool)
    (h : BinaryHeap α) (value : α) (key : Nat) :
    h.Add lt value key = none ↔ (alookup h.key_to_index key).isSome = true := by
  unfold BinaryHeap.Add
  cases hl : alookup h.key_to_index key with
  | none => simp
  | some i => simp

theorem BinaryHeap.Add_some_spec {α : Type u} {lt : α → α → Bool}
    (hswo : SWO lt) (h : BinaryHeap α) (value : α) (key : Nat)
    (hinv : BinInv lt h) (hfresh : alookup h.key_to_index key = none) :
    ∃ h2, h.Add lt value key = some h2 ∧ BinInv lt h2 ∧
      h2.elements.Perm ((value, key) :: h.elements) := by
  unfold BinaryHeap.Add
  rw [hfresh]
  simp only
  set n := h.elements.length with hn
  have hup : UpInv lt (h.elements ++ [(value, key)]) (value, key) n := by
    refine ⟨?_, ?_, ?_⟩
    · intro i x px hi hih hx hpx
      have hilen : i < n + 1 := by
        have := (List.getElem?_eq_some_iff.mp hx).1
        simpa using this
      have hiltn : i < n := by omega
      rw [List.getElem?_append_left (by omega)] at hx
      rw [List.getElem?_append_left (by omega)] at hpx
      exact hinv.1 i x px hi hx hpx
    · intro i x hi hph hx
      exfalso
      have hilen : i < n + 1 := by
        have := (List.getElem?_eq_some_iff.mp hx).1
        simpa using this
      omega
    · intro i hi hph hilen hpos hx hp hhx hhp
      exfalso
      rw [List.length_append] at hilen
      simp only [List.length_singleton] at hilen
      omega
  have hmap : MapOkHole (h.elements ++ [(value, key)])
      (ainsertNew h.key_to_index key n) (value, key) n := by
    obtain ⟨horder, m1, m2, m3, m4⟩ := hinv
    refine ⟨?_, ?_, ?_, ?_, ?_, ?_⟩
    · intro i x hx hih
      have hilen : i < n + 1 := by
        have := (List.getElem?_eq_some_iff.mp hx).1
        simpa using this
      rw [List.getElem?_append_left (by omega)] at hx
      have hxkey : x.2 ≠ key := by
        intro hh
        have := m1 i x hx
        rw [hh, hfresh] at this
        cases this
      rw [ainsertNew, alookup_cons, if_neg (Ne.symm hxkey)]
      exact m1 i x hx
    · intro k j hkj
      rw [ainsertNew, alookup_cons] at hkj
      by_cases hk : key = k
      · exact Or.inl hk.symm
      · rw [if_neg hk] at hkj
        rcases m2 k j hkj with ⟨x, hx1, hx2⟩
        have hjlen : j < n := (List.getElem?_eq_some_iff.mp hx1).1
        refine Or.inr ⟨by omega, x, ?_, hx2⟩
        rw [List.getElem?_append_left (by omega)]
        exact hx1
    · rw [ainsertNew, alookup_cons, if_pos rfl]
      rfl
    · intro i x hx hih
      have hilen : i < n + 1 := by
        have := (List.getElem?_eq_some_iff.mp hx).1
        simpa using this
      rw [List.getElem?_append_left (by omega)] at hx
      intro hh
      have := m1 i x hx
      rw [hh, hfresh] at this
      cases this
    · rw [ainsertNew, List.map_cons]
      refine List.nodup_cons.mpr ⟨?_, m3⟩
      intro hmem
      have := alookup_isSome_of_mem h.key_to_index key hmem
      rw [hfresh] at this
      cases this
    · rw [ainsertNew, List.length_cons, m4, List.length_append]
      simp
  have hlen : n < (h.elements ++ [(value, key)]).length := by
    rw [List.length_append]; simp
  have hspec := binSiftUp_spec hswo n (h.elements ++ [(value, key)])
    (ainsertNew h.key_to_index key n) (value, key) hlen hup hmap
  refine ⟨_, rfl, ⟨hspec.1, hspec.2.1⟩, ?_⟩
  refine hspec.2.2.trans ?_
  rw [set_getElem?_eq_self _ n (value, key) (by rw [hn]; exact List.getElem?_concat_length h.elements (value, key))]
  exact List.perm_append_singleton (value, key) h.elements

theorem BinaryHeap.LookUp_of_getElem {α : Type u} {lt : α → α → Bool}
    (h : BinaryHeap α) (hinv : BinInv lt h) (i : Nat) (x : HeapElement α)
    (hx : h.elements[i]? = some x) : h.LookUp x.2 = some x.1 := by
  unfold BinaryHeap.LookUp
  rw [hinv.2.1 i x hx]
  simp only [hx]
  rfl

theorem BinaryHeap.LookUp_none_iff {α : Type u} {lt : α → α → Bool}
    (h : BinaryHeap α) (hinv : BinInv lt h) (key : Nat) :
    h.LookUp key = none ↔ alookup h.key_to_index key = none := by
  unfold BinaryHeap.LookUp
  cases hl : alookup h.key_to_index key with
  | none => simp
  | some i =>
    rcases hinv.2.2.1 key i hl with ⟨x, hx1, _⟩
    simp [hx1]

theorem BinaryHeap.ReduceValue_cases {α : Type u} {lt : α → α → Bool}
    (hswo : SWO lt) (h : BinaryHeap α) (new_value : α) (key : Nat)
    (hinv : BinInv lt h) :
    (h.ReduceValue lt new_value key = none ∧
      (h.LookUp key = none ∨
        ∃ c, h.LookUp key = some c ∧ lt c new_value = true)) ∨
    (∃ h2 index cur, h.ReduceValue lt new_value key = some h2 ∧
      alookup h.key_to_index key = some index ∧
      h.elements[index]? = some cur ∧ cur.2 = key ∧
      lt cur.1 new_value = false ∧ BinInv lt h2 ∧
      h2.elements.Perm (h.elements.set index (new_value, cur.2))) := by
  unfold BinaryHeap.ReduceValue
  cases hl : alookup h.key_to_index key with
  | none =>
    left
    refine ⟨rfl, Or.inl ?_⟩
    rw [BinaryHeap.LookUp_none_iff h hinv key]
    exact hl
  | some index =>
    rcases hinv.2.2.1 key index hl with ⟨cur, hcur, hcurk⟩
    dsimp only
    rw [hcur]
    dsimp only
    by_cases hlt : lt cur.1 new_value = true
    · left
      rw [if_pos hlt]
      refine ⟨rfl, Or.inr ⟨cur.1, ?_, hlt⟩⟩
      rw [← hcurk]
      exact BinaryHeap.LookUp_of_getElem h hinv index cur hcur
    · right
      rw [Bool.not_eq_true] at hlt
      rw [if_neg (by rw [hlt]; exact Bool.false_ne_true)]
      have hidx : index < h.elements.length :=
        (List.getElem?_eq_some_iff.mp hcur).1
      have hup : UpInv lt h.elements (new_value, cur.2) index := by
        refine ⟨?_, ?_, ?_⟩
        · intro i x px hi hih hx hpx
          exact hinv.1 i x px hi hx hpx
        · intro i x hi hph hx
          have h1 := hinv.1 i x cur hi hx (by rw [hph]; exact hcur)
          exact hswo.negTrans _ _ _ h1 hlt
        · intro i hi hph hilen hpos hx hp hhx hhp
          exact hinv.1 index hx hp hpos hhx hhp
      have hmap : MapOkHole h.elements h.key_to_index (new_value, cur.2)
          index := by
        obtain ⟨horder, m1, m2, m3, m4⟩ := hinv
        refine ⟨?_, ?_, ?_, ?_, ?_, ?_⟩
        · intro i x hx hih
          exact m1 i x hx
        · intro k j hkj
          by_cases hk : k = cur.2
          · exact Or.inl hk
          · rcases m2 k j hkj with ⟨x, hx1, hx2⟩
            refine Or.inr ⟨?_, x, hx1, hx2⟩
            intro hji
            rw [hji, hcur] at hx1
            have := Option.some_inj.mp hx1
            rw [← this] at hx2
            exact hk hx2.symm
        · rw [show (new_value, cur.2).2 = cur.2 from rfl, m1 index cur hcur]
          rfl
        · intro i x hx hih
          intro hh
          have h1 := m1 i x hx
          have h2 := m1 index cur hcur
          rw [show (new_value, cur.2).2 = cur.2 from rfl] at hh
          rw [hh, h2] at h1
          exact hih (Option.some_inj.mp h1).symm
        · exact m3
        · exact m4
      have hspec := binSiftUp_spec hswo index h.elements h.key_to_index
        (new_value, cur.2) hidx hup hmap
      exact ⟨_, index, cur, rfl, rfl, hcur, hcurk, hlt,
        ⟨hspec.1, hspec.2.1⟩, hspec.2.2⟩

theorem BinaryHeap.PopMinimum_none_iff {α : Type u} (lt : α → α → Bool)
    (h : BinaryHeap α) : h.PopMinimum lt = none ↔ h.elements = [] := by
  obtain ⟨el, kti⟩ := h
  cases el with
  | nil => exact ⟨fun _ => rfl, fun _ => rfl⟩
  | cons min rest =>
    cases rest with
    | nil =>
      refine ⟨fun hc => ?_, fun hc => by cases hc⟩
      exact Option.noConfusion hc
    | cons r rs =>
      refine ⟨fun hc => ?_, fun hc => by cases hc⟩
      exact Option.noConfusion hc

theorem BinaryHeap.PopMinimum_spec {α : Type u} {lt : α → α → Bool}
    (hswo : SWO lt) (h : BinaryHeap α) (hinv : BinInv lt h)
    (min : HeapElement α) (t : List (HeapElement α))
    (hel : h.elements = min :: t) :
    ∃ h2, h.PopMinimum lt = some (min, h2) ∧ BinInv lt h2 ∧
      h2.elements.Perm t := by
  obtain ⟨el, kti⟩ := h
  simp only at hel hinv
  subst hel
  obtain ⟨horder, m1, m2, m3, m4⟩ := hinv
  simp only at m4
  cases t with
  | nil =>
    refine ⟨⟨[], aerase kti min.2⟩, rfl, ⟨?_, ?_, ?_, ?_, ?_⟩, List.Perm.refl _⟩
    · intro i x px hi hx hpx
      simp at hx
    · intro i x hx
      simp at hx
    · intro k j hkj
      exfalso
      by_cases hk : k = min.2
      · rw [hk, alookup_aerase_self] at hkj
        cases hkj
      · rw [alookup_aerase_ne kti min.2 k hk] at hkj
        rcases m2 k j hkj with ⟨x, hx1, hx2⟩
        have hjlen : j < 1 := by
          have := (List.getElem?_eq_some_iff.mp hx1).1
          simpa using this
        have hj0 : j = 0 := by omega
        rw [hj0, List.getElem?_cons_zero] at hx1
        have := Option.some_inj.mp hx1
        rw [← this] at hx2
        exact hk hx2.symm
    · exact nodup_keys_aerase kti min.2 m3
    · have hpres : (alookup kti min.2).isSome = true := by
        rw [m1 0 min List.getElem?_cons_zero]
        rfl
      have := length_aerase_present kti min.2 m3 hpres
      simp only [List.length_cons, List.length_nil] at m4
      simp only [List.length_nil]
      omega
  | cons r rs =>
    have hne : (min :: r :: rs : List (HeapElement α)) ≠ [] := by simp
    have hlenE : (min :: r :: rs : List (HeapElement α)).length = rs.length + 2 := by
      simp
    have hlast : (min :: r :: rs : List (HeapElement α))[rs.length + 1]? =
        some ((min :: r :: rs).getLast hne) := by
      rw [List.getLast_eq_getElem]
      rw [List.getElem?_eq_getElem (by simp)]
      simp
    set back := (min :: r :: rs : List (HeapElement α)).getLast hne with hbackdef
    have he1eq : (((min :: r :: rs : List (HeapElement α)).set 0 back).dropLast)
        = back :: (r :: rs).dropLast := by
      rw [List.set_cons_zero]
      rfl
    set e1 := (((min :: r :: rs : List (HeapElement α)).set 0 back).dropLast)
      with he1def
    have he1len : e1.length = rs.length + 1 := by
      rw [he1eq]
      simp
    have he1_0 : e1[0]? = some back := by
      rw [he1eq, List.getElem?_cons_zero]
    have he1_j : ∀ j, 1 ≤ j → j ≤ rs.length →
        e1[j]? = (min :: r :: rs : List (HeapElement α))[j]? := by
      intro j h1 h2
      rw [he1def, List.getElem?_dropLast, List.length_set, hlenE]
      rw [if_pos (by omega)]
      rw [List.getElem?_set_ne (by omega)]
    have he1_none : ∀ j, rs.length + 1 ≤ j → e1[j]? = none := by
      intro j hj
      rw [List.getElem?_eq_none]
      omega
    have hbackpos := m1 (rs.length + 1) back hlast
    have hminpos := m1 0 min List.getElem?_cons_zero
    have hminback : min.2 ≠ back.2 := by
      intro hh
      rw [hh, hbackpos] at hminpos
      cases hminpos
    have hdown : DownInv lt e1 back 0 := by
      refine ⟨?_, ?_, ?_⟩
      · intro i x px hi hih hph hx hpx
        have hilen : i < rs.length + 1 := by
          have := (List.getElem?_eq_some_iff.mp hx).1
          rw [he1len] at this
          exact this
        have hppos : 1 ≤ (i - 1) / 2 := by omega
        rw [he1_j i (by omega) (by omega)] at hx
        rw [he1_j _ (by omega) (by omega)] at hpx
        exact horder i x px hi hx hpx
      · intro i x hi hph hx hpos
        omega
      · intro hpos
        omega
    have hmapok : MapOkHole e1 (aset (aerase kti min.2) back.2 0) back 0 := by
      refine ⟨?_, ?_, ?_, ?_, ?_, ?_⟩
      · intro i x hx hih
        have hilen : i < rs.length + 1 := by
          have := (List.getElem?_eq_some_iff.mp hx).1
          rw [he1len] at this
          exact this
        rw [he1_j i (by omega) (by omega)] at hx
        have hxi := m1 i x hx
        have hxback : x.2 ≠ back.2 := by
          intro hh
          rw [hh, hbackpos] at hxi
          have := Option.some_inj.mp hxi
          omega
        have hxmin : x.2 ≠ min.2 := by
          intro hh
          rw [hh, hminpos] at hxi
          have := Option.some_inj.mp hxi
          omega
        rw [alookup_aset_ne _ back.2 0 x.2 hxback,
          alookup_aerase_ne kti min.2 x.2 hxmin]
        exact hxi
      · intro k j hkj
        by_cases hk : k = back.2
        · rw [hk, alookup_aset_self] at hkj
          exact Or.inl hk
        · rw [alookup_aset_ne _ back.2 0 k hk] at hkj
          by_cases hkm : k = min.2
          · rw [hkm, alookup_aerase_self] at hkj
            cases hkj
          · rw [alookup_aerase_ne kti min.2 k hkm] at hkj
            rcases m2 k j hkj with ⟨x, hx1, hx2⟩
            have hjlen : j < rs.length + 2 := by
              have := (List.getElem?_eq_some_iff.mp hx1).1
              rw [hlenE] at this
              exact this
            have hj0 : j ≠ 0 := by
              intro hh
              rw [hh, List.getElem?_cons_zero] at hx1
              have := Option.some_inj.mp hx1
              rw [← this] at hx2
              exact hkm hx2.symm
            have hjlast : j ≠ rs.length + 1 := by
              intro hh
              rw [hh, hlast] at hx1
              have := Option.some_inj.mp hx1
              rw [← this] at hx2
              exact hk hx2.symm
            refine Or.inr ⟨hj0, x, ?_, hx2⟩
            rw [he1_j j (by omega) (by omega)]
            exact hx1
      · rw [alookup_aset_self]
        rfl
      · intro i x hx hih
        have hilen : i < rs.length + 1 := by
          have := (List.getElem?_eq_some_iff.mp hx).1
          rw [he1len] at this
          exact this
        rw [he1_j i (by omega) (by omega)] at hx
        have hxi := m1 i x hx
        intro hh
        rw [hh, hbackpos] at hxi
        have := Option.some_inj.mp hxi
        omega
      · exact nodup_keys_aset _ back.2 0 (nodup_keys_aerase kti min.2 m3)
      · have hpresmin : (alookup kti min.2).isSome = true := by
          rw [hminpos]; rfl
        have hlen1 := length_aerase_present kti min.2 m3 hpresmin
        have hpresback : (alookup (aerase kti min.2) back.2).isSome = true := by
          rw [alookup_aerase_ne kti min.2 back.2 (Ne.symm hminback), hbackpos]
          rfl
        rw [length_aset_present _ back.2 0 hpresback, he1len]
        simp only [List.length_cons] at m4
        omega
    have hspec := binSiftDown_spec hswo e1 (aset (aerase kti min.2) back.2 0)
      back 0 (by omega) hdown hmapok
    refine ⟨⟨(binSiftDown lt e1 (aset (aerase kti min.2) back.2 0) back 0).1,
      (binSiftDown lt e1 (aset (aerase kti min.2) back.2 0) back 0).2⟩,
      rfl, ⟨hspec.1, hspec.2.1⟩, ?_⟩
    refine hspec.2.2.trans ?_
    rw [set_getElem?_eq_self e1 0 back he1_0]
    rw [he1eq]
    have hlast2 : back = (r :: rs).getLast (by simp) := by
      rw [hbackdef, List.getLast_cons]
    have hdecomp : (r :: rs : List (HeapElement α)) =
        (r :: rs).dropLast ++ [back] := by
      rw [hlast2]
      exact (List.dropLast_append_getLast (by simp)).symm
    nth_rewrite 2 [hdecomp]
    exact (List.perm_append_singleton back ((r :: rs).dropLast)).symm

theorem BinaryHeap.Min_spec {α : Type u} (h : BinaryHeap α)
    (min : HeapElement α) (t : List (HeapElement α))
    (hel : h.elements = min :: t) : h.Min = some min := by
  unfold BinaryHeap.Min
  rw [hel]
  rfl

theorem binIds_nodup {α : Type u} {lt : α → α → Bool} (h : BinaryHeap α)
    (hinv : BinInv lt h) : (h.elements.map Prod.snd).Nodup := by
  rw [List.nodup_iff_getElem?_ne_getElem?]
  intro i j hij hjlen hcon
  rw [List.length_map] at hjlen
  have hilen : i < h.elements.length := by omega
  obtain ⟨x, hx⟩ : ∃ y, h.elements[i]? = some y :=
    ⟨_, List.getElem?_eq_getElem hilen⟩
  obtain ⟨y, hy⟩ : ∃ z, h.elements[j]? = some z :=
    ⟨_, List.getElem?_eq_getElem hjlen⟩
  rw [List.getElem?_map, List.getElem?_map, hx, hy] at hcon
  have hxy : x.2 = y.2 := Option.some_inj.mp hcon
  have h1 := hinv.2.1 i x hx
  have h2 := hinv.2.1 j y hy
  rw [hxy, h2] at h1
  have := Option.some_inj.mp h1
  omega

theorem BinaryHeap.LookUp_isSome_iff {α : Type u} {lt : α → α → Bool}
    (h : BinaryHeap α) (hinv : BinInv lt h) (id : Nat) :
    (h.LookUp id).isSome = true ↔ id ∈ h.elements.map Prod.snd := by
  constructor
  · intro hs
    unfold BinaryHeap.LookUp at hs
    cases hl : alookup h.key_to_index id with
    | none => rw [hl] at hs; cases hs
    | some j =>
      rcases hinv.2.2.1 id j hl with ⟨x, hx1, hx2⟩
      rw [List.mem_map]
      obtain ⟨hjl, hje⟩ := List.getElem?_eq_some_iff.mp hx1
      refine ⟨x, ?_, hx2⟩
      rw [← hje]
      exact List.getElem_mem hjl
  · intro hmem
    rw [List.mem_map] at hmem
    rcases hmem with ⟨x, hx, hx2⟩
    rcases List.getElem?_of_mem hx with ⟨i, hi⟩
    rw [← hx2, BinaryHeap.LookUp_of_getElem h hinv i x hi]
    rfl

theorem numAdds_cons {α : Type u} (op : HeapOp α) (rest : List (HeapOp α)) :
    numAdds (op :: rest) =
      numAdds rest + (match op with | HeapOp.add _ _ => 1 | _ => 0) := by
  cases op <;> simp [numAdds, List.countP_cons]

theorem numPops_cons {α : Type u} (op : HeapOp α) (rest : List (HeapOp α)) :
    numPops (op :: rest) =
      numPops rest + (match op with | HeapOp.pop => 1 | _ => 0) := by
  cases op <;> simp [numPops, List.countP_cons]

theorem runBinOps_spec {α : Type u} {lt : α → α → Bool} (hswo : SWO lt) :
    ∀ (ops : List (HeapOp α)) (h : BinaryHeap α) (h2 : BinaryHeap α)
      (popped : List (HeapElement α)), BinInv lt h →
      runBinOps lt h ops = some (h2, popped) →
      BinInv lt h2 ∧ popped.length = numPops ops ∧
      h2.elements.length + popped.length = h.elements.length + numAdds ops ∧
      ((h2.elements.map Prod.snd) ++ (popped.map Prod.snd)).Perm
        ((h.elements.map Prod.snd) ++ addedIds ops) := by
  intro ops
  induction ops with
  | nil =>
    intro h h2 popped hinv hrun
    have heq := Option.some_inj.mp hrun
    obtain rfl : h = h2 := congrArg Prod.fst heq
    obtain rfl : popped = [] := (congrArg Prod.snd heq).symm
    refine ⟨hinv, by simp [numPops], by simp [numAdds], ?_⟩
    simp [addedIds]
  | cons op rest ih =>
    intro h h2 popped hinv hrun
    cases op with
    | add k id =>
      rw [show runBinOps lt h (HeapOp.add k id :: rest)
          = (h.Add lt k id).bind (fun hh => runBinOps lt hh rest) from rfl] at hrun
      have hfresh : alookup h.key_to_index id = none := by
        cases hl : alookup h.key_to_index id with
        | none => rfl
        | some j =>
          have hn : h.Add lt k id = none := by
            rw [BinaryHeap.Add_none_iff, hl]
            rfl
          rw [hn, Option.none_bind] at hrun
          exact Option.noConfusion hrun
      obtain ⟨hmid2, heq, hinv2, hperm⟩ :=
        BinaryHeap.Add_some_spec hswo h k id hinv hfresh
      rw [heq, Option.some_bind] at hrun
      obtain ⟨ha, hb, hc, hd⟩ := ih hmid2 h2 popped hinv2 hrun
      refine ⟨ha, ?_, ?_, ?_⟩
      · rw [hb, numPops_cons]
        dsimp only
        omega
      · have hlen : hmid2.elements.length = h.elements.length + 1 := by
          rw [hperm.length_eq]
          rfl
        rw [hc, hlen, numAdds_cons]
        dsimp only
        omega
      · refine hd.trans ?_
        have hids : (hmid2.elements.map Prod.snd).Perm
            (id :: h.elements.map Prod.snd) := hperm.map Prod.snd
        have h5 : addedIds (HeapOp.add k id :: rest) = id :: addedIds rest := rfl
        rw [h5]
        refine (List.Perm.append_right (addedIds rest) hids).trans ?_
        exact (List.perm_middle).symm
    | reduce k id =>
      rw [show runBinOps lt h (HeapOp.reduce k id :: rest)
          = (h.ReduceValue lt k id).bind (fun hh => runBinOps lt hh rest)
        from rfl] at hrun
      rcases BinaryHeap.ReduceValue_cases hswo h k id hinv with
        ⟨hnone, _⟩ | ⟨hmid2, index, cur, heq, hl, hcur, hcurk, hlt, hinv2, hperm⟩
      · rw [hnone, Option.none_bind] at hrun
        exact Option.noConfusion hrun
      · rw [heq, Option.some_bind] at hrun
        obtain ⟨ha, hb, hc, hd⟩ := ih hmid2 h2 popped hinv2 hrun
        have hids : (hmid2.elements.map Prod.snd).Perm
            (h.elements.map Prod.snd) := by
          have h6 := hperm.map Prod.snd
          rw [List.map_set] at h6
          refine h6.trans ?_
          rw [set_getElem?_eq_self]
          rw [List.getElem?_map, hcur]
          rfl
        refine ⟨ha, ?_, ?_, ?_⟩
        · rw [hb, numPops_cons]
          dsimp only
          omega
        · have hlen : hmid2.elements.length = h.elements.length := by
            rw [hperm.length_eq]
            simp
          rw [hc, hlen, numAdds_cons]
          dsimp only
          omega
        · refine hd.trans ?_
          have h5 : addedIds (HeapOp.reduce k id :: rest) = addedIds rest := rfl
          rw [h5]
          exact List.Perm.append_right (addedIds rest) hids
    | pop =>
      rw [show runBinOps lt h (HeapOp.pop :: rest)
          = (h.PopMinimum lt).bind (fun eh =>
              (runBinOps lt eh.2 rest).map (fun r => (r.1, eh.1 :: r.2)))
        from rfl] at hrun
      obtain ⟨min, t, hel⟩ : ∃ m t2, h.elements = m :: t2 := by
        cases hel2 : h.elements with
        | nil =>
          exfalso
          have hn := (BinaryHeap.PopMinimum_none_iff lt h).mpr hel2
          rw [hn, Option.none_bind] at hrun
          exact Option.noConfusion hrun
        | cons a b => exact ⟨a, b, rfl⟩
      obtain ⟨hmid2, heq, hinv2, hperm⟩ :=
        BinaryHeap.PopMinimum_spec hswo h hinv min t hel
      rw [heq, Option.some_bind] at hrun
      dsimp only at hrun
      cases hrest : runBinOps lt hmid2 rest with
      | none =>
        rw [hrest] at hrun
        exact Option.noConfusion hrun
      | some r =>
        rw [hrest] at hrun
        rw [show (some r).map (fun rr => (rr.1, min :: rr.2))
            = some (r.1, min :: r.2) from rfl] at hrun
        have heq2 := Option.some_inj.mp hrun
        obtain rfl : r.1 = h2 := congrArg Prod.fst heq2
        have hpoppedeq : min :: r.2 = popped := congrArg Prod.snd heq2
        obtain ⟨ha, hb, hc, hd⟩ := ih hmid2 r.1 r.2 hinv2 hrest
        refine ⟨ha, ?_, ?_, ?_⟩
        · rw [← hpoppedeq]
          simp only [List.length_cons, hb]
          rw [numPops_cons]
        · rw [← hpoppedeq]
          have hlen : hmid2.elements.length = t.length := hperm.length_eq
          have hlen2 : h.elements.length = t.length + 1 := by rw [hel]; rfl
          simp only [List.length_cons]
          rw [hlen2, numAdds_cons]
          dsimp only
          omega
        · rw [← hpoppedeq]
          have h5 : addedIds (HeapOp.pop :: rest) = addedIds rest := rfl
          rw [h5]
          have hmidids : (hmid2.elements.map Prod.snd).Perm (t.map Prod.snd) :=
            hperm.map Prod.snd
          have hids : (h.elements.map Prod.snd) = min.2 :: t.map Prod.snd := by
            rw [hel]
            rfl
          rw [hids]
          simp only [List.map_cons]
          have step1 : (r.1.elements.map Prod.snd ++
              (min.2 :: r.2.map Prod.snd)).Perm
              (min.2 :: (r.1.elements.map Prod.snd ++ r.2.map Prod.snd)) :=
            List.perm_middle
          refine step1.trans ?_
          refine (hd.cons min.2).trans ?_
          refine List.Perm.cons min.2 ?_
          exact List.Perm.append_right (addedIds rest) hmidids

theorem binAddAll_spec {α : Type u} {lt : α → α → Bool} (hswo : SWO lt) :
    ∀ (l : List (HeapElement α)) (h : BinaryHeap α), BinInv lt h →
      (∀ p, p ∈ l → p.2 ∉ h.elements.map Prod.snd) →
      (l.map Prod.snd).Nodup →
      ∃ h2, binAddAll lt h l = some h2 ∧ BinInv lt h2 ∧
        h2.elements.Perm (h.elements ++ l) := by
  intro l
  induction l with
  | nil =>
    intro h hinv hfresh hnd
    exact ⟨h, rfl, hinv, by simp⟩
  | cons p rest ih =>
    intro h hinv hfresh hnd
    have hfresh0 : alookup h.key_to_index p.2 = none := by
      cases hl : alookup h.key_to_index p.2 with
      | none => rfl
      | some j =>
        exfalso
        rcases hinv.2.2.1 p.2 j hl with ⟨x, hx1, hx2⟩
        refine hfresh p (List.mem_cons_self p rest) ?_
        rw [List.mem_map]
        obtain ⟨hjl, hje⟩ := List.getElem?_eq_some_iff.mp hx1
        refine ⟨x, ?_, hx2⟩
        rw [← hje]
        exact List.getElem_mem hjl
    obtain ⟨hmid, heq, hinv2, hperm⟩ :=
      BinaryHeap.Add_some_spec hswo h p.1 p.2 hinv hfresh0
    rw [List.map_cons, List.nodup_cons] at hnd
    have hfresh2 : ∀ q, q ∈ rest → q.2 ∉ hmid.elements.map Prod.snd := by
      intro q hq hmem
      have hperm2 : (hmid.elements.map Prod.snd).Perm
          (p.2 :: h.elements.map Prod.snd) := by
        have := hperm.map Prod.snd
        simpa using this
      rw [hperm2.mem_iff, List.mem_cons] at hmem
      rcases hmem with h2 | h2
      · refine hnd.1 ?_
        rw [← h2]
        exact List.mem_map_of_mem Prod.snd hq
      · exact hfresh q (List.mem_cons_of_mem p hq) h2
    obtain ⟨h2, hrun, hinv3, hperm3⟩ := ih hmid hinv2 hfresh2 hnd.2
    have hstep : binAddAll lt h (p :: rest) = binAddAll lt hmid rest := by
      unfold binAddAll
      rw [List.foldl_cons]
      simp only [Option.some_bind, heq]
    refine ⟨h2, ?_, hinv3, ?_⟩
    · rw [hstep]
      exact hrun
    · refine hperm3.trans ?_
      refine (List.Perm.append_right rest hperm).trans ?_
      exact List.perm_middle.symm

theorem binPopAll_spec {α : Type u} {lt : α → α → Bool} (hswo : SWO lt) :
    ∀ (fuel : Nat) (h : BinaryHeap α), BinInv lt h →
      h.elements.length ≤ fuel →
      (binPopAll lt h fuel).Perm h.elements ∧
      List.Pairwise (fun a b : HeapElement α => lt b.1 a.1 = false)
        (binPopAll lt h fuel) := by
  intro fuel
  induction fuel with
  | zero =>
    intro h hinv hlen
    have hel : h.elements = [] := by
      cases hel2 : h.elements with
      | nil => rfl
      | cons a b =>
        rw [hel2] at hlen
        simp at hlen
    rw [show binPopAll lt h 0 = [] from rfl, hel]
    exact ⟨List.Perm.refl _, List.Pairwise.nil⟩
  | succ fuel ih =>
    intro h hinv hlen
    cases hel : h.elements with
    | nil =>
      have hnone := (BinaryHeap.PopMinimum_none_iff lt h).mpr hel
      rw [show binPopAll lt h (fuel + 1)
          = (match h.PopMinimum lt with
             | none => []
             | some eh => eh.1 :: binPopAll lt eh.2 fuel) from rfl]
      rw [hnone]
      exact ⟨List.Perm.nil, List.Pairwise.nil⟩
    | cons min t =>
      obtain ⟨h2, heq, hinv2, hperm⟩ :=
        BinaryHeap.PopMinimum_spec hswo h hinv min t hel
      rw [show binPopAll lt h (fuel + 1)
          = (match h.PopMinimum lt with
             | none => []
             | some eh => eh.1 :: binPopAll lt eh.2 fuel) from rfl]
      rw [heq]
      have hlen2 : h2.elements.length ≤ fuel := by
        rw [hperm.length_eq]
        rw [hel] at hlen
        simp at hlen
        omega
      obtain ⟨hpa, hpb⟩ := ih h2 hinv2 hlen2
      constructor
      · exact List.Perm.cons min (hpa.trans hperm)
      · refine List.Pairwise.cons ?_ hpb
        intro y hy
        have hymem : y ∈ (min :: t : List (HeapElement α)) := by
          have hym2 : y ∈ h2.elements := hpa.mem_iff.mp hy
          exact List.mem_cons_of_mem min (hperm.mem_iff.mp hym2)
        rcases List.getElem?_of_mem hymem with ⟨i, hi⟩
        have hm0 : (min :: t : List (HeapElement α))[0]? = some min :=
          List.getElem?_cons_zero
        have hordmt : HeapOrdered lt (min :: t) := by
          have hordh := hinv.1
          rw [hel] at hordh
          exact hordh
        exact heapOrdered_min hswo hordmt min hm0 i y hi

/-! ### Properties lemmas -/

theorem Properties.Get_eq_getD {α : Type u} (p : Properties α) (i : Nat) :
    p.Get i = (p.properties[i]?).getD p.default_value := by
  unfold Properties.Get
  by_cases h : i < p.properties.length
  · rw [dif_pos h, List.getElem?_eq_getElem h]
    rfl
  · rw [dif_neg h, List.getElem?_eq_none (by omega)]
    rfl

theorem Properties.Set_properties {α : Type u} (p : Properties α) (j : Nat)
    (v : α) : (p.Set j v).properties =
      (if p.properties.length ≤ j then
        p.properties ++ List.replicate (j + 1 - p.properties.length) p.default_value
      else p.properties).set j v := rfl

theorem Properties.Get_Set_self {α : Type u} (p : Properties α) (i : Nat)
    (v : α) : (p.Set i v).Get i = v := by
  rw [Properties.Get_eq_getD, Properties.Set_properties]
  have hlen : i < (if p.properties.length ≤ i then
      p.properties ++ List.replicate (i + 1 - p.properties.length) p.default_value
    else p.properties).length := by
    by_cases h : p.properties.length ≤ i
    · rw [if_pos h, List.length_append, List.length_replicate]
      omega
    · rw [if_neg h]
      omega
  rw [List.getElem?_set_self hlen]
  rfl

theorem Properties.Get_Set_ne {α : Type u} (p : Properties α) (i j : Nat)
    (v : α) (hne : j ≠ i) : (p.Set j v).Get i = p.Get i := by
  rw [Properties.Get_eq_getD, Properties.Get_eq_getD, Properties.Set_properties]
  have hdef : (p.Set j v).default_value = p.default_value := rfl
  rw [hdef]
  rw [List.getElem?_set_ne hne]
  by_cases h : p.properties.length ≤ j
  · rw [if_pos h]
    by_cases hi : i < p.properties.length
    · rw [List.getElem?_append_left hi]
    · have hrhs : p.properties[i]? = none := List.getElem?_eq_none (by omega)
      rw [hrhs, List.getElem?_append_right (by omega), List.getElem?_replicate]
      by_cases hi2 : i - p.properties.length < j + 1 - p.properties.length
      · rw [if_pos hi2]
        rfl
      · rw [if_neg hi2]
  · rw [if_neg h]

theorem Properties.applySets_append_single {α : Type u} (p : Properties α)
    (ops : List (Nat × α)) (op : Nat × α) :
    p.applySets (ops ++ [op]) = (p.applySets ops).Set op.1 op.2 := by
  unfold Properties.applySets
  rw [List.foldl_append]
  rfl

theorem Properties.applySets_get {α : Type u} (d : α) (i : Nat) :
    ∀ (ops : List (Nat × α)),
      ((Properties.mk [] d).applySets ops).Get i =
        (((ops.reverse.find? (fun q => q.1 == i)).map Prod.snd).getD d) := by
  intro ops
  induction ops using List.reverseRecOn with
  | nil =>
    rw [show (Properties.mk ([] : List α) d).applySets [] =
      Properties.mk [] d from rfl]
    rw [Properties.Get_eq_getD]
    rfl
  | append_singleton ops op ih =>
    rw [Properties.applySets_append_single, List.reverse_append]
    rw [show ([op].reverse ++ ops.reverse : List (Nat × α))
        = op :: ops.reverse from rfl]
    rw [List.find?_cons]
    by_cases hop : op.1 = i
    · have hbeq : (op.1 == i) = true := beq_iff_eq.mpr hop
      rw [hbeq, hop, Properties.Get_Set_self]
      rfl
    · have hbeq : (op.1 == i) = false := by
        rw [beq_eq_false_iff_ne]
        exact hop
      rw [hbeq, Properties.Get_Set_ne _ i op.1 op.2 hop, ih]

/-! ### Binomial heap: node lemmas -/

theorem bnValidate_mk {α : Type u} (k : α) (i d : Nat)
    (ch : List (BinomialHeapNode α)) :
    bnValidate (BinomialHeapNode.mk k i d ch) = true ↔
      ch.map BinomialHeapNode.dimension = (List.range d).reverse ∧
        ∀ c ∈ ch, bnValidate c = true := by
  rw [bnValidate]
  simp only [Bool.and_eq_true, decide_eq_true_eq, List.all_eq_true,
    List.mem_attach, true_implies]
  constructor
  · rintro ⟨h1, h2⟩
    exact ⟨h1, fun c hc => h2 ⟨c, hc⟩⟩
  · rintro ⟨h1, h2⟩
    exact ⟨h1, fun c => h2 c.1 c.2⟩

theorem bnOrdered_mk {α : Type u} (lt : α → α → Bool) (k : α) (i d : Nat)
    (ch : List (BinomialHeapNode α)) :
    bnOrdered lt (BinomialHeapNode.mk k i d ch) = true ↔
      ∀ c ∈ ch, lt c.key k = false ∧ bnOrdered lt c = true := by
  rw [bnOrdered]
  simp only [List.all_eq_true, List.mem_attach, true_implies,
    Bool.and_eq_true, Bool.not_eq_true']
  constructor
  · intro h c hc
    exact h ⟨c, hc⟩
  · intro h c
    exact h c.1 c.2

theorem bnPairs_mk {α : Type u} (k : α) (i d : Nat)
    (ch : List (BinomialHeapNode α)) :
    bnPairs (BinomialHeapNode.mk k i d ch) =
      (k, i) :: (ch.map bnPairs).flatten := by
  rw [bnPairs]
  rw [List.attach_map_coe]

theorem bnForestPairs_nil {α : Type u} :
    bnForestPairs ([] : List (BinomialHeapNode α)) = [] := rfl

theorem bnForestPairs_cons {α : Type u} (r : BinomialHeapNode α)
    (l : List (BinomialHeapNode α)) :
    bnForestPairs (r :: l) = bnPairs r ++ bnForestPairs l := by
  simp [bnForestPairs]

theorem bnPairs_ne_nil {α : Type u} (n : BinomialHeapNode α) :
    bnPairs n ≠ [] := by
  cases n with
  | mk k i d ch => rw [bnPairs_mk]; simp

theorem bnAscending_iff_chain {α : Type u} (l : List (BinomialHeapNode α)) :
    bnAscending l = true ↔
      l.Chain' (fun a b => a.dimension < b.dimension) := by
  induction l with
  | nil => simp [bnAscending]
  | cons x l ih =>
    cases l with
    | nil => simp [bnAscending]
    | cons y ys =>
      rw [bnAscending]
      simp only [Bool.and_eq_true, decide_eq_true_eq, List.chain'_cons, ih]

theorem bnAscending_iff_pairwise {α : Type u}
    (l : List (BinomialHeapNode α)) :
    bnAscending l = true ↔
      l.Pairwise (fun a b => a.dimension < b.dimension) := by
  haveI : IsTrans (BinomialHeapNode α)
      (fun a b => a.dimension < b.dimension) :=
    ⟨fun _ _ _ h1 h2 => Nat.lt_trans h1 h2⟩
  rw [bnAscending_iff_chain, List.chain'_iff_pairwise]

/-- The key at the root of an ordered tree is minimal among its payloads. -/
theorem bnOrdered_pairs {α : Type u} {lt : α → α → Bool} (hswo : SWO lt)
    (n : BinomialHeapNode α) (hord : bnOrdered lt n = true) :
    ∀ p ∈ bnPairs n, lt p.1 n.key = false := by
  induction n using bnValidate.induct with
  | _ k i d ch ih =>
    rw [bnOrdered_mk] at hord
    intro p hp
    rw [bnPairs_mk] at hp
    simp only [BinomialHeapNode.key]
    rcases List.mem_cons.mp hp with h | h
    · subst h
      exact hswo.irrefl k
    · obtain ⟨l2, hl2, hpl⟩ := List.mem_flatten.mp h
      obtain ⟨c, hc, rfl⟩ := List.mem_map.mp hl2
      have hc2 : lt p.1 c.key = false := ih ⟨c, hc⟩ (hord c hc).2 p hpl
      exact hswo.negTrans _ _ _ hc2 (hord c hc).1

/-- `MergeTrees` of two valid, ordered trees of equal dimension. -/
theorem mergeTrees_spec {α : Type u} {lt : α → α → Bool} (hswo : SWO lt)
    (a b : BinomialHeapNode α) (hd : a.dimension = b.dimension)
    (hva : bnValidate a = true) (hvb : bnValidate b = true)
    (hoa : bnOrdered lt a = true) (hob : bnOrdered lt b = true) :
    (BinomialHeapNode.MergeTrees lt a b).dimension = a.dimension + 1 ∧
    bnValidate (BinomialHeapNode.MergeTrees lt a b) = true ∧
    bnOrdered lt (BinomialHeapNode.MergeTrees lt a b) = true ∧
    (bnPairs (BinomialHeapNode.MergeTrees lt a b)).Perm
      (bnPairs a ++ bnPairs b) := by
  cases a with
  | mk ak ai ad ach =>
    cases b with
    | mk bk bi bd bch =>
      simp only [BinomialHeapNode.dimension] at hd
      subst hd
      rw [bnValidate_mk] at hva hvb
      rw [bnOrdered_mk] at hoa hob
      rw [BinomialHeapNode.MergeTrees]
      simp only [BinomialHeapNode.key, BinomialHeapNode.id,
        BinomialHeapNode.dimension, BinomialHeapNode.children]
      by_cases hlt : lt bk ak = true
      · rw [if_pos hlt]
        refine ⟨rfl, ?_, ?_, ?_⟩
        · rw [bnValidate_mk]
          constructor
          · simp only [List.map_cons, BinomialHeapNode.dimension,
              List.range_succ, List.reverse_append, List.reverse_singleton,
              List.singleton_append, hvb.1]
          · intro c hc
            rcases List.mem_cons.mp hc with h | h
            · subst h; rw [bnValidate_mk]; exact hva
            · exact hvb.2 c h
        · rw [bnOrdered_mk]
          intro c hc
          rcases List.mem_cons.mp hc with h | h
          · subst h
            refine ⟨?_, (bnOrdered_mk lt ak ai ad ach).mpr hoa⟩
            simp only [BinomialHeapNode.key]
            exact hswo.asymm _ _ hlt
          · exact hob c h
        · rw [bnPairs_mk bk bi (ad + 1)
              (BinomialHeapNode.mk ak ai ad ach :: bch), List.map_cons,
            List.flatten_cons, bnPairs_mk ak ai ad ach,
            bnPairs_mk bk bi ad bch]
          exact List.perm_middle.symm
      · rw [if_neg hlt]
        refine ⟨rfl, ?_, ?_, ?_⟩
        · rw [bnValidate_mk]
          constructor
          · simp only [List.map_cons, BinomialHeapNode.dimension,
              List.range_succ, List.reverse_append, List.reverse_singleton,
              List.singleton_append, hva.1]
          · intro c hc
            rcases List.mem_cons.mp hc with h | h
            · subst h; rw [bnValidate_mk]; exact hvb
            · exact hva.2 c h
        · rw [bnOrdered_mk]
          intro c hc
          rcases List.mem_cons.mp hc with h | h
          · subst h
            refine ⟨?_, (bnOrdered_mk lt bk bi ad bch).mpr hob⟩
            simp only [BinomialHeapNode.key, Bool.not_eq_true] at hlt ⊢
            exact hlt
          · exact hoa c h
        · rw [bnPairs_mk ak ai (ad + 1)
              (BinomialHeapNode.mk bk bi ad bch :: ach), List.map_cons,
            List.flatten_cons, bnPairs_mk ak ai ad ach, List.cons_append]
          exact List.Perm.cons _ List.perm_append_comm

theorem perm_append_swap12 {α : Type u} (X T R : List α) :
    (X ++ (T ++ R)).Perm (T ++ (X ++ R)) := by
  rw [← List.append_assoc, ← List.append_assoc]
  exact List.Perm.append_right _ List.perm_append_comm

theorem perm_reassoc4 {α : Type u} (A B C D : List α) :
    (((A ++ B) ++ C) ++ D).Perm ((A ++ C) ++ (B ++ D)) := by
  rw [List.append_assoc, List.append_assoc, List.append_assoc]
  exact List.Perm.append_left A (perm_append_swap12 B C D)

/-- `AddToTreeList` into an ascending root list of valid, ordered trees:
the result is ascending, valid, ordered, its payloads are the inserted
tree's plus the list's, and any common dimension lower bound persists. -/
theorem addToTreeList_spec {α : Type u} {lt : α → α → Bool} (hswo : SWO lt) :
    ∀ (tree : BinomialHeapNode α) (l : List (BinomialHeapNode α)),
    l.Pairwise (fun a b => a.dimension < b.dimension) →
    (∀ r ∈ l, bnValidate r = true) →
    (∀ r ∈ l, bnOrdered lt r = true) →
    bnValidate tree = true → bnOrdered lt tree = true →
    (BinomialHeapNode.AddToTreeList lt tree l).Pairwise
        (fun a b => a.dimension < b.dimension) ∧
    (∀ r ∈ BinomialHeapNode.AddToTreeList lt tree l, bnValidate r = true) ∧
    (∀ r ∈ BinomialHeapNode.AddToTreeList lt tree l,
      bnOrdered lt r = true) ∧
    (bnForestPairs (BinomialHeapNode.AddToTreeList lt tree l)).Perm
        (bnPairs tree ++ bnForestPairs l) ∧
    (∀ d, d ≤ tree.dimension → (∀ r ∈ l, d ≤ r.dimension) →
      ∀ r ∈ BinomialHeapNode.AddToTreeList lt tree l, d ≤ r.dimension) := by
  intro tree l
  induction tree, l using BinomialHeapNode.AddToTreeList.induct lt with
  | case1 tree =>
    intro _ _ _ hvt hot
    simp only [BinomialHeapNode.AddToTreeList]
    refine ⟨List.pairwise_singleton _ _, ?_, ?_, ?_, ?_⟩
    · intro r hr
      rw [List.mem_singleton] at hr
      subst hr; exact hvt
    · intro r hr
      rw [List.mem_singleton] at hr
      subst hr; exact hot
    · rw [bnForestPairs_cons, bnForestPairs_nil]
    · intro d hdt _ r hr
      rw [List.mem_singleton] at hr
      subst hr; exact hdt
  | case2 tree curr rest hlt ih =>
    intro hp hv ho hvt hot
    rw [List.pairwise_cons] at hp
    obtain ⟨ih1, ih2, ih3, ih4, ih5⟩ := ih hp.2
      (fun r hr => hv r (List.mem_cons_of_mem _ hr))
      (fun r hr => ho r (List.mem_cons_of_mem _ hr)) hvt hot
    simp only [BinomialHeapNode.AddToTreeList, if_pos hlt]
    refine ⟨?_, ?_, ?_, ?_, ?_⟩
    · rw [List.pairwise_cons]
      exact ⟨fun r hr => ih5 (curr.dimension + 1) hlt
        (fun r2 hr2 => hp.1 r2 hr2) r hr, ih1⟩
    · intro r hr
      rcases List.mem_cons.mp hr with h | h
      · subst h; exact hv _ (List.mem_cons_self _ _)
      · exact ih2 r h
    · intro r hr
      rcases List.mem_cons.mp hr with h | h
      · subst h; exact ho _ (List.mem_cons_self _ _)
      · exact ih3 r h
    · rw [bnForestPairs_cons, bnForestPairs_cons]
      exact (List.Perm.append_left _ ih4).trans
        (perm_append_swap12 _ _ _)
    · intro d hdt hl r hr
      rcases List.mem_cons.mp hr with h | h
      · subst h; exact hl _ (List.mem_cons_self _ _)
      · exact ih5 d hdt (fun r2 hr2 => hl r2 (List.mem_cons_of_mem _ hr2))
          r h
  | case3 tree curr rest hnlt heq ih =>
    intro hp hv ho hvt hot
    rw [List.pairwise_cons] at hp
    have hm := mergeTrees_spec hswo curr tree heq
      (hv curr (List.mem_cons_self _ _)) hvt
      (ho curr (List.mem_cons_self _ _)) hot
    obtain ⟨ih1, ih2, ih3, ih4, ih5⟩ := ih hp.2
      (fun r hr => hv r (List.mem_cons_of_mem _ hr))
      (fun r hr => ho r (List.mem_cons_of_mem _ hr)) hm.2.1 hm.2.2.1
    simp only [BinomialHeapNode.AddToTreeList, if_neg hnlt, if_pos heq]
    refine ⟨ih1, ih2, ih3, ?_, ?_⟩
    · rw [bnForestPairs_cons]
      refine (ih4.trans (List.Perm.append_right _ hm.2.2.2)).trans ?_
      rw [List.append_assoc]
      exact perm_append_swap12 _ _ _
    · intro d hdt hl r hr
      refine ih5 d ?_ (fun r2 hr2 => hl r2 (List.mem_cons_of_mem _ hr2))
        r hr
      have := hm.1
      omega
  | case4 tree curr rest hnlt hne =>
    intro hp hv ho hvt hot
    have hgt : tree.dimension < curr.dimension := by omega
    rw [List.pairwise_cons] at hp
    simp only [BinomialHeapNode.AddToTreeList, if_neg hnlt, if_neg hne]
    refine ⟨?_, ?_, ?_, ?_, ?_⟩
    · rw [List.pairwise_cons]
      refine ⟨?_, List.pairwise_cons.mpr hp⟩
      intro r hr
      rcases List.mem_cons.mp hr with h | h
      · subst h; exact hgt
      · exact Nat.lt_trans hgt (hp.1 r h)
    · intro r hr
      rcases List.mem_cons.mp hr with h | h
      · subst h; exact hvt
      · exact hv r h
    · intro r hr
      rcases List.mem_cons.mp hr with h | h
      · subst h; exact hot
      · exact ho r h
    · rw [bnForestPairs_cons]
    · intro d hdt hl r hr
      rcases List.mem_cons.mp hr with h | h
      · subst h; exact hdt
      · exact hl r h

/-- `MergeTreeLists` of two ascending root lists of valid, ordered trees. -/
theorem mergeTreeLists_spec {α : Type u} {lt : α → α → Bool}
    (hswo : SWO lt) :
    ∀ (l1 l2 : List (BinomialHeapNode α)),
    l1.Pairwise (fun a b => a.dimension < b.dimension) →
    l2.Pairwise (fun a b => a.dimension < b.dimension) →
    (∀ r ∈ l1, bnValidate r = true) → (∀ r ∈ l2, bnValidate r = true) →
    (∀ r ∈ l1, bnOrdered lt r = true) → (∀ r ∈ l2, bnOrdered lt r = true) →
    (BinomialHeapNode.MergeTreeLists lt l1 l2).Pairwise
        (fun a b => a.dimension < b.dimension) ∧
    (∀ r ∈ BinomialHeapNode.MergeTreeLists lt l1 l2,
      bnValidate r = true) ∧
    (∀ r ∈ BinomialHeapNode.MergeTreeLists lt l1 l2,
      bnOrdered lt r = true) ∧
    (bnForestPairs (BinomialHeapNode.MergeTreeLists lt l1 l2)).Perm
        (bnForestPairs l1 ++ bnForestPairs l2) ∧
    (∀ d, (∀ r ∈ l1, d ≤ r.dimension) → (∀ r ∈ l2, d ≤ r.dimension) →
      ∀ r ∈ BinomialHeapNode.MergeTreeLists lt l1 l2, d ≤ r.dimension) := by
  intro l1 l2
  induction l1, l2 using BinomialHeapNode.MergeTreeLists.induct lt with
  | case1 b =>
    intro _ hp2 _ hv2 _ ho2
    simp only [BinomialHeapNode.MergeTreeLists]
    refine ⟨hp2, hv2, ho2, ?_, ?_⟩
    · rw [bnForestPairs_nil, List.nil_append]
    · intro d _ hl2 r hr
      exact hl2 r hr
  | case2 a as =>
    intro hp1 _ hv1 _ ho1 _
    simp only [BinomialHeapNode.MergeTreeLists]
    refine ⟨hp1, hv1, ho1, ?_, ?_⟩
    · rw [bnForestPairs_nil, List.append_nil]
    · intro d hl1 _ r hr
      exact hl1 r hr
  | case3 a as b bs heq ih =>
    intro hp1 hp2 hv1 hv2 ho1 ho2
    rw [List.pairwise_cons] at hp1 hp2
    have hm := mergeTrees_spec hswo a b heq (hv1 a (List.mem_cons_self _ _))
      (hv2 b (List.mem_cons_self _ _)) (ho1 a (List.mem_cons_self _ _))
      (ho2 b (List.mem_cons_self _ _))
    have ha := addToTreeList_spec hswo (BinomialHeapNode.MergeTrees lt a b)
      as hp1.2 (fun r hr => hv1 r (List.mem_cons_of_mem _ hr))
      (fun r hr => ho1 r (List.mem_cons_of_mem _ hr)) hm.2.1 hm.2.2.1
    obtain ⟨ih1, ih2, ih3, ih4, ih5⟩ := ih ha.1 hp2.2 ha.2.1
      (fun r hr => hv2 r (List.mem_cons_of_mem _ hr)) ha.2.2.1
      (fun r hr => ho2 r (List.mem_cons_of_mem _ hr))
    simp only [BinomialHeapNode.MergeTreeLists, if_pos heq]
    refine ⟨ih1, ih2, ih3, ?_, ?_⟩
    · rw [bnForestPairs_cons a as, bnForestPairs_cons b bs]
      refine ((ih4.trans
        (List.Perm.append_right _ ha.2.2.2.1)).trans
        (List.Perm.append_right _
          (List.Perm.append_right _ hm.2.2.2))).trans ?_
      exact perm_reassoc4 _ _ _ _
    · intro d hl1 hl2 r hr
      refine ih5 d ?_ (fun r2 hr2 => hl2 r2 (List.mem_cons_of_mem _ hr2))
        r hr
      refine ha.2.2.2.2 d ?_
        (fun r2 hr2 => hl1 r2 (List.mem_cons_of_mem _ hr2))
      have h1 := hl1 a (List.mem_cons_self _ _)
      have h2 := hm.1
      omega
  | case4 a as b bs hne hlt ih =>
    intro hp1 hp2 hv1 hv2 ho1 ho2
    rw [List.pairwise_cons] at hp1
    obtain ⟨ih1, ih2, ih3, ih4, ih5⟩ := ih hp1.2 hp2
      (fun r hr => hv1 r (List.mem_cons_of_mem _ hr)) hv2
      (fun r hr => ho1 r (List.mem_cons_of_mem _ hr)) ho2
    simp only [BinomialHeapNode.MergeTreeLists, if_neg hne, if_pos hlt]
    have hbnd : ∀ r ∈ BinomialHeapNode.MergeTreeLists lt as (b :: bs),
        a.dimension < r.dimension := by
      intro r hr
      refine ih5 (a.dimension + 1) (fun r2 hr2 => hp1.1 r2 hr2) ?_ r hr
      intro r2 hr2
      rcases List.mem_cons.mp hr2 with h | h
      · subst h; exact hlt
      · have := List.pairwise_cons.mp hp2
        exact Nat.lt_trans hlt (this.1 r2 h)
    refine ⟨?_, ?_, ?_, ?_, ?_⟩
    · rw [List.pairwise_cons]
      exact ⟨hbnd, ih1⟩
    · intro r hr
      rcases List.mem_cons.mp hr with h | h
      · subst h; exact hv1 _ (List.mem_cons_self _ _)
      · exact ih2 r h
    · intro r hr
      rcases List.mem_cons.mp hr with h | h
      · subst h; exact ho1 _ (List.mem_cons_self _ _)
      · exact ih3 r h
    · rw [bnForestPairs_cons a (BinomialHeapNode.MergeTreeLists lt as
          (b :: bs)), bnForestPairs_cons a as]
      refine (List.Perm.append_left _ ih4).trans ?_
      rw [List.append_assoc]
    · intro d hl1 hl2 r hr
      rcases List.mem_cons.mp hr with h | h
      · subst h; exact hl1 _ (List.mem_cons_self _ _)
      · exact ih5 d (fun r2 hr2 => hl1 r2 (List.mem_cons_of_mem _ hr2))
          hl2 r h
  | case5 a as b bs hne hnlt ih =>
    intro hp1 hp2 hv1 hv2 ho1 ho2
    rw [List.pairwise_cons] at hp2
    have hgt : b.dimension < a.dimension := by omega
    obtain ⟨ih1, ih2, ih3, ih4, ih5⟩ := ih hp1 hp2.2 hv1
      (fun r hr => hv2 r (List.mem_cons_of_mem _ hr)) ho1
      (fun r hr => ho2 r (List.mem_cons_of_mem _ hr))
    simp only [BinomialHeapNode.MergeTreeLists, if_neg hne, if_neg hnlt]
    have hbnd : ∀ r ∈ BinomialHeapNode.MergeTreeLists lt (a :: as) bs,
        b.dimension < r.dimension := by
      intro r hr
      refine ih5 (b.dimension + 1) ?_ (fun r2 hr2 => hp2.1 r2 hr2) r hr
      intro r2 hr2
      rcases List.mem_cons.mp hr2 with h | h
      · subst h; exact hgt
      · have := List.pairwise_cons.mp hp1
        exact Nat.lt_trans hgt (this.1 r2 h)
    refine ⟨?_, ?_, ?_, ?_, ?_⟩
    · rw [List.pairwise_cons]
      exact ⟨hbnd, ih1⟩
    · intro r hr
      rcases List.mem_cons.mp hr with h | h
      · subst h; exact hv2 _ (List.mem_cons_self _ _)
      · exact ih2 r h
    · intro r hr
      rcases List.mem_cons.mp hr with h | h
      · subst h; exact ho2 _ (List.mem_cons_self _ _)
      · exact ih3 r h
    · rw [bnForestPairs_cons b (BinomialHeapNode.MergeTreeLists lt
          (a :: as) bs), bnForestPairs_cons b bs]
      refine (List.Perm.append_left _ ih4).trans ?_
      exact perm_append_swap12 _ _ _
    · intro d hl1 hl2 r hr
      rcases List.mem_cons.mp hr with h | h
      · subst h; exact hl2 _ (List.mem_cons_self _ _)
      · exact ih5 d hl1
          (fun r2 hr2 => hl2 r2 (List.mem_cons_of_mem _ hr2)) r h

/-! ### Binomial heap: minimum extraction lemmas -/

theorem bnMinNode_mem {α : Type u} (lt : α → α → Bool) :
    ∀ (cur : BinomialHeapNode α) (l : List (BinomialHeapNode α)),
    bnMinNode lt cur l ∈ cur :: l := by
  intro cur l
  induction cur, l using bnMinNode.induct lt with
  | case1 tree => simp [bnMinNode]
  | case2 tree curr rest hlt ih =>
    rw [bnMinNode, if_pos hlt]
    exact List.mem_cons_of_mem _ ih
  | case3 tree curr rest hnlt ih =>
    rw [bnMinNode, if_neg hnlt]
    rcases List.mem_cons.mp ih with h | h
    · rw [h]; exact List.mem_cons_self _ _
    · exact List.mem_cons_of_mem _ (List.mem_cons_of_mem _ h)

theorem bnMinNode_min {α : Type u} {lt : α → α → Bool} (hswo : SWO lt) :
    ∀ (cur : BinomialHeapNode α) (l : List (BinomialHeapNode α)),
    ∀ x ∈ cur :: l, lt x.key (bnMinNode lt cur l).key = false := by
  intro cur l
  induction cur, l using bnMinNode.induct lt with
  | case1 tree =>
    intro x hx
    rw [List.mem_singleton] at hx
    subst hx
    simp [bnMinNode, hswo.irrefl]
  | case2 tree curr rest hlt ih =>
    intro x hx
    rw [bnMinNode, if_pos hlt]
    rcases List.mem_cons.mp hx with h | h
    · subst h
      have h1 := ih curr (List.mem_cons_self _ _)
      by_cases hx2 : lt x.key (bnMinNode lt curr rest).key = true
      · exfalso
        have := hswo.trans _ _ _ hlt hx2
        rw [h1] at this
        exact Bool.false_ne_true this
      · exact Bool.eq_false_iff.mpr hx2
    · exact ih x h
  | case3 tree curr rest hnlt ih =>
    intro x hx
    rw [bnMinNode, if_neg hnlt]
    have hcf : lt curr.key tree.key = false := Bool.eq_false_iff.mpr hnlt
    rcases List.mem_cons.mp hx with h | h
    · subst h
      exact ih x (List.mem_cons_self _ _)
    · rcases List.mem_cons.mp h with h2 | h2
      · subst h2
        exact hswo.negTrans _ _ _ hcf (ih tree (List.mem_cons_self _ _))
      · exact ih x (List.mem_cons_of_mem _ h2)

theorem bnRemoveId_sublist {α : Type u} (id : Nat) :
    ∀ l : List (BinomialHeapNode α), (bnRemoveId id l).Sublist l := by
  intro l
  induction l with
  | nil => simp [bnRemoveId]
  | cons r rest ih =>
    rw [bnRemoveId]
    by_cases h : r.id = id
    · rw [if_pos h]
      exact List.sublist_cons_self _ _
    · rw [if_neg h]
      exact List.Sublist.cons₂ _ ih

theorem bnRemoveId_perm {α : Type u} {l : List (BinomialHeapNode α)}
    (hnd : (l.map BinomialHeapNode.id).Nodup) {n : BinomialHeapNode α}
    (hm : n ∈ l) : l.Perm (n :: bnRemoveId n.id l) := by
  induction l with
  | nil => cases hm
  | cons r rest ih =>
    rw [List.map_cons, List.nodup_cons] at hnd
    rw [bnRemoveId]
    by_cases h : r.id = n.id
    · rw [if_pos h]
      have hrn : r = n := by
        rcases List.mem_cons.mp hm with h2 | h2
        · exact h2.symm
        · exfalso
          exact hnd.1 (h ▸ List.mem_map_of_mem BinomialHeapNode.id h2)
      rw [hrn]
    · rw [if_neg h]
      have hnr : n ∈ rest := by
        rcases List.mem_cons.mp hm with h2 | h2
        · exact absurd (congrArg BinomialHeapNode.id h2.symm) h
        · exact h2
      exact ((ih hnd.2 hnr).cons r).trans (List.Perm.swap _ _ _)

theorem bnForestPairs_perm {α : Type u}
    {l1 l2 : List (BinomialHeapNode α)} (h : l1.Perm l2) :
    (bnForestPairs l1).Perm (bnForestPairs l2) :=
  (h.map bnPairs).flatten

/-- Each root's own id heads its payload block, so the root ids form a
sublist of the forest ids. -/
theorem bnRootIds_sublist {α : Type u} :
    ∀ l : List (BinomialHeapNode α),
    (l.map BinomialHeapNode.id).Sublist (bnForestIds l) := by
  intro l
  induction l with
  | nil => simp [bnForestIds, bnForestPairs]
  | cons r rest ih =>
    rw [List.map_cons, bnForestIds, bnForestPairs_cons, List.map_append]
    cases r with
    | mk k i d ch =>
      rw [bnPairs_mk, List.map_cons]
      simp only [BinomialHeapNode.id]
      exact List.Sublist.cons₂ _ (List.sublist_append_of_sublist_right ih)

theorem iderase_eq_filter (x : Nat) :
    ∀ l : List Nat, iderase l x = l.filter (fun i => i != x) := by
  intro l
  induction l with
  | nil => rfl
  | cons i rest ih =>
    rw [iderase]
    by_cases h : i = x
    · rw [if_pos h, List.filter_cons]
      simp [h, ih]
    · rw [if_neg h, List.filter_cons]
      simp [h, ih]

theorem iderase_eq_erase {l : List Nat} (hnd : l.Nodup) (x : Nat) :
    iderase l x = l.erase x := by
  rw [iderase_eq_filter, List.Nodup.erase_eq_filter hnd]

/-- `DetachChildren` of a valid tree: ascending dimensions, valid and
ordered children, payloads = the tree's payloads minus its root pair. -/
theorem detachChildren_spec {α : Type u} (lt : α → α → Bool)
    (n : BinomialHeapNode α) (hv : bnValidate n = true) :
    (n.DetachChildren).Pairwise (fun a b => a.dimension < b.dimension) ∧
    (∀ c ∈ n.DetachChildren, bnValidate c = true) ∧
    (bnOrdered lt n = true →
      ∀ c ∈ n.DetachChildren, bnOrdered lt c = true) ∧
    ((n.key, n.id) :: bnForestPairs n.DetachChildren).Perm (bnPairs n) := by
  cases n with
  | mk k i d ch =>
    rw [bnValidate_mk] at hv
    simp only [BinomialHeapNode.DetachChildren, BinomialHeapNode.children,
      BinomialHeapNode.key, BinomialHeapNode.id]
    refine ⟨?_, ?_, ?_, ?_⟩
    · have hpl : List.Pairwise (fun a b => a < b)
          (ch.reverse.map BinomialHeapNode.dimension) := by
        rw [List.map_reverse, hv.1, List.reverse_reverse]
        exact List.pairwise_lt_range d
      exact List.pairwise_map.mp hpl
    · intro c hc
      exact hv.2 c (List.mem_reverse.mp hc)
    · intro hord c hc
      rw [bnOrdered_mk] at hord
      exact (hord c (List.mem_reverse.mp hc)).2
    · rw [bnPairs_mk]
      exact List.Perm.cons _ (bnForestPairs_perm (List.reverse_perm ch))

/-- `BinomialHeap::Add` aborts exactly when the id is already present. -/
theorem binomAdd_none_iff {α : Type u} (lt : α → α → Bool)
    (h : BinomialHeap α) (key : α) (id : Nat) :
    h.Add lt key id = none ↔ id ∈ h.ids := by
  rw [BinomialHeap.Add]
  by_cases hid : id ∈ h.ids
  · simp [hid]
  · simp [hid]

/-- `BinomialHeap::Add` on a fresh id preserves the invariant and adds the
pair. -/
theorem binomAdd_some_spec {α : Type u} {lt : α → α → Bool} (hswo : SWO lt)
    (h : BinomialHeap α) (key : α) (id : Nat) (hinv : BinomInv lt h)
    (hid : id ∉ h.ids) :
    ∃ h2, h.Add lt key id = some h2 ∧ BinomInv lt h2 ∧
      (bnForestPairs h2.root).Perm ((key, id) :: bnForestPairs h.root) ∧
      h2.ids = id :: h.ids := by
  have htv : bnValidate (BinomialHeapNode.mk key id 0 []) = true := by
    rw [bnValidate_mk]
    simp
  have hto : bnOrdered lt (BinomialHeapNode.mk key id 0 []) = true := by
    rw [bnOrdered_mk]
    simp
  have ha := addToTreeList_spec hswo (BinomialHeapNode.mk key id 0 [])
    h.root ((bnAscending_iff_pairwise _).mp hinv.1.2) hinv.1.1 hinv.2.1
    htv hto
  have hpairs : (bnForestPairs (BinomialHeapNode.AddToTreeList lt
      (BinomialHeapNode.mk key id 0 []) h.root)).Perm
      ((key, id) :: bnForestPairs h.root) := by
    refine ha.2.2.2.1.trans ?_
    rw [bnPairs_mk]
    simp
  refine ⟨⟨BinomialHeapNode.AddToTreeList lt
    (BinomialHeapNode.mk key id 0 []) h.root, id :: h.ids⟩, ?_, ?_, hpairs,
    rfl⟩
  · rw [BinomialHeap.Add, if_neg hid]
  · refine ⟨⟨ha.2.1, (bnAscending_iff_pairwise _).mpr ha.1⟩, ha.2.2.1,
      ?_, ?_⟩
    · refine List.Perm.trans ?_ (List.Perm.map Prod.snd hpairs).symm
      rw [List.map_cons]
      exact List.Perm.cons _ hinv.2.2.1
    · exact List.nodup_cons.mpr ⟨hid, hinv.2.2.2⟩

theorem mem_bnForestPairs {α : Type u} {p : α × Nat}
    {l : List (BinomialHeapNode α)} :
    p ∈ bnForestPairs l ↔ ∃ t ∈ l, p ∈ bnPairs t := by
  rw [bnForestPairs, List.mem_flatten]
  constructor
  · rintro ⟨bl, hbl, hp⟩
    obtain ⟨t, ht, rfl⟩ := List.mem_map.mp hbl
    exact ⟨t, ht, hp⟩
  · rintro ⟨t, ht, hp⟩
    exact ⟨bnPairs t, List.mem_map_of_mem _ ht, hp⟩

/-- `BinomialHeap::PopMinimum` on a non-empty heap satisfying the
invariant: it returns a globally minimal pair, preserves the invariant,
removes exactly that pair from the contents and erases its id. -/
theorem binomPop_spec {α : Type u} {lt : α → α → Bool} (hswo : SWO lt)
    (h : BinomialHeap α) (hinv : BinomInv lt h) (hne : h.root ≠ []) :
    ∃ m h2, h.PopMinimum lt = some (m, h2) ∧ BinomInv lt h2 ∧
      (m :: bnForestPairs h2.root).Perm (bnForestPairs h.root) ∧
      (∀ p ∈ bnForestPairs h.root, lt p.1 m.1 = false) ∧
      h2.ids = h.ids.erase m.2 := by
  obtain ⟨root, ids⟩ := h
  obtain ⟨⟨hval, hasc⟩, hord, hperm, hnd⟩ := hinv
  cases root with
  | nil => exact absurd rfl hne
  | cons r rest =>
    have hMmem := bnMinNode_mem lt r rest
    have hMval := hval _ hMmem
    have hMord := hord _ hMmem
    have hfnd : (bnForestIds (r :: rest)).Nodup := hperm.nodup hnd
    have hrid : ((r :: rest).map BinomialHeapNode.id).Nodup :=
      List.Nodup.sublist (bnRootIds_sublist (r :: rest)) hfnd
    have hrem := bnRemoveId_perm hrid hMmem
    have hremsub := bnRemoveId_sublist (bnMinNode lt r rest).id (r :: rest)
    have hpw : (r :: rest).Pairwise
        (fun a b => a.dimension < b.dimension) :=
      (bnAscending_iff_pairwise _).mp hasc
    have hdet := detachChildren_spec lt (bnMinNode lt r rest) hMval
    have hmer := mergeTreeLists_spec hswo
      (bnRemoveId (bnMinNode lt r rest).id (r :: rest))
      (bnMinNode lt r rest).DetachChildren
      (List.Pairwise.sublist hremsub hpw) hdet.1
      (fun t ht => hval t (hremsub.subset ht)) hdet.2.1
      (fun t ht => hord t (hremsub.subset ht)) (hdet.2.2.1 hMord)
    have hpairs : (((bnMinNode lt r rest).key, (bnMinNode lt r rest).id) ::
        bnForestPairs (BinomialHeapNode.MergeTreeLists lt
          (bnRemoveId (bnMinNode lt r rest).id (r :: rest))
          (bnMinNode lt r rest).DetachChildren)).Perm
        (bnForestPairs (r :: rest)) := by
      refine List.Perm.trans (List.Perm.cons _ hmer.2.2.2.1) ?_
      refine List.Perm.trans List.perm_middle.symm ?_
      refine List.Perm.trans (List.Perm.append_left _ hdet.2.2.2) ?_
      refine List.Perm.trans List.perm_append_comm ?_
      rw [← bnForestPairs_cons]
      exact (bnForestPairs_perm hrem).symm
    have hids : ((bnMinNode lt r rest).id ::
        bnForestIds (BinomialHeapNode.MergeTreeLists lt
          (bnRemoveId (bnMinNode lt r rest).id (r :: rest))
          (bnMinNode lt r rest).DetachChildren)).Perm
        (bnForestIds (r :: rest)) := by
      have := hpairs.map Prod.snd
      rw [List.map_cons] at this
      exact this
    have hmid : (bnMinNode lt r rest).id ∈ ids := by
      refine hperm.mem_iff.mpr ?_
      exact hids.mem_iff.mp (List.mem_cons_self _ _)
    have herase : iderase ids (bnMinNode lt r rest).id =
        ids.erase (bnMinNode lt r rest).id := iderase_eq_erase hnd _
    refine ⟨((bnMinNode lt r rest).key, (bnMinNode lt r rest).id), _, rfl,
      ?_, hpairs, ?_, herase⟩
    · refine ⟨⟨hmer.2.1, (bnAscending_iff_pairwise _).mpr hmer.1⟩,
        hmer.2.2.1, ?_, ?_⟩
      · rw [herase]
        have h2p : ids.Perm ((bnMinNode lt r rest).id ::
            ids.erase (bnMinNode lt r rest).id) :=
          List.perm_cons_erase hmid
        exact (List.Perm.cons_inv
          (hids.trans (hperm.symm.trans h2p))).symm
      · rw [herase]
        exact hnd.erase _
    · intro p hp
      obtain ⟨t, ht, hpt⟩ := mem_bnForestPairs.mp hp
      have h1 := bnOrdered_pairs hswo t (hord t ht) p hpt
      have h2 := bnMinNode_min hswo r rest t ht
      exact hswo.negTrans _ _ _ h1 h2

theorem binomPop_none_iff {α : Type u} (lt : α → α → Bool)
    (h : BinomialHeap α) : h.PopMinimum lt = none ↔ h.root = [] := by
  obtain ⟨root, ids⟩ := h
  cases root with
  | nil => simp [BinomialHeap.PopMinimum]
  | cons r rest => simp [BinomialHeap.PopMinimum]

theorem binomMin_eq_pop {α : Type u} (lt : α → α → Bool)
    (h : BinomialHeap α) :
    h.Min lt = (h.PopMinimum lt).map Prod.fst := by
  obtain ⟨root, ids⟩ := h
  cases root with
  | nil => rfl
  | cons r rest => rfl

/-! ### Binomial heap: lookup lemmas -/

theorem bnFindList_isSome_aux {α : Type u} (id : Nat) :
    ∀ l : List (BinomialHeapNode α),
    (∀ c ∈ l, ((bnFindNode id c).isSome ↔
      id ∈ (bnPairs c).map Prod.snd)) →
    ((bnFindList id l).isSome ↔ id ∈ bnForestIds l) := by
  intro l
  induction l with
  | nil =>
    intro _
    simp [bnFindList, bnForestIds, bnForestPairs]
  | cons c rest ih =>
    intro hn
    rw [bnFindList]
    have hrest := ih (fun x hx => hn x (List.mem_cons_of_mem _ hx))
    have hc := hn c (List.mem_cons_self _ _)
    have hm : id ∈ bnForestIds (c :: rest) ↔
        id ∈ (bnPairs c).map Prod.snd ∨ id ∈ bnForestIds rest := by
      rw [bnForestIds, bnForestPairs_cons, List.map_append,
        List.mem_append]
      rfl
    cases hfc : bnFindNode id c with
    | some k =>
      simp only [Option.isSome_some, true_iff]
      rw [hm]
      exact Or.inl (hc.mp (by rw [hfc]; rfl))
    | none =>
      rw [hm]
      have hnc : id ∉ (bnPairs c).map Prod.snd := by
        intro hmem
        have := hc.mpr hmem
        rw [hfc] at this
        exact Bool.false_ne_true this
      constructor
      · intro hs
        exact Or.inr (hrest.mp hs)
      · intro hor
        rcases hor with h | h
        · exact absurd h hnc
        · exact hrest.mpr h

theorem bnFindNode_isSome {α : Type u} (id : Nat) :
    ∀ n : BinomialHeapNode α,
    (bnFindNode id n).isSome ↔ id ∈ (bnPairs n).map Prod.snd := by
  intro n
  induction n using bnValidate.induct with
  | _ k i d ch ih =>
    rw [bnFindNode, bnPairs_mk, List.map_cons]
    by_cases hii : i = id
    · simp [hii]
    · rw [if_neg hii]
      have hlist := bnFindList_isSome_aux id ch (fun c hc => ih ⟨c, hc⟩)
      rw [List.mem_cons]
      constructor
      · intro hs
        exact Or.inr (hlist.mp hs)
      · intro hor
        rcases hor with h | h
        · exact absurd h.symm hii
        · exact hlist.mpr h

theorem bnFindList_isSome {α : Type u} (id : Nat)
    (l : List (BinomialHeapNode α)) :
    (bnFindList id l).isSome ↔ id ∈ bnForestIds l :=
  bnFindList_isSome_aux id l (fun c _ => bnFindNode_isSome id c)

/-- Under the heap invariant, `LookUp` reports presence exactly for the
ids in `id_to_node_`. -/
theorem binomLookUp_isSome_iff {α : Type u} {lt : α → α → Bool}
    (h : BinomialHeap α) (hinv : BinomInv lt h) (id : Nat) :
    (h.LookUp id).isSome ↔ id ∈ h.ids := by
  rw [BinomialHeap.LookUp]
  by_cases hid : id ∈ h.ids
  · rw [if_pos hid]
    simp only [hid, iff_true]
    exact (bnFindList_isSome id h.root).mpr (hinv.2.2.1.mem_iff.mp hid)
  · rw [if_neg hid]
    simp [hid]

/-! ### Binomial heap: payload sift lemmas -/

theorem bnForestIds_cons {α : Type u} (r : BinomialHeapNode α)
    (l : List (BinomialHeapNode α)) :
    bnForestIds (r :: l) = (bnPairs r).map Prod.snd ++ bnForestIds l := by
  rw [bnForestIds, bnForestPairs_cons, List.map_append]
  rfl

theorem bnForestIds_append {α : Type u}
    (l1 l2 : List (BinomialHeapNode α)) :
    bnForestIds (l1 ++ l2) = bnForestIds l1 ++ bnForestIds l2 := by
  induction l1 with
  | nil => rfl
  | cons r rest ih =>
    rw [List.cons_append, bnForestIds_cons, ih, bnForestIds_cons,
      List.append_assoc]

theorem bnSiftNode_eq_root {α : Type u} (lt : α → α → Bool) (k : α)
    (id : Nat) (nk : α) (nid nd : Nat)
    (nch : List (BinomialHeapNode α)) (hii : nid = id) :
    bnSiftNode lt k id (BinomialHeapNode.mk nk nid nd nch) =
      some (BinomialHeapNode.mk k id nd nch, true) := by
  rw [bnSiftNode, if_pos hii]

theorem bnSiftNode_eq_none_case {α : Type u} (lt : α → α → Bool) (k : α)
    (id : Nat) (nk : α) (nid nd : Nat)
    (nch : List (BinomialHeapNode α)) (hii : ¬nid = id)
    (hsl : bnSiftList lt k id nch = none) :
    bnSiftNode lt k id (BinomialHeapNode.mk nk nid nd nch) = none := by
  rw [bnSiftNode, if_neg hii, hsl]

theorem bnSiftNode_eq_false_case {α : Type u} (lt : α → α → Bool) (k : α)
    (id : Nat) (nk : α) (nid nd : Nat)
    (nch nch2 : List (BinomialHeapNode α)) (hii : ¬nid = id)
    (hsl : bnSiftList lt k id nch = some (nch2, false)) :
    bnSiftNode lt k id (BinomialHeapNode.mk nk nid nd nch) =
      some (BinomialHeapNode.mk nk nid nd nch2, false) := by
  rw [bnSiftNode, if_neg hii, hsl]

theorem bnSiftNode_eq_true_case {α : Type u} (lt : α → α → Bool) (k : α)
    (id : Nat) (nk : α) (nid nd : Nat)
    (nch nch2 : List (BinomialHeapNode α)) (hii : ¬nid = id)
    (hsl : bnSiftList lt k id nch = some (nch2, true)) :
    bnSiftNode lt k id (BinomialHeapNode.mk nk nid nd nch) =
      if lt k nk = true then
        some (BinomialHeapNode.mk k id nd
          (bnReplaceRootPayload id nk nid nch2), true)
      else some (BinomialHeapNode.mk nk nid nd nch2, false) := by
  rw [bnSiftNode, if_neg hii, hsl]

theorem bnSiftNode_none_root {α : Type u} (lt : α → α → Bool) (k : α)
    (id : Nat) (n : BinomialHeapNode α)
    (h : bnSiftNode lt k id n = none) : n.id ≠ id := by
  cases n with
  | mk nk nid nd nch =>
    intro hid
    simp only [BinomialHeapNode.id] at hid
    rw [bnSiftNode, if_pos hid] at h
    exact Option.noConfusion h

theorem bnSiftNode_none_find {α : Type u} (lt : α → α → Bool) (k : α)
    (id : Nat) :
    ∀ n : BinomialHeapNode α,
    bnSiftNode lt k id n = none → bnFindNode id n = none := by
  have haux : ∀ l : List (BinomialHeapNode α),
      (∀ c ∈ l, bnSiftNode lt k id c = none → bnFindNode id c = none) →
      bnSiftList lt k id l = none → bnFindList id l = none := by
    intro l
    induction l with
    | nil =>
      intro _ _
      rfl
    | cons c rest ih =>
      intro hn h
      rw [bnSiftList] at h
      cases hc : bnSiftNode lt k id c with
      | some cf =>
        rw [hc] at h
        exact Option.noConfusion h
      | none =>
        rw [hc] at h
        rw [bnFindList, hn c (List.mem_cons_self _ _) hc]
        cases hrest : bnSiftList lt k id rest with
        | some rf =>
          rw [hrest] at h
          exact Option.noConfusion h
        | none =>
          exact ih (fun x hx => hn x (List.mem_cons_of_mem _ hx)) hrest
  intro n
  induction n using bnValidate.induct with
  | _ nk nid nd nch ih =>
    intro h
    rw [bnFindNode]
    by_cases hii : nid = id
    · rw [bnSiftNode_eq_root lt k id nk nid nd nch hii] at h
      exact Option.noConfusion h
    · rw [if_neg hii]
      cases hsl : bnSiftList lt k id nch with
      | some lf =>
        exfalso
        obtain ⟨l2, flag⟩ := lf
        cases flag with
        | false =>
          rw [bnSiftNode_eq_false_case lt k id nk nid nd nch l2 hii
            hsl] at h
          exact Option.noConfusion h
        | true =>
          rw [bnSiftNode_eq_true_case lt k id nk nid nd nch l2 hii
            hsl] at h
          by_cases hk : lt k nk = true
          · rw [if_pos hk] at h
            exact Option.noConfusion h
          · rw [if_neg hk] at h
            exact Option.noConfusion h
      | none =>
        exact haux nch (fun c hc => ih ⟨c, hc⟩) hsl

theorem bnFindList_append_first {α : Type u} (id : Nat)
    (c : BinomialHeapNode α) (post : List (BinomialHeapNode α)) :
    ∀ pre : List (BinomialHeapNode α),
    (∀ x ∈ pre, bnFindNode id x = none) →
    (bnFindNode id c).isSome = true →
    bnFindList id (pre ++ c :: post) = bnFindNode id c := by
  intro pre
  induction pre with
  | nil =>
    intro _ hs
    rw [List.nil_append, bnFindList]
    cases hc : bnFindNode id c with
    | some k => rfl
    | none => rw [hc] at hs; exact Bool.noConfusion hs
  | cons x rest ih =>
    intro hn hs
    rw [List.cons_append, bnFindList, hn x (List.mem_cons_self _ _)]
    exact ih (fun y hy => hn y (List.mem_cons_of_mem _ hy)) hs

theorem bnReplaceRootPayload_eq {α : Type u} (id : Nat) (nk : α)
    (nid : Nat) (c2 : BinomialHeapNode α)
    (post : List (BinomialHeapNode α)) (hc2 : c2.id = id) :
    ∀ pre : List (BinomialHeapNode α), (∀ x ∈ pre, x.id ≠ id) →
    bnReplaceRootPayload id nk nid (pre ++ c2 :: post) =
      pre ++ BinomialHeapNode.mk nk nid c2.dimension c2.children ::
        post := by
  intro pre
  induction pre with
  | nil =>
    intro _
    rw [List.nil_append, List.nil_append, bnReplaceRootPayload,
      if_pos hc2]
  | cons x rest ih =>
    intro hn
    rw [List.cons_append, bnReplaceRootPayload,
      if_neg (hn x (List.mem_cons_self _ _)), List.cons_append,
      ih (fun y hy => hn y (List.mem_cons_of_mem _ hy))]

theorem bnSiftList_decomp {α : Type u} (lt : α → α → Bool) (k : α)
    (id : Nat) :
    ∀ (l l2 : List (BinomialHeapNode α)) (flag : Bool),
    bnSiftList lt k id l = some (l2, flag) →
    ∃ pre c post c2, l = pre ++ c :: post ∧ l2 = pre ++ c2 :: post ∧
      bnSiftNode lt k id c = some (c2, flag) ∧
      ∀ x ∈ pre, bnSiftNode lt k id x = none := by
  intro l
  induction l with
  | nil =>
    intro l2 flag h
    rw [bnSiftList] at h
    exact Option.noConfusion h
  | cons c rest ih =>
    intro l2 flag h
    rw [bnSiftList] at h
    cases hc : bnSiftNode lt k id c with
    | some cf =>
      obtain ⟨c2, flag2⟩ := cf
      rw [hc] at h
      have h2 := Option.some_inj.mp h
      have hl2 : c2 :: rest = l2 := congrArg Prod.fst h2
      have hfl : flag2 = flag := congrArg Prod.snd h2
      subst hfl
      refine ⟨[], c, rest, c2, by rw [List.nil_append], ?_, hc, ?_⟩
      · rw [List.nil_append, hl2]
      · intro x hx
        cases hx
    | none =>
      rw [hc] at h
      cases hrest : bnSiftList lt k id rest with
      | some rf =>
        obtain ⟨rest2, flag2⟩ := rf
        rw [hrest] at h
        have h2 := Option.some_inj.mp h
        have hl2 : c :: rest2 = l2 := congrArg Prod.fst h2
        have hfl : flag2 = flag := congrArg Prod.snd h2
        subst hfl
        obtain ⟨pre, c0, post, c2, he1, he2, hs, hnone⟩ :=
          ih rest2 flag2 hrest
        refine ⟨c :: pre, c0, post, c2, ?_, ?_, hs, ?_⟩
        · rw [List.cons_append, ← he1]
        · rw [List.cons_append, ← he2, hl2]
        · intro x hx
          rcases List.mem_cons.mp hx with h3 | h3
          · subst h3; exact hc
          · exact hnone x h3
      | none =>
        rw [hrest] at h
        exact Option.noConfusion h

theorem bnFindNode_none_sift {α : Type u} (lt : α → α → Bool) (k : α)
    (id : Nat) :
    ∀ n : BinomialHeapNode α,
    bnFindNode id n = none → bnSiftNode lt k id n = none := by
  have haux : ∀ l : List (BinomialHeapNode α),
      (∀ c ∈ l, bnFindNode id c = none → bnSiftNode lt k id c = none) →
      bnFindList id l = none → bnSiftList lt k id l = none := by
    intro l
    induction l with
    | nil =>
      intro _ _
      rw [bnSiftList]
    | cons c rest ih =>
      intro hn h
      rw [bnFindList] at h
      cases hfc : bnFindNode id c with
      | some v =>
        rw [hfc] at h
        exact Option.noConfusion h
      | none =>
        rw [hfc] at h
        rw [bnSiftList, hn c (List.mem_cons_self _ _) hfc,
          ih (fun x hx => hn x (List.mem_cons_of_mem _ hx)) h]
  intro n
  induction n using bnValidate.induct with
  | _ nk nid nd nch ih =>
    intro h
    rw [bnFindNode] at h
    by_cases hii : nid = id
    · rw [if_pos hii] at h
      exact Option.noConfusion h
    · rw [if_neg hii] at h
      exact bnSiftNode_eq_none_case lt k id nk nid nd nch hii
        (haux nch (fun c hc => ih ⟨c, hc⟩) h)

/-- The payload sift of `BinomialHeap::SiftUp_` on one subtree: it keeps
the skeleton (dimension, validity), permutes only the stored ids, leaves
the root payload alone unless the moving payload reaches the root, and —
when the new key is no larger than the key it replaces — restores the
min-heap order of the subtree. -/
theorem bnSiftNode_spec {α : Type u} {lt : α → α → Bool} (hswo : SWO lt)
    (k : α) (id : Nat) :
    ∀ (n n2 : BinomialHeapNode α) (flag : Bool),
    bnSiftNode lt k id n = some (n2, flag) →
    n2.dimension = n.dimension ∧
    (bnValidate n = true → bnValidate n2 = true) ∧
    ((bnPairs n2).map Prod.snd).Perm ((bnPairs n).map Prod.snd) ∧
    (flag = false → n2.key = n.key ∧ n2.id = n.id) ∧
    (flag = true → n2.key = k ∧ n2.id = id) ∧
    (bnOrdered lt n = true →
      (∀ ok, bnFindNode id n = some ok → lt ok k = false) →
      bnOrdered lt n2 = true ∧
      (flag = true → ∀ x ∈ n2.children, lt x.key n.key = false)) := by
  intro n
  induction n using bnValidate.induct with
  | _ nk nid nd nch ih =>
    intro n2 flag h
    by_cases hii : nid = id
    · rw [bnSiftNode_eq_root lt k id nk nid nd nch hii] at h
      have h2 := Option.some_inj.mp h
      have hn2 : BinomialHeapNode.mk k id nd nch = n2 :=
        congrArg Prod.fst h2
      have hfl : true = flag := congrArg Prod.snd h2
      subst hn2
      subst hfl
      refine ⟨rfl, ?_, ?_, ?_, ?_, ?_⟩
      · intro hv
        rw [bnValidate_mk] at hv ⊢
        exact hv
      · rw [bnPairs_mk, bnPairs_mk, List.map_cons, List.map_cons, hii]
      · intro h3
        exact Bool.noConfusion h3
      · intro _
        exact ⟨rfl, rfl⟩
      · intro hord hpre
        rw [bnOrdered_mk] at hord
        have hok : lt nk k = false := by
          refine hpre nk ?_
          rw [bnFindNode, if_pos hii]
        constructor
        · rw [bnOrdered_mk]
          intro c hc
          exact ⟨hswo.negTrans _ _ _ (hord c hc).1 hok, (hord c hc).2⟩
        · intro _ x hx
          simp only [BinomialHeapNode.children] at hx
          simp only [BinomialHeapNode.key]
          exact (hord x hx).1
    · cases hsl : bnSiftList lt k id nch with
      | none =>
        rw [bnSiftNode_eq_none_case lt k id nk nid nd nch hii hsl] at h
        exact Option.noConfusion h
      | some lf =>
        obtain ⟨nch2, lflag⟩ := lf
        obtain ⟨pre, c, post, c2, heq1, heq2, hsc, hnone⟩ :=
          bnSiftList_decomp lt k id nch nch2 lflag hsl
        have hcmem : c ∈ nch := by
          rw [heq1]
          exact List.mem_append_right _ (List.mem_cons_self _ _)
        obtain ⟨c2k, c2i, c2d, c2ch⟩ := c2
        obtain ⟨ihdim, ihval, ihids, ihfalse, ihtrue, ihord⟩ :=
          ih ⟨c, hcmem⟩ (BinomialHeapNode.mk c2k c2i c2d c2ch) lflag hsc
        have hdims : nch2.map BinomialHeapNode.dimension =
            nch.map BinomialHeapNode.dimension := by
          rw [heq1, heq2, List.map_append, List.map_append, List.map_cons,
            List.map_cons, ihdim]
        have hvlist : (∀ x ∈ nch, bnValidate x = true) →
            ∀ x ∈ nch2, bnValidate x = true := by
          intro hv x hx
          rw [heq2] at hx
          rcases List.mem_append.mp hx with h3 | h3
          · refine hv x ?_
            rw [heq1]
            exact List.mem_append_left _ h3
          · rcases List.mem_cons.mp h3 with h4 | h4
            · rw [h4]
              exact ihval (hv c hcmem)
            · refine hv x ?_
              rw [heq1]
              exact List.mem_append_right _ (List.mem_cons_of_mem _ h4)
        have hsfind : (bnFindNode id c).isSome = true := by
          cases hfc : bnFindNode id c with
          | some v => rfl
          | none =>
            exfalso
            have h5 := bnFindNode_none_sift lt k id c hfc
            rw [h5] at hsc
            exact Option.noConfusion hsc
        have hfindeq : bnFindNode id (BinomialHeapNode.mk nk nid nd nch) =
            bnFindNode id c := by
          rw [bnFindNode, if_neg hii, heq1]
          exact bnFindList_append_first id c post pre
            (fun x hx => bnSiftNode_none_find lt k id x (hnone x hx)) hsfind
        cases lflag with
        | false =>
          rw [bnSiftNode_eq_false_case lt k id nk nid nd nch nch2 hii
            hsl] at h
          have h2 := Option.some_inj.mp h
          have hn2 : BinomialHeapNode.mk nk nid nd nch2 = n2 :=
            congrArg Prod.fst h2
          have hfl : false = flag := congrArg Prod.snd h2
          subst hn2
          subst hfl
          refine ⟨rfl, ?_, ?_, ?_, ?_, ?_⟩
          · intro hv
            rw [bnValidate_mk] at hv ⊢
            refine ⟨by rw [hdims]; exact hv.1, hvlist hv.2⟩
          · rw [bnPairs_mk, bnPairs_mk, List.map_cons, List.map_cons]
            refine List.Perm.cons _ ?_
            show (bnForestIds nch2).Perm (bnForestIds nch)
            rw [heq1, heq2, bnForestIds_append, bnForestIds_append,
              bnForestIds_cons, bnForestIds_cons]
            exact List.Perm.append_left _ (List.Perm.append_right _ ihids)
          · intro _
            exact ⟨rfl, rfl⟩
          · intro h3
            exact Bool.noConfusion h3
          · intro hord hpre
            rw [bnOrdered_mk] at hord
            have hprec : ∀ ok, bnFindNode id c = some ok →
                lt ok k = false :=
              fun ok hok => hpre ok (hfindeq.trans hok)
            have hio := ihord (hord c hcmem).2 hprec
            constructor
            · rw [bnOrdered_mk]
              intro x hx
              rw [heq2] at hx
              rcases List.mem_append.mp hx with h3 | h3
              · have hxm : x ∈ nch := by
                  rw [heq1]
                  exact List.mem_append_left _ h3
                exact ⟨(hord x hxm).1, (hord x hxm).2⟩
              · rcases List.mem_cons.mp h3 with h4 | h4
                · rw [h4]
                  refine ⟨?_, hio.1⟩
                  have hkeq := (ihfalse rfl).1
                  rw [hkeq]
                  exact (hord c hcmem).1
                · have hxm : x ∈ nch := by
                    rw [heq1]
                    exact List.mem_append_right _
                      (List.mem_cons_of_mem _ h4)
                  exact ⟨(hord x hxm).1, (hord x hxm).2⟩
            · intro h3
              exact Bool.noConfusion h3
        | true =>
          obtain ⟨hc2k, hc2i⟩ := ihtrue rfl
          simp only [BinomialHeapNode.key, BinomialHeapNode.id]
            at hc2k hc2i
          have hc2ks := hc2k.symm
          have hc2is := hc2i.symm
          subst hc2ks
          subst hc2is
          have hpreids : ∀ x ∈ pre, x.id ≠ id :=
            fun x hx => bnSiftNode_none_root lt k id x (hnone x hx)
          have hR : bnReplaceRootPayload id nk nid nch2 =
              pre ++ BinomialHeapNode.mk nk nid c2d c2ch :: post := by
            rw [heq2]
            have h6 := bnReplaceRootPayload_eq id nk nid
              (BinomialHeapNode.mk k id c2d c2ch) post rfl pre hpreids
            simp only [BinomialHeapNode.dimension,
              BinomialHeapNode.children] at h6
            exact h6
          rw [bnSiftNode_eq_true_case lt k id nk nid nd nch nch2 hii
            hsl] at h
          by_cases hk : lt k nk = true
          · rw [if_pos hk] at h
            have h2 := Option.some_inj.mp h
            have hn2 : BinomialHeapNode.mk k id nd
                (bnReplaceRootPayload id nk nid nch2) = n2 :=
              congrArg Prod.fst h2
            have hfl : true = flag := congrArg Prod.snd h2
            subst hn2
            subst hfl
            have hdimsL : (bnReplaceRootPayload id nk nid nch2).map
                BinomialHeapNode.dimension =
                nch.map BinomialHeapNode.dimension := by
              rw [hR, heq1, List.map_append, List.map_append,
                List.map_cons, List.map_cons]
              simp only [BinomialHeapNode.dimension]
              simp only [BinomialHeapNode.dimension] at ihdim
              rw [ihdim]
            refine ⟨rfl, ?_, ?_, ?_, ?_, ?_⟩
            · intro hv
              rw [bnValidate_mk] at hv ⊢
              refine ⟨by rw [hdimsL]; exact hv.1, ?_⟩
              intro x hx
              rw [hR] at hx
              rcases List.mem_append.mp hx with h3 | h3
              · refine hv.2 x ?_
                rw [heq1]
                exact List.mem_append_left _ h3
              · rcases List.mem_cons.mp h3 with h4 | h4
                · rw [h4]
                  have hcv := ihval (hv.2 c hcmem)
                  rw [bnValidate_mk] at hcv ⊢
                  exact hcv
                · refine hv.2 x ?_
                  rw [heq1]
                  exact List.mem_append_right _
                    (List.mem_cons_of_mem _ h4)
            · rw [bnPairs_mk, bnPairs_mk, List.map_cons, List.map_cons,
                hR, heq1]
              simp only [List.map_append, List.map_cons,
                List.flatten_append, List.flatten_cons, List.cons_append]
              rw [bnPairs_mk nk nid c2d c2ch]
              simp only [List.map_append, List.map_cons,
                List.cons_append]
              rw [bnPairs_mk k id c2d c2ch, List.map_cons] at ihids
              refine (List.Perm.cons id List.perm_middle).trans ?_
              refine (List.Perm.swap nid id _).trans ?_
              refine List.Perm.cons nid ?_
              refine List.perm_middle.symm.trans ?_
              refine List.Perm.append_left _ ?_
              exact List.Perm.append_right _ ihids
            · intro h3
              exact Bool.noConfusion h3
            · intro _
              exact ⟨rfl, rfl⟩
            · intro hord hpre
              rw [bnOrdered_mk] at hord
              have hprec : ∀ ok, bnFindNode id c = some ok →
                  lt ok k = false :=
                fun ok hok => hpre ok (hfindeq.trans hok)
              have hio := ihord (hord c hcmem).2 hprec
              have hcbound := hio.2 rfl
              simp only [BinomialHeapNode.children] at hcbound
              constructor
              · rw [bnOrdered_mk]
                intro x hx
                rw [hR] at hx
                rcases List.mem_append.mp hx with h3 | h3
                · have hxm : x ∈ nch := by
                    rw [heq1]
                    exact List.mem_append_left _ h3
                  exact ⟨hswo.negOfLt _ _ _ (hord x hxm).1 hk,
                    (hord x hxm).2⟩
                · rcases List.mem_cons.mp h3 with h4 | h4
                  · rw [h4]
                    refine ⟨?_, ?_⟩
                    · simp only [BinomialHeapNode.key]
                      exact hswo.asymm _ _ hk
                    · rw [bnOrdered_mk]
                      intro y hy
                      have hyb := hswo.negTrans _ _ _ (hcbound y hy)
                        (hord c hcmem).1
                      refine ⟨hyb, ?_⟩
                      have h7 := (bnOrdered_mk lt k id c2d c2ch).mp hio.1
                      exact (h7 y hy).2
                  · have hxm : x ∈ nch := by
                      rw [heq1]
                      exact List.mem_append_right _
                        (List.mem_cons_of_mem _ h4)
                    exact ⟨hswo.negOfLt _ _ _ (hord x hxm).1 hk,
                      (hord x hxm).2⟩
              · intro _ x hx
                simp only [BinomialHeapNode.children] at hx
                simp only [BinomialHeapNode.key]
                rw [hR] at hx
                rcases List.mem_append.mp hx with h3 | h3
                · have hxm : x ∈ nch := by
                    rw [heq1]
                    exact List.mem_append_left _ h3
                  exact (hord x hxm).1
                · rcases List.mem_cons.mp h3 with h4 | h4
                  · rw [h4]
                    simp only [BinomialHeapNode.key]
                    exact hswo.irrefl nk
                  · have hxm : x ∈ nch := by
                      rw [heq1]
                      exact List.mem_append_right _
                        (List.mem_cons_of_mem _ h4)
                    exact (hord x hxm).1
          · rw [if_neg hk] at h
            have h2 := Option.some_inj.mp h
            have hn2 : BinomialHeapNode.mk nk nid nd nch2 = n2 :=
              congrArg Prod.fst h2
            have hfl : false = flag := congrArg Prod.snd h2
            subst hn2
            subst hfl
            refine ⟨rfl, ?_, ?_, ?_, ?_, ?_⟩
            · intro hv
              rw [bnValidate_mk] at hv ⊢
              refine ⟨by rw [hdims]; exact hv.1, hvlist hv.2⟩
            · rw [bnPairs_mk, bnPairs_mk, List.map_cons, List.map_cons]
              refine List.Perm.cons _ ?_
              show (bnForestIds nch2).Perm (bnForestIds nch)
              rw [heq1, heq2, bnForestIds_append, bnForestIds_append,
                bnForestIds_cons, bnForestIds_cons]
              exact List.Perm.append_left _ (List.Perm.append_right _ ihids)
            · intro _
              exact ⟨rfl, rfl⟩
            · intro h3
              exact Bool.noConfusion h3
            · intro hord hpre
              rw [bnOrdered_mk] at hord
              have hprec : ∀ ok, bnFindNode id c = some ok →
                  lt ok k = false :=
                fun ok hok => hpre ok (hfindeq.trans hok)
              have hio := ihord (hord c hcmem).2 hprec
              constructor
              · rw [bnOrdered_mk]
                intro x hx
                rw [heq2] at hx
                rcases List.mem_append.mp hx with h3 | h3
                · have hxm : x ∈ nch := by
                    rw [heq1]
                    exact List.mem_append_left _ h3
                  exact ⟨(hord x hxm).1, (hord x hxm).2⟩
                · rcases List.mem_cons.mp h3 with h4 | h4
                  · rw [h4]
                    refine ⟨?_, hio.1⟩
                    simp only [BinomialHeapNode.key]
                    exact Bool.eq_false_iff.mpr hk
                  · have hxm : x ∈ nch := by
                      rw [heq1]
                      exact List.mem_append_right _
                        (List.mem_cons_of_mem _ h4)
                    exact ⟨(hord x hxm).1, (hord x hxm).2⟩
              · intro h3
                exact Bool.noConfusion h3

/-- The root-list scan of `BinomialHeap::ReduceKey`: dimensions and
validity are untouched, ids are permuted, and order is preserved when the
new key is no larger than the stored one. -/
theorem bnSiftRoots_spec {α : Type u} {lt : α → α → Bool} (hswo : SWO lt)
    (k : α) (id : Nat) :
    ∀ l : List (BinomialHeapNode α),
    (BinomialHeap.ReduceKey.bnSiftRoots lt k id l).map
        BinomialHeapNode.dimension = l.map BinomialHeapNode.dimension ∧
    ((∀ r ∈ l, bnValidate r = true) →
      ∀ r ∈ BinomialHeap.ReduceKey.bnSiftRoots lt k id l,
        bnValidate r = true) ∧
    (bnForestIds (BinomialHeap.ReduceKey.bnSiftRoots lt k id l)).Perm
      (bnForestIds l) ∧
    ((∀ r ∈ l, bnOrdered lt r = true) →
      (∀ ok, bnFindList id l = some ok → lt ok k = false) →
      ∀ r ∈ BinomialHeap.ReduceKey.bnSiftRoots lt k id l,
        bnOrdered lt r = true) := by
  intro l
  induction l with
  | nil =>
    rw [BinomialHeap.ReduceKey.bnSiftRoots]
    exact ⟨rfl, fun _ r hr => absurd hr (List.not_mem_nil r),
      List.Perm.refl _, fun _ _ r hr => absurd hr (List.not_mem_nil r)⟩
  | cons r rest ih =>
    cases hs : bnSiftNode lt k id r with
    | some rf =>
      obtain ⟨r2, flag⟩ := rf
      have heq : BinomialHeap.ReduceKey.bnSiftRoots lt k id (r :: rest) =
          r2 :: rest := by
        rw [BinomialHeap.ReduceKey.bnSiftRoots, hs]
      have S := bnSiftNode_spec hswo k id r r2 flag hs
      have hsfind : (bnFindNode id r).isSome = true := by
        cases hfc : bnFindNode id r with
        | some v => rfl
        | none =>
          exfalso
          have h5 := bnFindNode_none_sift lt k id r hfc
          rw [h5] at hs
          exact Option.noConfusion hs
      refine ⟨?_, ?_, ?_, ?_⟩
      · rw [heq, List.map_cons, List.map_cons, S.1]
      · intro hv x hx
        rw [heq] at hx
        rcases List.mem_cons.mp hx with h3 | h3
        · rw [h3]
          exact S.2.1 (hv r (List.mem_cons_self _ _))
        · exact hv x (List.mem_cons_of_mem _ h3)
      · rw [heq, bnForestIds_cons, bnForestIds_cons]
        exact List.Perm.append_right _ S.2.2.1
      · intro hord hpre x hx
        rw [heq] at hx
        have hfeq := bnFindList_append_first id r rest []
          (fun y hy => absurd hy (List.not_mem_nil y)) hsfind
        have hprer : ∀ ok, bnFindNode id r = some ok →
            lt ok k = false :=
          fun ok hok => hpre ok (hfeq.trans hok)
        rcases List.mem_cons.mp hx with h3 | h3
        · rw [h3]
          exact (S.2.2.2.2.2 (hord r (List.mem_cons_self _ _)) hprer).1
        · exact hord x (List.mem_cons_of_mem _ h3)
    | none =>
      have heq : BinomialHeap.ReduceKey.bnSiftRoots lt k id (r :: rest) =
          r :: BinomialHeap.ReduceKey.bnSiftRoots lt k id rest := by
        rw [BinomialHeap.ReduceKey.bnSiftRoots, hs]
      have hfnone : bnFindNode id r = none :=
        bnSiftNode_none_find lt k id r hs
      refine ⟨?_, ?_, ?_, ?_⟩
      · rw [heq, List.map_cons, List.map_cons, ih.1]
      · intro hv x hx
        rw [heq] at hx
        rcases List.mem_cons.mp hx with h3 | h3
        · rw [h3]
          exact hv r (List.mem_cons_self _ _)
        · exact ih.2.1 (fun y hy => hv y (List.mem_cons_of_mem _ hy)) x h3
      · rw [heq, bnForestIds_cons, bnForestIds_cons]
        exact List.Perm.append_left _ ih.2.2.1
      · intro hord hpre x hx
        rw [heq] at hx
        have hfeq : bnFindList id (r :: rest) = bnFindList id rest := by
          rw [bnFindList, hfnone]
        rcases List.mem_cons.mp hx with h3 | h3
        · rw [h3]
          exact hord r (List.mem_cons_self _ _)
        · refine ih.2.2.2 (fun y hy => hord y (List.mem_cons_of_mem _ hy))
            (fun ok hok => hpre ok (hfeq.trans hok)) x h3

/-- `BinomialHeap::ReduceKey` on a present id with a key no larger than
the stored one preserves the full invariant; the id set is untouched. -/
theorem binomReduceKey_spec {α : Type u} {lt : α → α → Bool}
    (hswo : SWO lt) (h : BinomialHeap α) (new_key : α) (id : Nat)
    (hinv : BinomInv lt h) (hid : id ∈ h.ids)
    (hpre : ∀ ok, h.LookUp id = some ok → lt ok new_key = false) :
    BinomInv lt (h.ReduceKey lt new_key id) ∧
    (h.ReduceKey lt new_key id).ids = h.ids ∧
    (h.ReduceKey lt new_key id).root.map BinomialHeapNode.dimension =
      h.root.map BinomialHeapNode.dimension := by
  have S := bnSiftRoots_spec hswo new_key id h.root
  have hpre2 : ∀ ok, bnFindList id h.root = some ok →
      lt ok new_key = false := by
    intro ok hok
    refine hpre ok ?_
    rw [BinomialHeap.LookUp, if_pos hid]
    exact hok
  have hasc2 : bnAscending (BinomialHeap.ReduceKey.bnSiftRoots lt new_key
      id h.root) = true := by
    rw [bnAscending_iff_pairwise]
    have h1 := (bnAscending_iff_pairwise _).mp hinv.1.2
    rw [← List.pairwise_map] at h1 ⊢
    rw [S.1]
    exact h1
  refine ⟨⟨⟨S.2.1 hinv.1.1, hasc2⟩, S.2.2.2 hinv.2.1 hpre2,
    hinv.2.2.1.trans S.2.2.1.symm, hinv.2.2.2⟩, rfl, S.1⟩

/-- Invariant, size bookkeeping and id conservation for any
precondition-respecting operation sequence on a binomial heap. -/
theorem runBinomOps_spec {α : Type u} {lt : α → α → Bool} (hswo : SWO lt) :
    ∀ (ops : List (HeapOp α)) (h h2 : BinomialHeap α)
      (popped : List (α × Nat)), BinomInv lt h →
      runBinomOps lt h ops = some (h2, popped) →
      BinomInv lt h2 ∧ popped.length = numPops ops ∧
      h2.size + popped.length = h.size + numAdds ops ∧
      (h2.ids ++ popped.map Prod.snd).Perm (h.ids ++ addedIds ops) := by
  intro ops
  induction ops with
  | nil =>
    intro h h2 popped hinv hrun
    have heq := Option.some_inj.mp hrun
    obtain rfl : h = h2 := congrArg Prod.fst heq
    obtain rfl : popped = [] := (congrArg Prod.snd heq).symm
    refine ⟨hinv, by simp [numPops], by simp [numAdds], by simp [addedIds]⟩
  | cons op rest ih =>
    intro h h2 popped hinv hrun
    cases op with
    | add k id =>
      rw [show runBinomOps lt h (HeapOp.add k id :: rest)
          = (h.Add lt k id).bind (fun hh => runBinomOps lt hh rest)
        from rfl] at hrun
      have hfresh : id ∉ h.ids := by
        intro hmem
        rw [(binomAdd_none_iff lt h k id).mpr hmem,
          Option.none_bind] at hrun
        exact Option.noConfusion hrun
      obtain ⟨h3, heq, hinv3, hperm, hids⟩ :=
        binomAdd_some_spec hswo h k id hinv hfresh
      rw [heq, Option.some_bind] at hrun
      obtain ⟨ha, hb, hc, hd⟩ := ih h3 h2 popped hinv3 hrun
      refine ⟨ha, ?_, ?_, ?_⟩
      · rw [hb, numPops_cons]
        dsimp only
        omega
      · have hlen : h3.size = h.size + 1 := by
          rw [BinomialHeap.size, BinomialHeap.size, hids]
          rfl
        rw [hc, hlen, numAdds_cons]
        dsimp only
        omega
      · refine hd.trans ?_
        have h5 : addedIds (HeapOp.add k id :: rest) =
            id :: addedIds rest := rfl
        rw [h5, hids]
        exact List.perm_middle.symm
    | reduce k id =>
      rw [show runBinomOps lt h (HeapOp.reduce k id :: rest)
          = (match h.LookUp id with
             | none => none
             | some cur =>
               if lt cur k then none
               else runBinomOps lt (h.ReduceKey lt k id) rest)
        from rfl] at hrun
      cases hlook : h.LookUp id with
      | none =>
        rw [hlook] at hrun
        exact Option.noConfusion hrun
      | some cur =>
        rw [hlook] at hrun
        have hrun2 : (if lt cur k = true then none
            else runBinomOps lt (h.ReduceKey lt k id) rest) =
            some (h2, popped) := hrun
        by_cases hguard : lt cur k = true
        · rw [if_pos hguard] at hrun2
          exact Option.noConfusion hrun2
        · rw [if_neg hguard] at hrun2
          have hid : id ∈ h.ids := by
            refine (binomLookUp_isSome_iff h hinv id).mp ?_
            rw [hlook]
            rfl
          have hpre : ∀ ok, h.LookUp id = some ok → lt ok k = false := by
            intro ok hok
            rw [hlook] at hok
            have h6 : cur = ok := Option.some_inj.mp hok
            rw [← h6]
            exact Bool.eq_false_iff.mpr hguard
          obtain ⟨hinv3, hids, _⟩ :=
            binomReduceKey_spec hswo h k id hinv hid hpre
          obtain ⟨ha, hb, hc, hd⟩ := ih (h.ReduceKey lt k id) h2 popped
            hinv3 hrun2
          refine ⟨ha, ?_, ?_, ?_⟩
          · rw [hb, numPops_cons]
            dsimp only
            omega
          · have hlen : (h.ReduceKey lt k id).size = h.size := by
              rw [BinomialHeap.size, BinomialHeap.size, hids]
            rw [hc, hlen, numAdds_cons]
            dsimp only
            omega
          · refine hd.trans ?_
            have h5 : addedIds (HeapOp.reduce k id :: rest) =
                addedIds rest := rfl
            rw [h5, hids]
    | pop =>
      rw [show runBinomOps lt h (HeapOp.pop :: rest)
          = (h.PopMinimum lt).bind (fun eh =>
              (runBinomOps lt eh.2 rest).map (fun r => (r.1, eh.1 :: r.2)))
        from rfl] at hrun
      have hne : h.root ≠ [] := by
        intro h0
        rw [(binomPop_none_iff lt h).mpr h0, Option.none_bind] at hrun
        exact Option.noConfusion hrun
      obtain ⟨m, h3, heqPop, hinv3, hpairs, hmin, hids⟩ :=
        binomPop_spec hswo h hinv hne
      rw [heqPop, Option.some_bind] at hrun
      dsimp only at hrun
      cases hrest : runBinomOps lt h3 rest with
      | none =>
        rw [hrest] at hrun
        exact Option.noConfusion hrun
      | some r =>
        rw [hrest] at hrun
        rw [show (some r).map (fun rr => (rr.1, m :: rr.2))
            = some (r.1, m :: r.2) from rfl] at hrun
        have heq2 := Option.some_inj.mp hrun
        obtain rfl : r.1 = h2 := congrArg Prod.fst heq2
        have hpoppedeq : m :: r.2 = popped := congrArg Prod.snd heq2
        obtain ⟨ha, hb, hc, hd⟩ := ih h3 r.1 r.2 hinv3 hrest
        have hm2 : m.2 ∈ h.ids := by
          refine hinv.2.2.1.mem_iff.mpr ?_
          have h6 := hpairs.map Prod.snd
          rw [List.map_cons] at h6
          exact h6.mem_iff.mp (List.mem_cons_self _ _)
        have hpos : 0 < h.size := List.length_pos_of_mem hm2
        have hlen3 : h3.size = h.size - 1 := by
          rw [BinomialHeap.size, BinomialHeap.size, hids,
            List.length_erase_of_mem hm2]
        refine ⟨ha, ?_, ?_, ?_⟩
        · rw [← hpoppedeq]
          simp only [List.length_cons, hb]
          rw [numPops_cons]
        · rw [← hpoppedeq]
          simp only [List.length_cons]
          rw [numAdds_cons]
          dsimp only
          omega
        · rw [← hpoppedeq]
          have h5 : addedIds (HeapOp.pop :: rest) = addedIds rest := rfl
          rw [h5, List.map_cons]
          refine List.Perm.trans List.perm_middle ?_
          refine List.Perm.trans (List.Perm.cons m.2 hd) ?_
          rw [hids]
          exact List.Perm.append_right _ (List.perm_cons_erase hm2).symm

theorem binomAddAll_spec {α : Type u} {lt : α → α → Bool} (hswo : SWO lt) :
    ∀ (l : List (α × Nat)) (h : BinomialHeap α), BinomInv lt h →
      (∀ p ∈ l, p.2 ∉ h.ids) → (l.map Prod.snd).Nodup →
      ∃ h2, binomAddAll lt h l = some h2 ∧ BinomInv lt h2 ∧
        (bnForestPairs h2.root).Perm (bnForestPairs h.root ++ l) := by
  intro l
  induction l with
  | nil =>
    intro h hinv _ _
    exact ⟨h, rfl, hinv, by simp⟩
  | cons p rest ih =>
    intro h hinv hfresh hnd
    obtain ⟨h3, heq, hinv3, hperm, hids3⟩ :=
      binomAdd_some_spec hswo h p.1 p.2 hinv
        (hfresh p (List.mem_cons_self _ _))
    rw [List.map_cons, List.nodup_cons] at hnd
    have hfresh2 : ∀ q ∈ rest, q.2 ∉ h3.ids := by
      intro q hq hmem
      rw [hids3] at hmem
      rcases List.mem_cons.mp hmem with h2 | h2
      · exact hnd.1 (h2 ▸ List.mem_map_of_mem Prod.snd hq)
      · exact hfresh q (List.mem_cons_of_mem _ hq) h2
    obtain ⟨h2, hrun, hinv2, hperm2⟩ := ih h3 hinv3 hfresh2 hnd.2
    have hstep : binomAddAll lt h (p :: rest) = binomAddAll lt h3 rest := by
      unfold binomAddAll
      rw [List.foldl_cons]
      simp only [Option.some_bind, heq]
    refine ⟨h2, by rw [hstep]; exact hrun, hinv2, ?_⟩
    refine hperm2.trans ?_
    refine (List.Perm.append_right rest hperm).trans ?_
    exact List.perm_middle.symm

theorem binomPopAll_spec {α : Type u} {lt : α → α → Bool} (hswo : SWO lt) :
    ∀ (fuel : Nat) (h : BinomialHeap α), BinomInv lt h →
      h.size ≤ fuel →
      (binomPopAll lt h fuel).Perm (bnForestPairs h.root) ∧
      List.Pairwise (fun a b : α × Nat => lt b.1 a.1 = false)
        (binomPopAll lt h fuel) := by
  intro fuel
  induction fuel with
  | zero =>
    intro h hinv hlen
    have hids : h.ids = [] := by
      have := Nat.le_zero.mp hlen
      exact List.length_eq_zero.mp this
    have hforest : bnForestPairs h.root = [] := by
      have h1 : (bnForestIds h.root).length = 0 := by
        rw [← hinv.2.2.1.length_eq, hids]
        rfl
      have h2 : (bnForestPairs h.root).length = 0 := by
        rw [← List.length_map (bnForestPairs h.root) Prod.snd]
        exact h1
      exact List.length_eq_zero.mp h2
    rw [show binomPopAll lt h 0 = [] from rfl, hforest]
    exact ⟨List.Perm.refl _, List.Pairwise.nil⟩
  | succ fuel ih =>
    intro h hinv hlen
    cases hroot : h.root with
    | nil =>
      have hnone := (binomPop_none_iff lt h).mpr hroot
      rw [show binomPopAll lt h (fuel + 1)
          = (match h.PopMinimum lt with
             | none => []
             | some eh => eh.1 :: binomPopAll lt eh.2 fuel) from rfl,
        hnone]
      exact ⟨List.Perm.nil, List.Pairwise.nil⟩
    | cons r rest =>
      have hne : h.root ≠ [] := by
        rw [hroot]
        exact List.cons_ne_nil r rest
      obtain ⟨m, h3, heqPop, hinv3, hpairs, hmin, hids⟩ :=
        binomPop_spec hswo h hinv hne
      rw [show binomPopAll lt h (fuel + 1)
          = (match h.PopMinimum lt with
             | none => []
             | some eh => eh.1 :: binomPopAll lt eh.2 fuel) from rfl,
        heqPop, ← hroot]
      have hm2 : m.2 ∈ h.ids := by
        refine hinv.2.2.1.mem_iff.mpr ?_
        have h6 := hpairs.map Prod.snd
        rw [List.map_cons] at h6
        exact h6.mem_iff.mp (List.mem_cons_self _ _)
      have hlen3 : h3.size ≤ fuel := by
        have h7 : h3.size = h.size - 1 := by
          rw [BinomialHeap.size, BinomialHeap.size, hids,
            List.length_erase_of_mem hm2]
        have h8 : 0 < h.size := List.length_pos_of_mem hm2
        omega
      obtain ⟨hpa, hpb⟩ := ih h3 hinv3 hlen3
      constructor
      · exact (List.Perm.cons m hpa).trans hpairs
      · refine List.Pairwise.cons ?_ hpb
        intro y hy
        have hym : y ∈ bnForestPairs h.root :=
          hpairs.mem_iff.mp
            (List.mem_cons_of_mem _ (hpa.mem_iff.mp hy))
        exact hmin y hym

/-! ### Fibonacci heap lemmas -/

/-- `Min` returns exactly the pair that `PopMinimum` would pop (both read
`min_root_` before any mutation), and `Min` itself leaves the heap
unchanged by construction. -/
theorem fibMin_eq_pop {α : Type u} (lt : α → α → Bool) (h : FibHeap α) :
    h.Min = (h.PopMinimum lt).map Prod.fst := by
  obtain ⟨roots, minId, ids⟩ := h
  cases minId with
  | none => rfl
  | some mid =>
    show (match fibFindRoot mid roots with
      | none => none
      | some mn => some (mn.key, mn.id)) = _
    cases hf : fibFindRoot mid roots with
    | none =>
      show none = Option.map Prod.fst (match fibFindRoot mid roots with
        | none => none
        | some mn => _)
      rw [hf]
      rfl
    | some mn =>
      show some (mn.key, mn.id) = Option.map Prod.fst
        (match fibFindRoot mid roots with
         | none => none
         | some mn => some ((mn.key, mn.id), _))
      rw [hf]
      rfl

theorem fibSiftNode_eq {α : Type u} (lt : α → α → Bool) (k : α) (id : Nat)
    (nk : α) (ni : Nat) (nm : Bool) (ch : List (FibNode α)) :
    fibSiftNode lt k id (FibNode.mk nk ni nm ch) =
      match fibSiftChildren lt k id nk ch with
      | .notFound => .notFound
      | .noCut ch2 cuts => .done (.mk nk ni nm ch2) cuts
      | .cut ch2 cuts =>
        if nm then .cutMe (.mk nk ni false ch2) cuts
        else .done (.mk nk ni true ch2) cuts := by
  rw [fibSiftNode]

theorem fibSiftChildren_cons {α : Type u} (lt : α → α → Bool) (k : α)
    (id : Nat) (pk : α) (c : FibNode α) (rest : List (FibNode α)) :
    fibSiftChildren lt k id pk (c :: rest) =
      if c.id = id then
        if lt k pk then .cut rest [.mk k id c.marked c.children]
        else .noCut (.mk k id c.marked c.children :: rest) []
      else
        match fibSiftNode lt k id c with
        | .done c2 cuts => .noCut (c2 :: rest) cuts
        | .cutMe c2 cuts => .cut rest (cuts ++ [c2])
        | .notFound =>
          match fibSiftChildren lt k id pk rest with
          | .notFound => .notFound
          | .noCut ch2 cuts => .noCut (c :: ch2) cuts
          | .cut ch2 cuts => .cut (c :: ch2) cuts := by
  rw [fibSiftChildren]

/-- A sift that finds nothing strictly inside a subtree aligns with the
parent search and the find over the children. -/
theorem fibSiftNode_notFound_align {α : Type u} (lt : α → α → Bool)
    (k : α) (id : Nat) (n : FibNode α) :
    fibSiftNode lt k id n = .notFound →
      fibParentNode id n = none ∧ fibFindList id n.children = none := by
  have haux : ∀ (l : List (FibNode α)) (pk : α) (p : FibNode α),
      (∀ c ∈ l, fibSiftNode lt k id c = .notFound →
        fibParentNode id c = none ∧ fibFindList id c.children = none) →
      fibSiftChildren lt k id pk l = .notFound →
      fibParentScan id p l = none ∧ fibFindList id l = none := by
    intro l
    induction l with
    | nil =>
      intro pk p _ _
      exact ⟨rfl, rfl⟩
    | cons c rest ih =>
      intro pk p hmem hsc
      rw [fibSiftChildren_cons] at hsc
      by_cases hcid : c.id = id
      · rw [if_pos hcid] at hsc
        by_cases hk : lt k pk = true
        · rw [if_pos hk] at hsc
          exact FibChildRes.noConfusion hsc
        · rw [if_neg hk] at hsc
          exact FibChildRes.noConfusion hsc
      · rw [if_neg hcid] at hsc
        cases hsn : fibSiftNode lt k id c with
        | done c2 cuts =>
          rw [hsn] at hsc
          exact FibChildRes.noConfusion hsc
        | cutMe c2 cuts =>
          rw [hsn] at hsc
          exact FibChildRes.noConfusion hsc
        | notFound =>
          rw [hsn] at hsc
          have hc := hmem c (List.mem_cons_self _ _) hsn
          cases hrest : fibSiftChildren lt k id pk rest with
          | notFound =>
            have hr := ih pk p
              (fun x hx => hmem x (List.mem_cons_of_mem _ hx)) hrest
            constructor
            · rw [fibParentScan, if_neg hcid, hc.1, hr.1]
            · rw [fibFindList]
              have hfc : fibFindNode id c = none := by
                cases c with
                | mk ck ci cm cch =>
                  rw [fibFindNode, if_neg ?_]
                  · exact hc.2
                  · simp only [FibNode.id] at hcid
                    exact hcid
              rw [hfc, hr.2]
          | noCut ch2 cuts =>
            rw [hrest] at hsc
            exact FibChildRes.noConfusion hsc
          | cut ch2 cuts =>
            rw [hrest] at hsc
            exact FibChildRes.noConfusion hsc
  intro hn
  cases n with
  | mk nk ni nm ch =>
    rw [fibSiftNode_eq] at hn
    cases hsc : fibSiftChildren lt k id nk ch with
    | notFound =>
      have := haux ch nk (FibNode.mk nk ni nm ch) ?_ hsc
      · refine ⟨?_, this.2⟩
        rw [fibParentNode]
        exact this.1
      · intro c hc hcn
        exact fibSiftNode_notFound_align lt k id c hcn
    | noCut ch2 cuts =>
      rw [hsc] at hn
      exact FibSiftRes.noConfusion hn
    | cut ch2 cuts =>
      rw [hsc] at hn
      by_cases hm : nm = true
      · rw [hm] at hn
        simp only [if_true] at hn
        exact FibSiftRes.noConfusion hn
      · rw [Bool.not_eq_true] at hm
        rw [hm] at hn
        simp only [Bool.false_eq_true, if_false] at hn
        exact FibSiftRes.noConfusion hn
termination_by sizeOf n
decreasing_by
  have := List.sizeOf_lt_of_mem hc
  simp only [FibNode.mk.sizeOf_spec]
  omega

theorem fibParentNone_sift {α : Type u} (lt : α → α → Bool) (k : α)
    (id : Nat) (n : FibNode α) :
    fibParentNode id n = none → fibSiftNode lt k id n = .notFound := by
  have haux : ∀ (l : List (FibNode α)) (pk : α) (p : FibNode α),
      (∀ c ∈ l, fibParentNode id c = none →
        fibSiftNode lt k id c = .notFound) →
      fibParentScan id p l = none →
      fibSiftChildren lt k id pk l = .notFound := by
    intro l
    induction l with
    | nil =>
      intro pk p _ _
      rfl
    | cons c rest ih =>
      intro pk p hmem hps
      rw [fibParentScan] at hps
      by_cases hcid : c.id = id
      · rw [if_pos hcid] at hps
        exact Option.noConfusion hps
      · rw [if_neg hcid] at hps
        cases hpn : fibParentNode id c with
        | some q =>
          rw [hpn] at hps
          exact Option.noConfusion hps
        | none =>
          rw [hpn] at hps
          rw [fibSiftChildren_cons, if_neg hcid,
            hmem c (List.mem_cons_self _ _) hpn,
            ih pk p (fun x hx => hmem x (List.mem_cons_of_mem _ hx)) hps]
  intro hp
  cases n with
  | mk nk ni nm ch =>
    rw [fibParentNode] at hp
    rw [fibSiftNode_eq,
      haux ch nk (FibNode.mk nk ni nm ch) ?_ hp]
    intro c hc hcn
    exact fibParentNone_sift lt k id c hcn
termination_by sizeOf n
decreasing_by
  have := List.sizeOf_lt_of_mem hc
  simp only [FibNode.mk.sizeOf_spec]
  omega

theorem fibSiftChildren_mark_aux {α : Type u} (lt : α → α → Bool)
    (k : α) (id : Nat) (pk : α) :
    ∀ (l : List (FibNode α)) (p : FibNode α), p.key = pk →
    (∀ c ∈ l, c.id ≠ id → ∀ q2, fibParentNode id c = some q2 →
      lt k q2.key = true →
      ∃ st cuts orig,
        (fibSiftNode lt k id c = .done st cuts ∨
         fibSiftNode lt k id c = .cutMe st cuts) ∧
        fibFindNode id c = some orig ∧
        cuts.head? = some (FibNode.mk k id orig.marked orig.children)) →
    ∀ q, fibParentScan id p l = some q → lt k q.key = true →
    ∃ ch2 cuts orig,
      (fibSiftChildren lt k id pk l = .cut ch2 cuts ∨
       fibSiftChildren lt k id pk l = .noCut ch2 cuts) ∧
      fibFindList id l = some orig ∧
      cuts.head? = some (FibNode.mk k id orig.marked orig.children) := by
  intro l
  induction l with
  | nil =>
    intro p _ _ q hq _
    rw [fibParentScan] at hq
    exact Option.noConfusion hq
  | cons c rest ih =>
    intro p hpk hmem q hq hlt
    rw [fibParentScan] at hq
    by_cases hcid : c.id = id
    · rw [if_pos hcid] at hq
      have hqp : p = q := Option.some_inj.mp hq
      have hkpk : lt k pk = true := by
        rw [← hpk, hqp]
        exact hlt
      refine ⟨rest, [FibNode.mk k id c.marked c.children], c, ?_, ?_, rfl⟩
      · left
        rw [fibSiftChildren_cons, if_pos hcid, if_pos hkpk]
      · rw [fibFindList]
        cases c with
        | mk ck ci cm cch =>
          simp only [FibNode.id] at hcid
          rw [fibFindNode, if_pos hcid]
    · rw [if_neg hcid] at hq
      cases hpn : fibParentNode id c with
      | some q2 =>
        rw [hpn] at hq
        have hqq : q2 = q := Option.some_inj.mp hq
        obtain ⟨st, cuts, orig, hbr, hfind, hhead⟩ :=
          hmem c (List.mem_cons_self _ _) hcid q2 hpn (by rw [hqq]; exact hlt)
        obtain ⟨x, t, rfl⟩ : ∃ x t, cuts = x :: t := by
          cases cuts with
          | nil => exact Option.noConfusion hhead
          | cons x t => exact ⟨x, t, rfl⟩
        rcases hbr with hbr | hbr
        · refine ⟨st :: rest, x :: t, orig, ?_, ?_, hhead⟩
          · right
            rw [fibSiftChildren_cons, if_neg hcid, hbr]
          · rw [fibFindList, hfind]
        · refine ⟨rest, (x :: t) ++ [st], orig, ?_, ?_, ?_⟩
          · left
            rw [fibSiftChildren_cons, if_neg hcid, hbr]
          · rw [fibFindList, hfind]
          · rw [List.cons_append, List.head?_cons]
            rw [List.head?_cons] at hhead
            exact hhead
      | none =>
        rw [hpn] at hq
        have hsn : fibSiftNode lt k id c = .notFound :=
          fibParentNone_sift lt k id c hpn
        have hfc : fibFindNode id c = none := by
          cases c with
          | mk ck ci cm cch =>
            simp only [FibNode.id] at hcid
            rw [fibFindNode, if_neg hcid]
            exact (fibSiftNode_notFound_align lt k id _ hsn).2
        obtain ⟨ch2, cuts, orig, hbr, hfind, hhead⟩ :=
          ih p hpk (fun x hx => hmem x (List.mem_cons_of_mem _ hx)) q hq hlt
        rcases hbr with hbr | hbr
        · refine ⟨c :: ch2, cuts, orig, ?_, ?_, hhead⟩
          · left
            rw [fibSiftChildren_cons, if_neg hcid, hsn, hbr]
          · rw [fibFindList, hfc]
            exact hfind
        · refine ⟨c :: ch2, cuts, orig, ?_, ?_, hhead⟩
          · right
            rw [fibSiftChildren_cons, if_neg hcid, hsn, hbr]
          · rw [fibFindList, hfc]
            exact hfind

theorem fibSiftNode_mark {α : Type u} (lt : α → α → Bool) (k : α)
    (id : Nat) :
    ∀ n : FibNode α, n.id ≠ id →
    ∀ q, fibParentNode id n = some q → lt k q.key = true →
    ∃ st cuts orig,
      (fibSiftNode lt k id n = .done st cuts ∨
       fibSiftNode lt k id n = .cutMe st cuts) ∧
      fibFindNode id n = some orig ∧
      cuts.head? = some (FibNode.mk k id orig.marked orig.children) := by
  intro n
  induction n using fibPairs.induct with
  | _ nk ni nm ch ihm =>
    intro hn q hq hlt
    rw [fibParentNode] at hq
    obtain ⟨ch2, cuts, orig, hbr, hfind, hhead⟩ :=
      fibSiftChildren_mark_aux lt k id nk ch (FibNode.mk nk ni nm ch) rfl
        (fun c hc hcid q2 hq2 hlt2 =>
          ihm ⟨c, hc⟩ hcid q2 hq2 hlt2) q hq hlt
    have hfn : fibFindNode id (FibNode.mk nk ni nm ch) = some orig := by
      simp only [FibNode.id] at hn
      rw [fibFindNode, if_neg hn]
      exact hfind
    rcases hbr with hbr | hbr
    · by_cases hm : nm = true
      · refine ⟨FibNode.mk nk ni false ch2, cuts, orig, ?_, hfn, hhead⟩
        right
        rw [fibSiftNode_eq, hbr, hm]
        simp only [if_true]
      · rw [Bool.not_eq_true] at hm
        refine ⟨FibNode.mk nk ni true ch2, cuts, orig, ?_, hfn, hhead⟩
        left
        rw [fibSiftNode_eq, hbr, hm]
        simp only [Bool.false_eq_true, if_false]
    · refine ⟨FibNode.mk nk ni nm ch2, cuts, orig, ?_, hfn, hhead⟩
      left
      rw [fibSiftNode_eq, hbr]

theorem fibSiftRoots_mark {α : Type u} (lt : α → α → Bool) (k : α)
    (id : Nat) :
    ∀ (l : List (FibNode α)) (q : FibNode α),
    fibParentList id l = some q → lt k q.key = true →
    ∃ l2 cuts orig, fibSiftRoots lt k id l = some (l2, cuts) ∧
      fibFindList id l = some orig ∧
      cuts.head? = some (FibNode.mk k id orig.marked orig.children) := by
  intro l
  induction l with
  | nil =>
    intro q hq _
    rw [fibParentList] at hq
    exact Option.noConfusion hq
  | cons r rest ih =>
    intro q hq hlt
    rw [fibParentList] at hq
    by_cases hrid : r.id = id
    · rw [if_pos hrid] at hq
      exact Option.noConfusion hq
    · rw [if_neg hrid] at hq
      cases hpn : fibParentNode id r with
      | some q2 =>
        rw [hpn] at hq
        have hqq : q2 = q := Option.some_inj.mp hq
        obtain ⟨st, cuts, orig, hbr, hfind, hhead⟩ :=
          fibSiftNode_mark lt k id r hrid q2 hpn (by rw [hqq]; exact hlt)
        obtain ⟨x, t, rfl⟩ : ∃ x t, cuts = x :: t := by
          cases cuts with
          | nil => exact Option.noConfusion hhead
          | cons x t => exact ⟨x, t, rfl⟩
        rcases hbr with hbr | hbr
        · refine ⟨st :: rest, x :: t, orig, ?_, ?_, hhead⟩
          · rw [fibSiftRoots, if_neg hrid, hbr]
          · rw [fibFindList, hfind]
        · refine ⟨rest, (x :: t) ++ [st], orig, ?_, ?_, ?_⟩
          · rw [fibSiftRoots, if_neg hrid, hbr]
          · rw [fibFindList, hfind]
          · rw [List.cons_append, List.head?_cons]
            rw [List.head?_cons] at hhead
            exact hhead
      | none =>
        rw [hpn] at hq
        have hsn : fibSiftNode lt k id r = .notFound :=
          fibParentNone_sift lt k id r hpn
        have hfr : fibFindNode id r = none := by
          cases r with
          | mk rk ri rm rch =>
            simp only [FibNode.id] at hrid
            rw [fibFindNode, if_neg hrid]
            exact (fibSiftNode_notFound_align lt k id _ hsn).2
        obtain ⟨rest2, cuts, orig, hsr, hfind, hhead⟩ := ih q hq hlt
        refine ⟨r :: rest2, cuts, orig, ?_, ?_, hhead⟩
        · rw [fibSiftRoots, if_neg hrid, hsn, hsr]
        · rw [fibFindList, hfr]
          exact hfind

/-- `FibonacciHeap::ReduceKey`, when the reduced node has a parent whose
key the new key undercuts, cuts the node and moves it to the root list
with its key replaced and every other field — including the mark bit —
unchanged.  (The source never clears the moved node's mark.) -/
theorem fibReduceKey_cut_keeps_mark {α : Type u} (lt : α → α → Bool)
    (h : FibHeap α) (k : α) (id : Nat) (q : FibNode α)
    (hq : fibParentList id h.roots = some q) (hlt : lt k q.key = true) :
    ∃ orig, fibFindList id h.roots = some orig ∧
      FibNode.mk k id orig.marked orig.children ∈
        (h.ReduceKey lt k id).roots := by
  obtain ⟨l2, cuts, orig, hsr, hfind, hhead⟩ :=
    fibSiftRoots_mark lt k id h.roots q hq hlt
  refine ⟨orig, hfind, ?_⟩
  have hroots : (h.ReduceKey lt k id).roots = l2 ++ cuts := by
    rw [FibHeap.ReduceKey, hsr]
  rw [hroots]
  obtain ⟨x, t, rfl⟩ : ∃ x t, cuts = x :: t := by
    cases cuts with
    | nil => exact Option.noConfusion hhead
    | cons x t => exact ⟨x, t, rfl⟩
  rw [List.head?_cons] at hhead
  have hx := Option.some_inj.mp hhead
  rw [hx]
  exact List.mem_append_right _ (List.mem_cons_self _ _)

/-! ### Dijkstra: walks, traces and counting helpers -/

theorem walkFrom_nil (g : Graph) (u v : Nat) : WalkFrom g u [] v ↔ u = v :=
  Iff.rfl

theorem walkFrom_cons (g : Graph) (u : Nat) (e : Edge) (es : List Edge)
    (v : Nat) : WalkFrom g u (e :: es) v ↔
      e ∈ (g.GetVertex u).edges ∧ WalkFrom g e.to_vertex_id es v :=
  Iff.rfl

theorem walkFrom_append (g : Graph) (es1 es2 : List Edge) :
    ∀ u v, WalkFrom g u (es1 ++ es2) v ↔
      ∃ m, WalkFrom g u es1 m ∧ WalkFrom g m es2 v := by
  induction es1 with
  | nil =>
    intro u v
    simp only [List.nil_append, walkFrom_nil]
    constructor
    · intro h
      exact ⟨u, rfl, h⟩
    · rintro ⟨m, rfl, h⟩
      exact h
  | cons e es ih =>
    intro u v
    simp only [List.cons_append, walkFrom_cons, ih]
    constructor
    · rintro ⟨he, m, h1, h2⟩
      exact ⟨m, ⟨he, h1⟩, h2⟩
    · rintro ⟨m, ⟨he, h1⟩, h2⟩
      exact ⟨he, m, h1, h2⟩

theorem walkFrom_snoc (g : Graph) (es : List Edge) (e : Edge) (u v : Nat) :
    WalkFrom g u (es ++ [e]) v ↔
      ∃ m, WalkFrom g u es m ∧ e ∈ (g.GetVertex m).edges ∧
        e.to_vertex_id = v := by
  rw [walkFrom_append]
  constructor
  · rintro ⟨m, h1, h2⟩
    rw [walkFrom_cons] at h2
    exact ⟨m, h1, h2.1, h2.2⟩
  · rintro ⟨m, h1, h2, h3⟩
    exact ⟨m, h1, h2, h3⟩

theorem walkWeight_nil (wg : WeightedGraph) : walkWeight wg [] = 0 := rfl

theorem walkWeight_cons (wg : WeightedGraph) (e : Edge) (es : List Edge) :
    walkWeight wg (e :: es) =
      wg.edge_weights.Get e.id + walkWeight wg es := by
  simp [walkWeight]

theorem walkWeight_append (wg : WeightedGraph) (es1 es2 : List Edge) :
    walkWeight wg (es1 ++ es2) = walkWeight wg es1 + walkWeight wg es2 := by
  simp [walkWeight]

theorem walkWeight_nonneg (wg : WeightedGraph) (hw : WNonneg wg) :
    ∀ es, 0 ≤ walkWeight wg es := by
  intro es
  induction es with
  | nil => rw [walkWeight_nil]
  | cons e es ih =>
    rw [walkWeight_cons]
    have := hw e.id
    omega

theorem WNonneg_of_entries (wg : WeightedGraph)
    (h1 : ∀ x ∈ wg.edge_weights.properties, 0 ≤ x)
    (h2 : 0 ≤ wg.edge_weights.default_value) : WNonneg wg := by
  intro i
  rw [Properties.Get]
  split
  · exact h1 _ (List.get_mem _ _ _)
  · exact h2

/-- Any walk from inside a set `S` to outside it crosses the boundary:
it splits at the first edge leaving `S`. -/
theorem walk_cut (g : Graph) (S : Nat → Prop) :
    ∀ (es : List Edge) (u v : Nat), WalkFrom g u es v → S u → ¬ S v →
    ∃ es1 e es2 a, es = es1 ++ e :: es2 ∧ WalkFrom g u es1 a ∧ S a ∧
      e ∈ (g.GetVertex a).edges ∧ ¬ S e.to_vertex_id ∧
      WalkFrom g e.to_vertex_id es2 v := by
  intro es
  induction es with
  | nil =>
    intro u v hwk hS hnS
    rw [walkFrom_nil] at hwk
    exact absurd (hwk ▸ hS) hnS
  | cons e es ih =>
    intro u v hwk hS hnS
    rw [walkFrom_cons] at hwk
    obtain ⟨he, hrest⟩ := hwk
    by_cases hSe : S e.to_vertex_id
    · obtain ⟨es1, e2, es2, a, heq, hw1, hSa, he2, hnS2, hw2⟩ :=
        ih _ _ hrest hSe hnS
      exact ⟨e :: es1, e2, es2, a, by rw [heq, List.cons_append],
        (walkFrom_cons g u e es1 a).mpr ⟨he, hw1⟩, hSa, he2, hnS2, hw2⟩
    · exact ⟨[], e, es, u, rfl, (walkFrom_nil g u u).mpr rfl, hS, he,
        hSe, hrest⟩

theorem tracePath_start (prev : List (Nat × Nat)) (start : Nat)
    (fuel : Nat) : tracePath prev start fuel start = some [start] := by
  cases fuel with
  | zero => rw [tracePath, if_pos rfl]
  | succ f => rw [tracePath, if_pos rfl]

theorem tracePath_mono (prev : List (Nat × Nat)) (start : Nat) :
    ∀ fuel fuel2 v l, tracePath prev start fuel v = some l →
      fuel ≤ fuel2 → tracePath prev start fuel2 v = some l := by
  intro fuel
  induction fuel with
  | zero =>
    intro fuel2 v l h _
    rw [tracePath] at h
    by_cases hv : v = start
    · subst hv
      rw [if_pos rfl] at h
      rw [tracePath_start]
      exact h
    · rw [if_neg hv] at h
      exact Option.noConfusion h
  | succ f ih =>
    intro fuel2 v l h hle
    rw [tracePath] at h
    by_cases hv : v = start
    · subst hv
      rw [if_pos rfl] at h
      rw [tracePath_start]
      exact h
    · rw [if_neg hv] at h
      obtain ⟨f2, rfl⟩ : ∃ f2, fuel2 = f2 + 1 := by
        cases fuel2 with
        | zero => omega
        | succ f2 => exact ⟨f2, rfl⟩
      rw [tracePath, if_neg hv]
      cases hp : alookup prev v with
      | none => rw [hp] at h; exact Option.noConfusion h
      | some p =>
        rw [hp] at h
        have h2 : Option.map (fun l => v :: l) (tracePath prev start f p) =
            some l := h
        obtain ⟨l0, hl0, hl⟩ := Option.map_eq_some'.mp h2
        show Option.map (fun l => v :: l) (tracePath prev start f2 p) = some l
        rw [ih f2 p l0 hl0 (by omega), Option.map_some']
        rw [hl]

/-- Tracing reads `prev` only at the non-start vertices of the produced
list, so any map agreeing there traces identically. -/
theorem tracePath_congr (prev prev2 : List (Nat × Nat)) (start : Nat) :
    ∀ fuel v l, tracePath prev start fuel v = some l →
      (∀ x ∈ l, x ≠ start → alookup prev2 x = alookup prev x) →
      tracePath prev2 start fuel v = some l := by
  intro fuel
  induction fuel with
  | zero =>
    intro v l h _
    rw [tracePath] at h
    rw [tracePath]
    by_cases hv : v = start
    · rw [if_pos hv] at h
      rw [if_pos hv]
      exact h
    · rw [if_neg hv] at h
      exact Option.noConfusion h
  | succ f ih =>
    intro v l h hag
    rw [tracePath] at h
    rw [tracePath]
    by_cases hv : v = start
    · rw [if_pos hv] at h
      rw [if_pos hv]
      exact h
    · rw [if_neg hv] at h
      rw [if_neg hv]
      cases hp : alookup prev v with
      | none => rw [hp] at h; exact Option.noConfusion h
      | some p =>
        rw [hp] at h
        have h2 : Option.map (fun l => v :: l) (tracePath prev start f p) =
            some l := h
        obtain ⟨l0, hl0, hl⟩ := Option.map_eq_some'.mp h2
        have hvl : v ∈ l := by
          rw [← hl]
          exact List.mem_cons_self _ _
        rw [hag v hvl hv, hp]
        have hsub : ∀ x ∈ l0, x ≠ start → alookup prev2 x = alookup prev x := by
          intro x hx hxs
          exact hag x (by rw [← hl]; exact List.mem_cons_of_mem _ hx) hxs
        show Option.map (fun l => v :: l) (tracePath prev2 start f p) = some l
        rw [ih p l0 hl0 hsub, Option.map_some', hl]

theorem alookup_mem {β : Type u} (m : List (Nat × β)) (k : Nat) (v : β)
    (h : alookup m k = some v) : (k, v) ∈ m := by
  induction m with
  | nil => exact Option.noConfusion h
  | cons p rest ih =>
    rw [alookup_cons] at h
    by_cases hp : p.1 = k
    · rw [if_pos hp] at h
      have hv := Option.some_inj.mp h
      cases p with
      | mk a b =>
        cases hp
        cases hv
        exact List.mem_cons_self _ _
    · rw [if_neg hp] at h
      exact List.mem_cons_of_mem _ (ih h)

theorem alookup_of_mem_nodup {β : Type u} (m : List (Nat × β))
    (hnd : (m.map Prod.fst).Nodup) (k : Nat) (v : β) (h : (k, v) ∈ m) :
    alookup m k = some v := by
  induction m with
  | nil => exact absurd h (List.not_mem_nil _)
  | cons p rest ih =>
    rw [List.map_cons, List.nodup_cons] at hnd
    rcases List.mem_cons.mp h with heq | hr
    · rw [← heq, alookup_cons, if_pos rfl]
    · rw [alookup_cons]
      by_cases hp : p.1 = k
      · exact absurd (hp ▸ List.mem_map.mpr ⟨(k, v), hr, rfl⟩) hnd.1
      · rw [if_neg hp]
        exact ih hnd.2 hr

theorem alookup_ainsertNew {β : Type u} (m : List (Nat × β)) (k : Nat)
    (v : β) (x : Nat) : alookup (ainsertNew m k v) x =
      if k = x then some v else alookup m x := by
  rw [show ainsertNew m k v = (k, v) :: m from rfl, alookup_cons]

theorem contains_iff_mem_nat (l : List Nat) (x : Nat) :
    l.contains x = true ↔ x ∈ l :=
  List.elem_iff

theorem contains_eq_of_perm {l1 l2 : List Nat} (h : l1.Perm l2) (x : Nat) :
    l1.contains x = l2.contains x := by
  by_cases hx : x ∈ l1
  · rw [(contains_iff_mem_nat l1 x).mpr hx,
      (contains_iff_mem_nat l2 x).mpr (h.mem_iff.mp hx)]
  · have h1 : l1.contains x = false := by
      cases hc : l1.contains x with
      | false => rfl
      | true => exact absurd ((contains_iff_mem_nat l1 x).mp hc) hx
    have hx2 : x ∉ l2 := fun hm => hx (h.mem_iff.mpr hm)
    have h2 : l2.contains x = false := by
      cases hc : l2.contains x with
      | false => rfl
      | true => exact absurd ((contains_iff_mem_nat l2 x).mp hc) hx2
    rw [h1, h2]

theorem contains_cons_ne (l : List Nat) (a x : Nat) (h : x ≠ a) :
    (a :: l).contains x = l.contains x := by
  show ((x == a) || l.contains x) = l.contains x
  rw [beq_eq_false_iff_ne.mpr h, Bool.false_or]

/-- Flipping a predicate from true to false at one element of a
duplicate-free list lowers the count by exactly one. -/
theorem countP_flip_one {l : List Nat} (p q : Nat → Bool) (x : Nat)
    (hnd : l.Nodup) (hx : x ∈ l) (hpx : p x = true) (hqx : q x = false)
    (hagree : ∀ y ∈ l, y ≠ x → p y = q y) :
    l.countP q + 1 = l.countP p := by
  induction l with
  | nil => exact absurd hx (List.not_mem_nil _)
  | cons a rest ih =>
    rw [List.nodup_cons] at hnd
    rw [List.countP_cons, List.countP_cons]
    rcases List.mem_cons.mp hx with heq | hxr
    · have hrest : rest.countP p = rest.countP q := by
        apply List.countP_congr
        intro y hy
        rw [hagree y (List.mem_cons_of_mem _ hy)
          (fun hc => (heq ▸ hnd.1) (hc ▸ hy))]
      rw [← heq, hpx, hqx, hrest]
      simp
    · have ha : a ≠ x := fun hc => hnd.1 (hc ▸ hxr)
      rw [hagree a (List.mem_cons_self _ _) ha]
      have := ih hnd.2 hxr
        (fun y hy hne => hagree y (List.mem_cons_of_mem _ hy) hne)
      omega

theorem GetVertex_mem (g : Graph) (v : Nat) (h : v < g.vertices.length) :
    g.GetVertex v ∈ g.vertices := by
  rw [Graph.GetVertex, List.getD_eq_getElem _ _ h]
  exact List.getElem_mem _

theorem edge_target_lt (g : Graph) (hwf : WFGraph g) (u : Nat)
    (hu : u < g.vertices.length) (e : Edge)
    (he : e ∈ (g.GetVertex u).edges) :
    e.to_vertex_id < g.vertices.length :=
  hwf.2 _ (GetVertex_mem g u hu) e he

theorem alookup_unique {β : Type u} (m : List (Nat × β))
    (hnd : (m.map Prod.fst).Nodup) (r : Nat × β) (hr : r ∈ m) (v : β)
    (hv : alookup m r.1 = some v) : v = r.2 := by
  have h2 := alookup_of_mem_nodup m hnd r.1 r.2 hr
  rw [hv] at h2
  exact Option.some_inj.mp h2

/-- Recording a predecessor for an unsettled vertex does not disturb the
traced paths of settled results. -/
theorem settled_trace_aset (wg : WeightedGraph) (start : Nat)
    (results : List (Nat × PathM)) (prev : List (Nat × Nat)) (vtx mv : Nat)
    (hunset : alookup results vtx = none)
    (h5 : ∀ r ∈ results, 0 ≤ r.2.distance ∧
      r.1 < wg.graph.vertices.length ∧
      ∃ es, WalkFrom wg.graph start es r.1 ∧
        walkWeight wg es = r.2.distance ∧
        tracePath prev start results.length r.1 =
          some (start :: es.map Edge.to_vertex_id).reverse ∧
        ∀ x ∈ start :: es.map Edge.to_vertex_id,
          (alookup results x).isSome = true) :
    ∀ r ∈ results, 0 ≤ r.2.distance ∧
      r.1 < wg.graph.vertices.length ∧
      ∃ es, WalkFrom wg.graph start es r.1 ∧
        walkWeight wg es = r.2.distance ∧
        tracePath (aset prev vtx mv) start results.length r.1 =
          some (start :: es.map Edge.to_vertex_id).reverse ∧
        ∀ x ∈ start :: es.map Edge.to_vertex_id,
          (alookup results x).isSome = true := by
  intro r hr
  obtain ⟨h0, h1, es0, hwk, hwt, htr, hchain⟩ := h5 r hr
  refine ⟨h0, h1, es0, hwk, hwt, ?_, hchain⟩
  apply tracePath_congr prev (aset prev vtx mv) start _ _ _ htr
  intro x hx hxs
  have hxchain : x ∈ start :: es0.map Edge.to_vertex_id :=
    List.mem_reverse.mp hx
  have hxset := hchain x hxchain
  apply alookup_aset_ne
  intro hxv
  rw [hxv, hunset] at hxset
  exact Bool.noConfusion hxset

/-- The edge-relaxation loop of `Run` succeeds and restores the full loop
invariant, keeping `results` and the termination potential unchanged. -/
theorem dijkstraRelax_spec {σ : Type} (H : HeapImpl σ) (inv : σ → Prop)
    (view : σ → List (DistanceNode × Nat)) (laws : HeapLaws H inv view)
    (wg : WeightedGraph) (start : Nat) (hwf : WFGraph wg.graph)
    (hw : WNonneg wg) (m : DistanceNode) :
    ∀ (todo : List Edge) (st : DijkState σ),
      (∀ e ∈ todo, e ∈ (wg.graph.GetVertex m.vertex_id).edges) →
      (∃ pm, alookup st.results m.vertex_id = some pm ∧
        pm.distance = m.distance) →
      DijkCore inv view wg start st →
      DijkFrontierR view wg m.vertex_id todo st →
      ∃ st2, dijkstraRelax H wg m todo st = some st2 ∧
        st2.results = st.results ∧
        DijkCore inv view wg start st2 ∧ DijkFrontier view wg st2 ∧
        dijkPotential wg view st2 = dijkPotential wg view st := by
  intro todo
  induction todo with
  | nil =>
    intro st _ _ hcore hfr
    refine ⟨st, rfl, rfl, hcore, ?_, rfl⟩
    intro r hr e he hnone
    rcases hfr r hr e he hnone with ⟨_, hmem⟩ | hcov
    · exact absurd hmem (List.not_mem_nil _)
    · exact hcov
  | cons e rest ih =>
    intro st htodo hm hcore hfr
    obtain ⟨pm, hpm, hpmd⟩ := hm
    obtain ⟨hinv, hnd, hheap, hreach, hsettled, hexact, hprev, hinit⟩ := hcore
    have hmv_mem : (m.vertex_id, pm) ∈ st.results := alookup_mem _ _ _ hpm
    have hmv_lt : m.vertex_id < wg.graph.vertices.length :=
      (hsettled _ hmv_mem).2.1
    have hpm_nonneg : 0 ≤ pm.distance := (hsettled _ hmv_mem).1
    have hG := hw e.id
    have he_mem : e ∈ (wg.graph.GetVertex m.vertex_id).edges :=
      htodo e (List.mem_cons_self _ _)
    have hv_lt : e.to_vertex_id < wg.graph.vertices.length :=
      edge_target_lt _ hwf _ hmv_lt e he_mem
    have htodo2 : ∀ e2 ∈ rest, e2 ∈ (wg.graph.GetVertex m.vertex_id).edges :=
      fun e2 h2 => htodo e2 (List.mem_cons_of_mem _ h2)
    by_cases hset : (alookup st.results e.to_vertex_id).isSome = true
    · -- target already settled: skip the edge
      have hfr2 : DijkFrontierR view wg m.vertex_id rest st := by
        intro r hr e2 he2 hnone
        rcases hfr r hr e2 he2 hnone with ⟨hre, hmem⟩ | hcov
        · rcases List.mem_cons.mp hmem with heq | hmem2
          · rw [heq] at hnone
            rw [hnone] at hset
            exact absurd hset (by simp)
          · exact Or.inl ⟨hre, hmem2⟩
        · exact Or.inr hcov
      obtain ⟨st2, hrun, hres, hc2, hf2, hpot⟩ := ih st htodo2
        ⟨pm, hpm, hpmd⟩ ⟨hinv, hnd, hheap, hreach, hsettled, hexact,
          hprev, hinit⟩ hfr2
      refine ⟨st2, ?_, hres, hc2, hf2, hpot⟩
      have hstep : dijkstraRelax H wg m (e :: rest) st =
          dijkstraRelax H wg m rest st := by
        simp only [dijkstraRelax]
        rw [if_pos hset]
      rw [hstep]
      exact hrun
    · have hnone : alookup st.results e.to_vertex_id = none :=
        Option.not_isSome_iff_eq_none.mp hset
      have hneg : ¬ (m.distance + wg.edge_weights.Get e.id < 0) := by
        omega
      have hstart_settled : alookup st.results start ≠ none := by
        intro hs
        have h0 := (hinit hs).1
        rw [h0] at hmv_mem
        exact absurd hmv_mem (List.not_mem_nil _)
      have hreach_new : ReachableW wg start e.to_vertex_id
          (m.distance + wg.edge_weights.Get e.id) := by
        obtain ⟨_, _, es0, hwk0, hwt0, _, _⟩ := hsettled _ hmv_mem
        refine ⟨es0 ++ [e], (walkFrom_snoc _ _ _ _ _).mpr
          ⟨m.vertex_id, hwk0, he_mem, rfl⟩, ?_⟩
        rw [walkWeight_append, walkWeight_cons, walkWeight_nil, hwt0, hpmd]
        omega
      have hrval : ∀ r ∈ st.results, r.1 = m.vertex_id → r.2 = pm := by
        intro r hr hre
        have h2 := alookup_of_mem_nodup st.results hnd r.1 r.2 hr
        rw [hre, hpm] at h2
        exact (Option.some_inj.mp h2).symm
      cases hlk : H.LookUp st.heap e.to_vertex_id with
      | none =>
        -- undiscovered target: Add
        have hnotin : e.to_vertex_id ∉ (view st.heap).map Prod.snd := by
          intro hmem
          obtain ⟨p, hp, hp2⟩ := List.mem_map.mp hmem
          have hlk2 := (laws.lookup_mem _ hinv p.2 p.1).mpr hp
          rw [hp2, hlk] at hlk2
          exact Option.noConfusion hlk2
        obtain ⟨s2, hadd, hinv2, hperm⟩ := laws.add_fresh _ hinv
          ⟨e.to_vertex_id, m.distance + wg.edge_weights.Get e.id⟩
          e.to_vertex_id hnotin
        have hcore2 : DijkCore inv view wg start
            ⟨s2, st.results, aset st.prev e.to_vertex_id m.vertex_id⟩ := by
          refine ⟨hinv2, hnd, ?_, ?_, ?_, hexact, ?_, ?_⟩
          · intro p hp
            rcases List.mem_cons.mp (hperm.subset hp) with heq | hpold
            · rw [heq]
              refine ⟨rfl, hnone, ?_, hv_lt⟩
              show (0 : Int) ≤ m.distance + wg.edge_weights.Get e.id
              omega
            · exact hheap p hpold
          · intro p hp
            rcases List.mem_cons.mp (hperm.subset hp) with heq | hpold
            · rw [heq]
              exact hreach_new
            · exact hreach p hpold
          · exact settled_trace_aset wg start st.results st.prev
              e.to_vertex_id m.vertex_id hnone hsettled
          · intro p hp hpstart
            rcases List.mem_cons.mp (hperm.subset hp) with heq | hpold
            · rw [heq]
              refine ⟨m.vertex_id, pm, wg.edge_weights.Get e.id,
                alookup_aset_self _ _ _, hpm, ⟨e, he_mem, rfl, rfl⟩, ?_⟩
              show m.distance + wg.edge_weights.Get e.id =
                pm.distance + wg.edge_weights.Get e.id
              omega
            · obtain ⟨u, pu, w0, hpr, hru, hhe, hdist⟩ :=
                hprev p hpold hpstart
              have hne : p.2 ≠ e.to_vertex_id := by
                intro hc
                have hlk2 := (laws.lookup_mem _ hinv p.2 p.1).mpr hpold
                rw [hc, hlk] at hlk2
                exact Option.noConfusion hlk2
              exact ⟨u, pu, w0, by rw [alookup_aset_ne _ _ _ _ hne]; exact hpr,
                hru, hhe, hdist⟩
          · intro hs
            exact absurd hs hstart_settled
        have hfr2 : DijkFrontierR view wg m.vertex_id rest
            ⟨s2, st.results, aset st.prev e.to_vertex_id m.vertex_id⟩ := by
          intro r hr e2 he2 hnone2
          rcases hfr r hr e2 he2 hnone2 with ⟨hre, hmem⟩ | ⟨kx, hkx, hbound⟩
          · rcases List.mem_cons.mp hmem with heq | hmem2
            · refine Or.inr ⟨⟨e.to_vertex_id,
                m.distance + wg.edge_weights.Get e.id⟩, ?_, ?_⟩
              · rw [heq]
                exact hperm.mem_iff.mpr (List.mem_cons_self _ _)
              · have hr2 := hrval r hr hre
                rw [heq, hr2]
                show m.distance + wg.edge_weights.Get e.id ≤
                  pm.distance + wg.edge_weights.Get e.id
                omega
            · exact Or.inl ⟨hre, hmem2⟩
          · exact Or.inr ⟨kx, hperm.mem_iff.mpr (List.mem_cons_of_mem _ hkx),
              hbound⟩
        obtain ⟨st2, hrun, hres, hc2, hf2, hpot⟩ := ih
          ⟨s2, st.results, aset st.prev e.to_vertex_id m.vertex_id⟩ htodo2
          ⟨pm, hpm, hpmd⟩ hcore2 hfr2
        refine ⟨st2, ?_, hres, hc2, hf2, ?_⟩
        · have hstep : dijkstraRelax H wg m (e :: rest) st =
              dijkstraRelax H wg m rest
                ⟨s2, st.results, aset st.prev e.to_vertex_id m.vertex_id⟩ := by
            simp only [dijkstraRelax]
            rw [if_neg hset, if_neg hneg, hlk]
            show (match H.Add st.heap
                ⟨e.to_vertex_id, m.distance + wg.edge_weights.Get e.id⟩
                e.to_vertex_id with
              | none => none
              | some h2 =>
                dijkstraRelax H wg m rest
                  ⟨h2, st.results,
                    aset st.prev e.to_vertex_id m.vertex_id⟩) =
              dijkstraRelax H wg m rest
                ⟨s2, st.results, aset st.prev e.to_vertex_id m.vertex_id⟩
            rw [hadd]
          rw [hstep]
          exact hrun
        · rw [hpot]
          show (view s2).length +
              (List.range wg.graph.vertices.length).countP
                (fun x => (alookup st.results x).isNone &&
                  !((view s2).map Prod.snd).contains x) =
            (view st.heap).length +
              (List.range wg.graph.vertices.length).countP
                (fun x => (alookup st.results x).isNone &&
                  !((view st.heap).map Prod.snd).contains x)
          have hlen : (view s2).length = (view st.heap).length + 1 := by
            rw [hperm.length_eq]
            rfl
          have hidperm : ((view s2).map Prod.snd).Perm
              (e.to_vertex_id :: (view st.heap).map Prod.snd) :=
            hperm.map Prod.snd
          have hflip : (List.range wg.graph.vertices.length).countP
                (fun x => (alookup st.results x).isNone &&
                  !((view s2).map Prod.snd).contains x) + 1 =
              (List.range wg.graph.vertices.length).countP
                (fun x => (alookup st.results x).isNone &&
                  !((view st.heap).map Prod.snd).contains x) := by
            apply countP_flip_one _ _ e.to_vertex_id
              (List.nodup_range _) (List.mem_range.mpr hv_lt)
            · show ((alookup st.results e.to_vertex_id).isNone &&
                !((view st.heap).map Prod.snd).contains e.to_vertex_id) = true
              rw [hnone]
              have hc : ((view st.heap).map Prod.snd).contains
                  e.to_vertex_id = false := by
                cases hc2 : ((view st.heap).map Prod.snd).contains
                    e.to_vertex_id with
                | false => rfl
                | true =>
                  exact absurd ((contains_iff_mem_nat _ _).mp hc2) hnotin
              rw [hc]
              rfl
            · show ((alookup st.results e.to_vertex_id).isNone &&
                !((view s2).map Prod.snd).contains e.to_vertex_id) = false
              have hc : ((view s2).map Prod.snd).contains
                  e.to_vertex_id = true := by
                apply (contains_iff_mem_nat _ _).mpr
                exact hidperm.mem_iff.mpr (List.mem_cons_self _ _)
              rw [hc]
              simp
            · intro y _ hy
              show ((alookup st.results y).isNone &&
                  !((view st.heap).map Prod.snd).contains y) =
                ((alookup st.results y).isNone &&
                  !((view s2).map Prod.snd).contains y)
              have hc : ((view s2).map Prod.snd).contains y =
                  ((view st.heap).map Prod.snd).contains y := by
                rw [contains_eq_of_perm hidperm y, contains_cons_ne _ _ _ hy]
              rw [hc]
          omega
      | some to_node =>
        by_cases himp : m.distance + wg.edge_weights.Get e.id <
            to_node.distance
        · -- improved: ReduceKey
          have hd : dnLt ⟨e.to_vertex_id,
              m.distance + wg.edge_weights.Get e.id⟩ to_node = true := by
            rw [dnLt]
            exact decide_eq_true himp
          obtain ⟨s2, rest0, hred, hinv2, hviewold, hviewnew⟩ :=
            laws.reduce _ hinv _ _ to_node hlk hd
          have hnodup := laws.nodup _ hinv
          have hidold : ((view st.heap).map Prod.snd).Perm
              (e.to_vertex_id :: rest0.map Prod.snd) := hviewold.map Prod.snd
          have hidnew : ((view s2).map Prod.snd).Perm
              (e.to_vertex_id :: rest0.map Prod.snd) := hviewnew.map Prod.snd
          have hnotin0 : e.to_vertex_id ∉ rest0.map Prod.snd := by
            have h2 := (hidold.nodup_iff).mp hnodup
            rw [List.nodup_cons] at h2
            exact h2.1
          have hrest0_sub : ∀ p ∈ rest0, p ∈ view st.heap := by
            intro p hp
            exact hviewold.mem_iff.mpr (List.mem_cons_of_mem _ hp)
          have hcore2 : DijkCore inv view wg start
              ⟨s2, st.results, aset st.prev e.to_vertex_id m.vertex_id⟩ := by
            refine ⟨hinv2, hnd, ?_, ?_, ?_, hexact, ?_, ?_⟩
            · intro p hp
              rcases List.mem_cons.mp (hviewnew.subset hp) with heq | hpold
              · rw [heq]
                refine ⟨rfl, hnone, ?_, hv_lt⟩
                show (0 : Int) ≤ m.distance + wg.edge_weights.Get e.id
                omega
              · exact hheap p (hrest0_sub p hpold)
            · intro p hp
              rcases List.mem_cons.mp (hviewnew.subset hp) with heq | hpold
              · rw [heq]
                exact hreach_new
              · exact hreach p (hrest0_sub p hpold)
            · exact settled_trace_aset wg start st.results st.prev
                e.to_vertex_id m.vertex_id hnone hsettled
            · intro p hp hpstart
              rcases List.mem_cons.mp (hviewnew.subset hp) with heq | hpold
              · rw [heq]
                refine ⟨m.vertex_id, pm, wg.edge_weights.Get e.id,
                  alookup_aset_self _ _ _, hpm, ⟨e, he_mem, rfl, rfl⟩, ?_⟩
                show m.distance + wg.edge_weights.Get e.id =
                  pm.distance + wg.edge_weights.Get e.id
                omega
              · obtain ⟨u, pu, w0, hpr, hru, hhe, hdist⟩ :=
                  hprev p (hrest0_sub p hpold) hpstart
                have hne : p.2 ≠ e.to_vertex_id := by
                  intro hc
                  apply hnotin0
                  rw [← hc]
                  exact List.mem_map.mpr ⟨p, hpold, rfl⟩
                exact ⟨u, pu, w0,
                  by rw [alookup_aset_ne _ _ _ _ hne]; exact hpr,
                  hru, hhe, hdist⟩
            · intro hs
              exact absurd hs hstart_settled
          have hfr2 : DijkFrontierR view wg m.vertex_id rest
              ⟨s2, st.results, aset st.prev e.to_vertex_id m.vertex_id⟩ := by
            intro r hr e2 he2 hnone2
            rcases hfr r hr e2 he2 hnone2 with ⟨hre, hmem⟩ | ⟨kx, hkx, hbound⟩
            · rcases List.mem_cons.mp hmem with heq | hmem2
              · refine Or.inr ⟨⟨e.to_vertex_id,
                  m.distance + wg.edge_weights.Get e.id⟩, ?_, ?_⟩
                · rw [heq]
                  exact hviewnew.mem_iff.mpr (List.mem_cons_self _ _)
                · have hr2 := hrval r hr hre
                  rw [heq, hr2]
                  show m.distance + wg.edge_weights.Get e.id ≤
                    pm.distance + wg.edge_weights.Get e.id
                  omega
              · exact Or.inl ⟨hre, hmem2⟩
            · rcases List.mem_cons.mp (hviewold.subset hkx) with heq | hkold
              · have hkx2 : kx = to_node ∧ e2.to_vertex_id = e.to_vertex_id := by
                  rw [Prod.mk.injEq] at heq
                  exact heq
                refine Or.inr ⟨⟨e.to_vertex_id,
                  m.distance + wg.edge_weights.Get e.id⟩, ?_, ?_⟩
                · rw [hkx2.2]
                  exact hviewnew.mem_iff.mpr (List.mem_cons_self _ _)
                · have hb2 : to_node.distance ≤ r.2.distance +
                      wg.edge_weights.Get e2.id := by
                    rw [← hkx2.1]
                    exact hbound
                  show m.distance + wg.edge_weights.Get e.id ≤
                    r.2.distance + wg.edge_weights.Get e2.id
                  omega
              · exact Or.inr ⟨kx, hviewnew.mem_iff.mpr
                  (List.mem_cons_of_mem _ hkold), hbound⟩
          obtain ⟨st2, hrun, hres, hc2, hf2, hpot⟩ := ih
            ⟨s2, st.results, aset st.prev e.to_vertex_id m.vertex_id⟩ htodo2
            ⟨pm, hpm, hpmd⟩ hcore2 hfr2
          refine ⟨st2, ?_, hres, hc2, hf2, ?_⟩
          · have hstep : dijkstraRelax H wg m (e :: rest) st =
                dijkstraRelax H wg m rest
                  ⟨s2, st.results,
                    aset st.prev e.to_vertex_id m.vertex_id⟩ := by
              simp only [dijkstraRelax]
              rw [if_neg hset, if_neg hneg, hlk]
              show (if m.distance + wg.edge_weights.Get e.id <
                    to_node.distance then
                  match H.ReduceKey st.heap
                      ⟨e.to_vertex_id,
                        m.distance + wg.edge_weights.Get e.id⟩
                      e.to_vertex_id with
                  | none => none
                  | some h2 =>
                    dijkstraRelax H wg m rest
                      ⟨h2, st.results,
                        aset st.prev e.to_vertex_id m.vertex_id⟩
                else dijkstraRelax H wg m rest st) =
                dijkstraRelax H wg m rest
                  ⟨s2, st.results,
                    aset st.prev e.to_vertex_id m.vertex_id⟩
              rw [if_pos himp, hred]
            rw [hstep]
            exact hrun
          · rw [hpot]
            show (view s2).length +
                (List.range wg.graph.vertices.length).countP
                  (fun x => (alookup st.results x).isNone &&
                    !((view s2).map Prod.snd).contains x) =
              (view st.heap).length +
                (List.range wg.graph.vertices.length).countP
                  (fun x => (alookup st.results x).isNone &&
                    !((view st.heap).map Prod.snd).contains x)
            have hlen : (view s2).length = (view st.heap).length := by
              rw [hviewnew.length_eq, hviewold.length_eq]
              rfl
            have hcount : (List.range wg.graph.vertices.length).countP
                  (fun x => (alookup st.results x).isNone &&
                    !((view s2).map Prod.snd).contains x) =
                (List.range wg.graph.vertices.length).countP
                  (fun x => (alookup st.results x).isNone &&
                    !((view st.heap).map Prod.snd).contains x) := by
              apply List.countP_congr
              intro y _
              show ((alookup st.results y).isNone &&
                  !((view s2).map Prod.snd).contains y) = true ↔
                ((alookup st.results y).isNone &&
                  !((view st.heap).map Prod.snd).contains y) = true
              rw [contains_eq_of_perm (hidnew.trans hidold.symm) y]
            omega
        · -- no improvement: skip
          have hfr2 : DijkFrontierR view wg m.vertex_id rest st := by
            intro r hr e2 he2 hnone2
            rcases hfr r hr e2 he2 hnone2 with ⟨hre, hmem⟩ | hcov
            · rcases List.mem_cons.mp hmem with heq | hmem2
              · refine Or.inr ⟨to_node, ?_, ?_⟩
                · rw [heq]
                  exact (laws.lookup_mem _ hinv _ _).mp hlk
                · have hr2 := hrval r hr hre
                  rw [heq, hr2]
                  omega
              · exact Or.inl ⟨hre, hmem2⟩
            · exact Or.inr hcov
          obtain ⟨st2, hrun, hres, hc2, hf2, hpot⟩ := ih st htodo2
            ⟨pm, hpm, hpmd⟩ ⟨hinv, hnd, hheap, hreach, hsettled, hexact,
              hprev, hinit⟩ hfr2
          refine ⟨st2, ?_, hres, hc2, hf2, hpot⟩
          have hstep : dijkstraRelax H wg m (e :: rest) st =
              dijkstraRelax H wg m rest st := by
            simp only [dijkstraRelax]
            rw [if_neg hset, if_neg hneg, hlk]
            show (if m.distance + wg.edge_weights.Get e.id <
                  to_node.distance then
                match H.ReduceKey st.heap
                    ⟨e.to_vertex_id,
                      m.distance + wg.edge_weights.Get e.id⟩
                    e.to_vertex_id with
                | none => none
                | some h2 =>
                  dijkstraRelax H wg m rest
                    ⟨h2, st.results,
                      aset st.prev e.to_vertex_id m.vertex_id⟩
              else dijkstraRelax H wg m rest st) =
              dijkstraRelax H wg m rest st
            rw [if_neg himp]
          rw [hstep]
          exact hrun

/-- The main loop of `Run` succeeds given enough fuel, preserves the loop
invariant, and drains the heap. -/
theorem dijkstraLoop_spec {σ : Type} (H : HeapImpl σ) (inv : σ → Prop)
    (view : σ → List (DistanceNode × Nat)) (laws : HeapLaws H inv view)
    (wg : WeightedGraph) (start : Nat) (hwf : WFGraph wg.graph)
    (hw : WNonneg wg) :
    ∀ (fuel : Nat) (st : DijkState σ),
      DijkInv inv view wg start st →
      dijkPotential wg view st ≤ fuel →
      ∃ st2, dijkstraLoop H wg fuel st = some st2 ∧
        DijkInv inv view wg start st2 ∧ view st2.heap = [] := by
  intro fuel
  induction fuel with
  | zero =>
    intro st hinv hpot
    rw [dijkPotential] at hpot
    have hlen : (view st.heap).length = 0 := by omega
    have hsz : H.size st.heap = 0 := by
      rw [laws.size_eq _ hinv.1.1, hlen]
    refine ⟨st, ?_, hinv, List.length_eq_zero.mp hlen⟩
    rw [dijkstraLoop, if_pos hsz]
  | succ fuel ih =>
    intro st hinv hpot
    by_cases hsz : H.size st.heap = 0
    · have hlen : (view st.heap).length = 0 := by
        rw [← laws.size_eq _ hinv.1.1]
        exact hsz
      refine ⟨st, ?_, hinv, List.length_eq_zero.mp hlen⟩
      rw [dijkstraLoop, if_pos hsz]
    · obtain ⟨hcore, hfront⟩ := hinv
      obtain ⟨hinvh, hnd, hheap, hreach, hsettled, hexact, hprev, hinit⟩ :=
        hcore
      have hne : view st.heap ≠ [] := by
        intro h0
        apply hsz
        rw [laws.size_eq _ hinvh, h0]
        rfl
      obtain ⟨mp, s2, hpop, hinv2, hperm, hmin⟩ := laws.pop _ hinvh hne
      have hm_mem : mp ∈ view st.heap :=
        hperm.subset (List.mem_cons_self _ _)
      obtain ⟨hmid, hm_unset, hm_nonneg, hm_lt⟩ := hheap mp hm_mem
      have hm_unset2 : alookup st.results mp.1.vertex_id = none := by
        rw [hmid]
        exact hm_unset
      have hmv_lt : mp.1.vertex_id < wg.graph.vertices.length := by
        rw [hmid]
        exact hm_lt
      have hnodups := laws.nodup _ hinvh
      have hidperm : (mp.2 :: (view s2).map Prod.snd).Perm
          ((view st.heap).map Prod.snd) := hperm.map Prod.snd
      have hid2_nodup : mp.2 ∉ (view s2).map Prod.snd :=
        (List.nodup_cons.mp (hidperm.nodup_iff.mpr hnodups)).1
      -- exactness of the popped distance
      have hexact_m : ∀ es, WalkFrom wg.graph start es mp.1.vertex_id →
          mp.1.distance ≤ walkWeight wg es := by
        intro es hwk
        cases hstart0 : alookup st.results start with
        | none =>
          obtain ⟨hres0, hprev0, hseed⟩ := hinit hstart0
          have hm_seed : mp = (⟨start, 0⟩, start) :=
            List.mem_singleton.mp (hseed.subset hm_mem)
          rw [hm_seed]
          show (0 : Int) ≤ walkWeight wg es
          exact walkWeight_nonneg wg hw es
        | some ps =>
          by_cases hms : mp.1.vertex_id = start
          · rw [hms] at hm_unset2
            exact Option.noConfusion (hm_unset2.symm.trans hstart0)
          · have hS_start : (alookup st.results start).isSome = true := by
              rw [hstart0]
              rfl
            have hS_m : ¬ (alookup st.results mp.1.vertex_id).isSome = true := by
              rw [hm_unset2]
              simp
            obtain ⟨es1, e2, es2, a, heq, hw1, hSa, he2, hnS2, hw2⟩ :=
              walk_cut wg.graph (fun x => (alookup st.results x).isSome = true)
                es start mp.1.vertex_id hwk hS_start hS_m
            obtain ⟨pa, hpa⟩ := Option.isSome_iff_exists.mp hSa
            have hpa_mem : (a, pa) ∈ st.results := alookup_mem _ _ _ hpa
            have hb1 : pa.distance ≤ walkWeight wg es1 :=
              hexact _ hpa_mem es1 hw1
            have hnone_t : alookup st.results e2.to_vertex_id = none :=
              Option.not_isSome_iff_eq_none.mp hnS2
            obtain ⟨kx, hkx, hkxb⟩ := hfront (a, pa) hpa_mem e2 he2 hnone_t
            have hkxb2 : kx.distance ≤ pa.distance +
                wg.edge_weights.Get e2.id := hkxb
            have hd2 : dnLt kx mp.1 = false := hmin (kx, e2.to_vertex_id) hkx
            rw [dnLt] at hd2
            have hd3 := of_decide_eq_false hd2
            have hnn2 : 0 ≤ walkWeight wg es2 := walkWeight_nonneg wg hw es2
            rw [heq, walkWeight_append, walkWeight_cons]
            omega
      -- the updated results map
      have hres2_mv : alookup
          (ainsertNew st.results mp.1.vertex_id ⟨[], mp.1.distance⟩)
          mp.1.vertex_id = some ⟨[], mp.1.distance⟩ := by
        rw [alookup_ainsertNew, if_pos rfl]
      have hres2_ne : ∀ x, x ≠ mp.1.vertex_id →
          alookup (ainsertNew st.results mp.1.vertex_id ⟨[], mp.1.distance⟩)
            x = alookup st.results x := by
        intro x hx
        rw [alookup_ainsertNew, if_neg (fun h => hx h.symm)]
      have hres2_isSome : ∀ x, (alookup st.results x).isSome = true →
          (alookup (ainsertNew st.results mp.1.vertex_id
            ⟨[], mp.1.distance⟩) x).isSome = true := by
        intro x hx
        by_cases hxm : x = mp.1.vertex_id
        · rw [hxm, hres2_mv]
          rfl
        · rw [hres2_ne x hxm]
          exact hx
      have hmv_notkey : mp.1.vertex_id ∉ st.results.map Prod.fst := by
        intro hmem
        have := alookup_isSome_of_mem _ _ hmem
        rw [hm_unset2] at this
        exact Bool.noConfusion this
      have hnd2 : ((ainsertNew st.results mp.1.vertex_id
          ⟨[], mp.1.distance⟩).map Prod.fst).Nodup := by
        rw [show ainsertNew st.results mp.1.vertex_id ⟨[], mp.1.distance⟩ =
          (mp.1.vertex_id, ⟨[], mp.1.distance⟩) :: st.results from rfl]
        rw [List.map_cons, List.nodup_cons]
        exact ⟨hmv_notkey, hnd⟩
      have hid_ne : ∀ p, p ∈ view s2 → p.2 ≠ mp.1.vertex_id := by
        intro p hp hc
        apply hid2_nodup
        rw [← hmid, ← hc]
        exact List.mem_map.mpr ⟨p, hp, rfl⟩
      have hcore2 : DijkCore inv view wg start
          ⟨s2, ainsertNew st.results mp.1.vertex_id ⟨[], mp.1.distance⟩,
            st.prev⟩ := by
        refine ⟨hinv2, hnd2, ?_, ?_, ?_, ?_, ?_, ?_⟩
        · intro p hp
          have hpold : p ∈ view st.heap :=
            hperm.subset (List.mem_cons_of_mem _ hp)
          obtain ⟨h1, h2, h3, h4⟩ := hheap p hpold
          exact ⟨h1, by rw [hres2_ne p.2 (hid_ne p hp)]; exact h2, h3, h4⟩
        · intro p hp
          exact hreach p (hperm.subset (List.mem_cons_of_mem _ hp))
        · intro r hr
          rcases List.mem_cons.mp hr with heqr | hrold
          · -- the freshly settled vertex
            subst heqr
            refine ⟨hm_nonneg, hmv_lt, ?_⟩
            by_cases hms : mp.1.vertex_id = start
            · refine ⟨[], (walkFrom_nil _ _ _).mpr hms.symm, ?_, ?_, ?_⟩
              · rw [walkWeight_nil]
                have := hexact_m [] ((walkFrom_nil _ _ _).mpr hms.symm)
                rw [walkWeight_nil] at this
                show (0 : Int) = mp.1.distance
                omega
              · rw [hms, tracePath_start]
                rfl
              · intro x hx
                rcases List.mem_cons.mp hx with hxs | hxn
                · rw [hxs, ← hms, hres2_mv]
                  rfl
                · exact absurd hxn (by simp)
            · obtain ⟨u, pu, w0, hpr, hru, hhe, hdist⟩ := hprev mp hm_mem
                (by rw [← hmid]; exact hms)
              have hru_mem : (u, pu) ∈ st.results := alookup_mem _ _ _ hru
              obtain ⟨_, _, es_u, hwk_u, hwt_u, htr_u, hch_u⟩ :=
                hsettled (u, pu) hru_mem
              obtain ⟨e2, he21, he22, he23⟩ := hhe
              have he2to : e2.to_vertex_id = mp.1.vertex_id :=
                he22.trans hmid.symm
              refine ⟨es_u ++ [e2], (walkFrom_snoc _ _ _ _ _).mpr
                ⟨u, hwk_u, he21, he2to⟩, ?_, ?_, ?_⟩
              · rw [walkWeight_append, walkWeight_cons, walkWeight_nil,
                  hwt_u, he23]
                show pu.distance + (w0 + 0) = mp.1.distance
                omega
              · have hpr2 : alookup st.prev mp.1.vertex_id = some u := by
                  rw [hmid]
                  exact hpr
                have hlist : (start ::
                    (es_u ++ [e2]).map Edge.to_vertex_id).reverse =
                    mp.1.vertex_id ::
                      (start :: es_u.map Edge.to_vertex_id).reverse := by
                  rw [List.map_append]
                  show (start :: (es_u.map Edge.to_vertex_id ++
                    [e2.to_vertex_id])).reverse = _
                  rw [he2to]
                  rw [show start :: (es_u.map Edge.to_vertex_id ++
                      [mp.1.vertex_id]) =
                    (start :: es_u.map Edge.to_vertex_id) ++
                      [mp.1.vertex_id] from rfl, List.reverse_append]
                  rfl
                show tracePath st.prev start (st.results.length + 1)
                  mp.1.vertex_id = _
                rw [tracePath, if_neg hms, hpr2]
                show Option.map (fun l => mp.1.vertex_id :: l)
                  (tracePath st.prev start st.results.length u) = _
                rw [htr_u, Option.map_some', hlist]
              · intro x hx
                rw [show start :: ((es_u ++ [e2]).map Edge.to_vertex_id) =
                  (start :: es_u.map Edge.to_vertex_id) ++
                    [e2.to_vertex_id] from by rw [List.map_append]; rfl] at hx
                rcases List.mem_append.mp hx with hx1 | hx2
                · exact hres2_isSome x (hch_u x hx1)
                · rw [List.mem_singleton.mp hx2, he2to, hres2_mv]
                  rfl
          · obtain ⟨h1, h2, es0, hwk0, hwt0, htr0, hch0⟩ := hsettled r hrold
            refine ⟨h1, h2, es0, hwk0, hwt0, ?_, ?_⟩
            · show tracePath st.prev start (st.results.length + 1) r.1 = _
              exact tracePath_mono st.prev start st.results.length _ _ _
                htr0 (by omega)
            · intro x hx
              exact hres2_isSome x (hch0 x hx)
        · intro r hr
          rcases List.mem_cons.mp hr with heqr | hrold
          · subst heqr
            intro es hwk
            exact hexact_m es hwk
          · exact hexact r hrold
        · intro p hp hps
          have hpold : p ∈ view st.heap :=
            hperm.subset (List.mem_cons_of_mem _ hp)
          obtain ⟨u, pu, w0, hpr, hru, hhe, hdist⟩ := hprev p hpold hps
          have hu_ne : u ≠ mp.1.vertex_id := by
            intro hc
            rw [hc, hm_unset2] at hru
            exact Option.noConfusion hru
          exact ⟨u, pu, w0, hpr, by rw [hres2_ne u hu_ne]; exact hru,
            hhe, hdist⟩
        · intro hs
          exfalso
          by_cases hms : mp.1.vertex_id = start
          · rw [← hms, hres2_mv] at hs
            exact Option.noConfusion hs
          · rw [hres2_ne start (fun h => hms h.symm)] at hs
            obtain ⟨hres0, hprev0, hseed⟩ := hinit hs
            have hm_seed : mp = (⟨start, 0⟩, start) :=
              List.mem_singleton.mp (hseed.subset hm_mem)
            apply hms
            have h9 : mp.1.vertex_id = start := by rw [hm_seed]
            exact h9
      have hfr2 : DijkFrontierR view wg mp.1.vertex_id
          (wg.graph.GetVertex mp.1.vertex_id).edges
          ⟨s2, ainsertNew st.results mp.1.vertex_id ⟨[], mp.1.distance⟩,
            st.prev⟩ := by
        intro r hr e2 he2 hnone2
        rcases List.mem_cons.mp hr with heqr | hrold
        · left
          constructor
          · rw [heqr]
          · rw [show r.1 = mp.1.vertex_id from by rw [heqr]] at he2
            exact he2
        · have hx_ne : e2.to_vertex_id ≠ mp.1.vertex_id := by
            intro hc
            rw [hc, hres2_mv] at hnone2
            exact Option.noConfusion hnone2
          have hnone_old : alookup st.results e2.to_vertex_id = none := by
            rw [← hres2_ne e2.to_vertex_id hx_ne]
            exact hnone2
          obtain ⟨kx, hkx, hkxb⟩ := hfront r hrold e2 he2 hnone_old
          rcases List.mem_cons.mp (hperm.symm.subset hkx) with heqk | hkk
          · exfalso
            apply hx_ne
            have h9 : e2.to_vertex_id = mp.2 := congrArg Prod.snd heqk
            rw [h9, ← hmid]
          · exact Or.inr ⟨kx, hkk, hkxb⟩
      obtain ⟨st2m, hrelax, hresm, hcorem, hfrontm, hpotm⟩ :=
        dijkstraRelax_spec H inv view laws wg start hwf hw mp.1
          (wg.graph.GetVertex mp.1.vertex_id).edges
          ⟨s2, ainsertNew st.results mp.1.vertex_id ⟨[], mp.1.distance⟩,
            st.prev⟩
          (fun e he => he) ⟨⟨[], mp.1.distance⟩, hres2_mv, rfl⟩ hcore2 hfr2
      -- the potential drops by one across the settle step
      have hplen : (view s2).length + 1 = (view st.heap).length :=
        hperm.length_eq
      have hcnt : (List.range wg.graph.vertices.length).countP
            (fun x => (alookup (ainsertNew st.results mp.1.vertex_id
              ⟨[], mp.1.distance⟩) x).isNone &&
              !((view s2).map Prod.snd).contains x) =
          (List.range wg.graph.vertices.length).countP
            (fun x => (alookup st.results x).isNone &&
              !((view st.heap).map Prod.snd).contains x) := by
        apply List.countP_congr
        intro y _
        show ((alookup (ainsertNew st.results mp.1.vertex_id
            ⟨[], mp.1.distance⟩) y).isNone &&
            !((view s2).map Prod.snd).contains y) = true ↔
          ((alookup st.results y).isNone &&
            !((view st.heap).map Prod.snd).contains y) = true
        by_cases hy : y = mp.1.vertex_id
        · have h1 : (alookup (ainsertNew st.results mp.1.vertex_id
              ⟨[], mp.1.distance⟩) y).isNone = false := by
            rw [hy, hres2_mv]
            rfl
          have h2 : ((view st.heap).map Prod.snd).contains y = true := by
            apply (contains_iff_mem_nat _ _).mpr
            rw [hy, hmid]
            exact List.mem_map.mpr ⟨mp, hm_mem, rfl⟩
          rw [h1, h2]
          simp
        · have hy2 : y ≠ mp.2 := by
            intro hc
            apply hy
            rw [hc, ← hmid]
          rw [hres2_ne y hy, ← contains_eq_of_perm hidperm y,
            contains_cons_ne _ _ _ hy2]
      have hpot_mid : dijkPotential wg view
            ⟨s2, ainsertNew st.results mp.1.vertex_id ⟨[], mp.1.distance⟩,
              st.prev⟩ + 1 =
          dijkPotential wg view st := by
        show (view s2).length + _ + 1 = (view st.heap).length + _
        rw [hcnt]
        omega
      have hpot2 : dijkPotential wg view st2m ≤ fuel := by
        rw [hpotm]
        omega
      obtain ⟨st2, hloop, hinvf, hempty⟩ := ih st2m ⟨hcorem, hfrontm⟩ hpot2
      refine ⟨st2, ?_, hinvf, hempty⟩
      rw [dijkstraLoop, if_neg hsz, hpop]
      show (match alookup st.results mp.1.vertex_id with
        | some _ => dijkstraLoop H wg fuel ⟨s2, st.results, st.prev⟩
        | none =>
          match dijkstraRelax H wg mp.1
              (wg.graph.GetVertex mp.1.vertex_id).edges
              ⟨s2, ainsertNew st.results mp.1.vertex_id ⟨[], mp.1.distance⟩,
                st.prev⟩ with
          | none => none
          | some st3 => dijkstraLoop H wg fuel st3) = some st2
      rw [hm_unset2]
      show (match dijkstraRelax H wg mp.1
          (wg.graph.GetVertex mp.1.vertex_id).edges
          ⟨s2, ainsertNew st.results mp.1.vertex_id ⟨[], mp.1.distance⟩,
            st.prev⟩ with
        | none => none
        | some st3 => dijkstraLoop H wg fuel st3) = some st2
      rw [hrelax]
      exact hloop

theorem mapM_option_spec {α β : Type} (f : α → Option β) :
    ∀ l : List α, (∀ a ∈ l, (f a).isSome = true) →
    ∃ out, l.mapM f = some out ∧ out.length = l.length ∧
      (∀ b ∈ out, ∃ a ∈ l, f a = some b) ∧
      (∀ a ∈ l, ∃ b ∈ out, f a = some b) := by
  intro l
  induction l with
  | nil =>
    intro _
    refine ⟨[], rfl, rfl, ?_, ?_⟩
    · intro b hb
      exact absurd hb (List.not_mem_nil _)
    · intro a ha
      exact absurd ha (List.not_mem_nil _)
  | cons a l ih =>
    intro h
    obtain ⟨b, hb⟩ := Option.isSome_iff_exists.mp
      (h a (List.mem_cons_self _ _))
    obtain ⟨out, hout, hlen, h1, h2⟩ :=
      ih (fun x hx => h x (List.mem_cons_of_mem _ hx))
    refine ⟨b :: out, ?_, by rw [List.length_cons, List.length_cons, hlen],
      ?_, ?_⟩
    · rw [List.mapM_cons, hb, hout]
      rfl
    · intro b2 hb2
      rcases List.mem_cons.mp hb2 with heq | hb2r
      · exact ⟨a, List.mem_cons_self _ _, by rw [heq]; exact hb⟩
      · obtain ⟨a2, ha2, hfa2⟩ := h1 b2 hb2r
        exact ⟨a2, List.mem_cons_of_mem _ ha2, hfa2⟩
    · intro a2 ha2
      rcases List.mem_cons.mp ha2 with heq | ha2r
      · exact ⟨b, List.mem_cons_self _ _, by rw [heq]; exact hb⟩
      · obtain ⟨b2, hb2, hfb2⟩ := h2 a2 ha2r
        exact ⟨b2, List.mem_cons_of_mem _ hb2, hfb2⟩

/-- The path-reconstruction pass succeeds on any state satisfying the
core invariant and reports each settled vertex with its walk. -/
theorem dijkstraFinish_spec {σ : Type} (inv : σ → Prop)
    (view : σ → List (DistanceNode × Nat)) (wg : WeightedGraph)
    (start : Nat) (st : DijkState σ)
    (hcore : DijkCore inv view wg start st) :
    ∃ out, dijkstraFinish st start = some out ∧
      (∀ b ∈ out, ∃ r ∈ st.results, b.1 = r.1 ∧
        b.2.distance = r.2.distance ∧
        ∃ es, WalkFrom wg.graph start es r.1 ∧
          walkWeight wg es = r.2.distance ∧
          b.2.vertices = start :: es.map Edge.to_vertex_id) ∧
      (∀ r ∈ st.results, ∃ b ∈ out, b.1 = r.1 ∧
        b.2.distance = r.2.distance) := by
  obtain ⟨_, _, _, _, hsettled, _, _, _⟩ := hcore
  have hsome : ∀ r ∈ st.results,
      ((tracePath st.prev start st.results.length r.1).map
        (fun l => (r.1, PathM.mk l.reverse r.2.distance))).isSome = true := by
    intro r hr
    obtain ⟨_, _, es0, _, _, htr, _⟩ := hsettled r hr
    rw [htr]
    rfl
  obtain ⟨out, hout, hlen, h1, h2⟩ := mapM_option_spec _ st.results hsome
  refine ⟨out, by rw [dijkstraFinish]; exact hout, ?_, ?_⟩
  · intro b hb
    obtain ⟨r, hr, hfr⟩ := h1 b hb
    obtain ⟨l0, hl0, hlb⟩ := Option.map_eq_some'.mp hfr
    obtain ⟨_, _, es0, hwk0, hwt0, htr0, _⟩ := hsettled r hr
    rw [htr0] at hl0
    have hl0' := Option.some_inj.mp hl0
    refine ⟨r, hr, ?_, ?_, es0, hwk0, hwt0, ?_⟩
    · rw [← hlb]
    · rw [← hlb]
    · rw [← hlb]
      show l0.reverse = _
      rw [← hl0', List.reverse_reverse]
  · intro r hr
    obtain ⟨b, hb, hfb⟩ := h2 r hr
    obtain ⟨l0, _, hlb⟩ := Option.map_eq_some'.mp hfb
    exact ⟨b, hb, by rw [← hlb], by rw [← hlb]⟩

/-- `DijkstraShortestPath::Run` is correct for any heap backend honouring
the heap laws: it succeeds, each produced path's distance is the weight of
its recorded vertex sequence, distances are minimal, and exactly the
reachable vertices appear. -/
theorem dijkstraRun_correct {σ : Type} (H : HeapImpl σ) (inv : σ → Prop)
    (view : σ → List (DistanceNode × Nat)) (laws : HeapLaws H inv view)
    (wg : WeightedGraph) (start fuel : Nat)
    (hwf : WFGraph wg.graph) (hw : WNonneg wg)
    (hstart : start < wg.graph.vertices.length)
    (hfuel : wg.graph.vertices.length + 1 ≤ fuel) :
    ∃ out, DijkstraRun H wg start fuel = some out ∧
      (∀ b ∈ out, ∃ es, WalkFrom wg.graph start es b.1 ∧
        walkWeight wg es = b.2.distance ∧
        b.2.vertices = start :: es.map Edge.to_vertex_id) ∧
      (∀ b ∈ out, ∀ es, WalkFrom wg.graph start es b.1 →
        b.2.distance ≤ walkWeight wg es) ∧
      (∀ v, (∃ b ∈ out, b.1 = v) ↔ ReachableG wg start v) := by
  have hstart_notin : start ∉ (view H.empty).map Prod.snd := by
    rw [laws.view_empty]
    exact List.not_mem_nil _
  obtain ⟨h1, hadd, hinv1, hperm1⟩ := laws.add_fresh H.empty laws.inv_empty
    ⟨start, 0⟩ start hstart_notin
  rw [laws.view_empty] at hperm1
  have hinv0 : DijkInv inv view wg start ⟨h1, [], []⟩ := by
    refine ⟨⟨hinv1, by simp, ?_, ?_, ?_, ?_, ?_, ?_⟩, ?_⟩
    · intro p hp
      have hps := List.mem_singleton.mp (hperm1.subset hp)
      rw [hps]
      exact ⟨rfl, rfl, le_refl 0, hstart⟩
    · intro p hp
      have hps := List.mem_singleton.mp (hperm1.subset hp)
      rw [hps]
      exact ⟨[], (walkFrom_nil _ _ _).mpr rfl, walkWeight_nil wg⟩
    · intro r hr
      exact absurd hr (List.not_mem_nil _)
    · intro r hr
      exact absurd hr (List.not_mem_nil _)
    · intro p hp hps
      have hpseed := List.mem_singleton.mp (hperm1.subset hp)
      apply absurd _ hps
      rw [hpseed]
    · intro _
      exact ⟨rfl, rfl, hperm1⟩
    · intro r hr
      exact absurd hr (List.not_mem_nil _)
  have hpot0 : dijkPotential wg view ⟨h1, [], []⟩ ≤ fuel := by
    show (view h1).length +
        (List.range wg.graph.vertices.length).countP
          (fun x => (alookup ([] : List (Nat × PathM)) x).isNone &&
            !((view h1).map Prod.snd).contains x) ≤ fuel
    have hl1 : (view h1).length = 1 := by
      rw [hperm1.length_eq]
      rfl
    have hc1 : (List.range wg.graph.vertices.length).countP
          (fun x => (alookup ([] : List (Nat × PathM)) x).isNone &&
            !((view h1).map Prod.snd).contains x) ≤
        (List.range wg.graph.vertices.length).length :=
      List.countP_le_length _
    rw [List.length_range] at hc1
    omega
  obtain ⟨st2, hloop, ⟨hcore2, hfront2⟩, hempty⟩ :=
    dijkstraLoop_spec H inv view laws wg start hwf hw fuel ⟨h1, [], []⟩
      hinv0 hpot0
  obtain ⟨out, hfin, hb1, hb2⟩ :=
    dijkstraFinish_spec inv view wg start st2 hcore2
  have hrun : DijkstraRun H wg start fuel = some out := by
    rw [DijkstraRun, hadd]
    show (match dijkstraLoop H wg fuel ⟨h1, [], []⟩ with
      | none => none
      | some st => dijkstraFinish st start) = some out
    rw [hloop]
    exact hfin
  obtain ⟨hinvh2, hnd2, hheap2, hreach2, hsettled2, hexact2, hprev2,
    hinit2⟩ := hcore2
  have hstart_settled : (alookup st2.results start).isSome = true := by
    cases hs : alookup st2.results start with
    | some _ => rfl
    | none =>
      obtain ⟨_, _, hseed⟩ := hinit2 hs
      rw [hempty] at hseed
      exact absurd (hseed.symm.subset (List.mem_singleton.mpr rfl))
        (List.not_mem_nil _)
  refine ⟨out, hrun, ?_, ?_, ?_⟩
  · intro b hb
    obtain ⟨r, hr, hb1', hb2', es0, hwk0, hwt0, hv0⟩ := hb1 b hb
    exact ⟨es0, by rw [hb1']; exact hwk0, by rw [hb2']; exact hwt0, hv0⟩
  · intro b hb es hwk
    obtain ⟨r, hr, hb1', hb2', _, _, _, _⟩ := hb1 b hb
    rw [hb1'] at hwk
    rw [hb2']
    exact hexact2 r hr es hwk
  · intro v
    constructor
    · intro ⟨b, hb, hbv⟩
      obtain ⟨r, hr, hb1', _, es0, hwk0, _, _⟩ := hb1 b hb
      exact ⟨es0, by rw [← hb1', hbv] at hwk0; exact hwk0⟩
    · intro ⟨es, hwk⟩
      have hv_settled : (alookup st2.results v).isSome = true := by
        by_cases hvs : v = start
        · rw [hvs]
          exact hstart_settled
        · by_contra hv
          obtain ⟨es1, e2, es2, a, heq, hw1, hSa, he2, hnS2, hw2⟩ :=
            walk_cut wg.graph
              (fun x => (alookup st2.results x).isSome = true)
              es start v hwk hstart_settled hv
          obtain ⟨pa, hpa⟩ := Option.isSome_iff_exists.mp hSa
          have hpa_mem : (a, pa) ∈ st2.results := alookup_mem _ _ _ hpa
          have hnone_t : alookup st2.results e2.to_vertex_id = none :=
            Option.not_isSome_iff_eq_none.mp hnS2
          obtain ⟨kx, hkx, _⟩ := hfront2 (a, pa) hpa_mem e2 he2 hnone_t
          rw [hempty] at hkx
          exact absurd hkx (List.not_mem_nil _)
      obtain ⟨pv, hpv⟩ := Option.isSome_iff_exists.mp hv_settled
      obtain ⟨b, hb, hbv, _⟩ := hb2 (v, pv) (alookup_mem _ _ _ hpv)
      exact ⟨b, hb, hbv⟩

theorem swo_dnLt : SWO dnLt := by
  refine ⟨?_, ?_, ?_⟩
  · intro a
    rw [dnLt]
    exact decide_eq_false (by omega)
  · intro a b c hab hbc
    rw [dnLt] at hab hbc
    rw [dnLt]
    have h1 := of_decide_eq_true hab
    have h2 := of_decide_eq_true hbc
    exact decide_eq_true (by omega)
  · intro a b c hab hbc
    rw [dnLt] at hab hbc
    rw [dnLt]
    have h1 := of_decide_eq_false hab
    have h2 := of_decide_eq_false hbc
    exact decide_eq_false (by omega)

theorem binInv_empty {α : Type u} (lt : α → α → Bool) :
    BinInv lt BinaryHeap.empty := by
  refine ⟨?_, ?_, ?_, ?_, ?_⟩
  · intro i x px _ hx _
    exact Option.noConfusion hx
  · intro i x hx
    exact Option.noConfusion hx
  · intro k j hkj
    exact Option.noConfusion hkj
  · exact List.nodup_nil
  · rfl

/-- The binary heap satisfies the abstract heap laws used by the Dijkstra
correctness proof. -/
theorem binHeapLaws : HeapLaws binHeapImpl (fun s => BinInv dnLt s)
    (fun s => s.elements) := by
  refine ⟨?_, ?_, ?_, ?_, ?_, ?_, ?_, ?_⟩
  · exact binInv_empty dnLt
  · rfl
  · intro s hinv
    exact binIds_nodup s hinv
  · intro s _
    rfl
  · intro s hinv id k
    constructor
    · intro hlk
      have hlk2 : BinaryHeap.LookUp s id = some k := hlk
      rw [BinaryHeap.LookUp] at hlk2
      cases hl : alookup s.key_to_index id with
      | none =>
        rw [hl] at hlk2
        exact Option.noConfusion hlk2
      | some j =>
        rw [hl] at hlk2
        have hlk3 : (s.elements[j]?).map Prod.fst = some k := hlk2
        obtain ⟨x, hx1, hx2⟩ := Option.map_eq_some'.mp hlk3
        obtain ⟨x3, hx31, hx32⟩ := hinv.2.2.1 id j hl
        rw [hx1] at hx31
        have hxx : x = x3 := Option.some_inj.mp hx31
        have hx2id : x.2 = id := by rw [hxx]; exact hx32
        have hxpair : x = (k, id) := by rw [← hx2, ← hx2id]
        rw [← hxpair]
        obtain ⟨hjl, hje⟩ := List.getElem?_eq_some_iff.mp hx1
        rw [← hje]
        exact List.getElem_mem hjl
    · intro hmem
      obtain ⟨i, hi⟩ := List.getElem?_of_mem hmem
      exact BinaryHeap.LookUp_of_getElem s hinv i (k, id) hi
  · intro s hinv k id hfresh
    have hfresh2 : alookup s.key_to_index id = none := by
      cases hl : alookup s.key_to_index id with
      | none => rfl
      | some j =>
        obtain ⟨x, hx1, hx2⟩ := hinv.2.2.1 id j hl
        exfalso
        apply hfresh
        obtain ⟨hjl, hje⟩ := List.getElem?_eq_some_iff.mp hx1
        refine List.mem_map.mpr ⟨x, ?_, hx2⟩
        rw [← hje]
        exact List.getElem_mem hjl
    exact BinaryHeap.Add_some_spec swo_dnLt s k id hinv hfresh2
  · intro s hinv k id cur hlk hdlt
    rcases BinaryHeap.ReduceValue_cases swo_dnLt s k id hinv with
      ⟨_, hcase⟩ | ⟨h2, index, cur0, hred, hidx, helem, hkey, hno, hinv2,
        hperm⟩
    · exfalso
      rcases hcase with hln | ⟨c, hlc, hlt⟩
      · have hlk2 : BinaryHeap.LookUp s id = some cur := hlk
        rw [hlk2] at hln
        exact Option.noConfusion hln
      · have hlk2 : BinaryHeap.LookUp s id = some cur := hlk
        have hc : c = cur := Option.some_inj.mp (hlc.symm.trans hlk2)
        rw [hc] at hlt
        have := SWO.asymm swo_dnLt k cur hdlt
        rw [this] at hlt
        exact Bool.noConfusion hlt
    · have hcur0 : cur0.1 = cur := by
        have hl2 := BinaryHeap.LookUp_of_getElem s hinv index cur0 helem
        rw [hkey] at hl2
        have hlk2 : BinaryHeap.LookUp s id = some cur := hlk
        exact Option.some_inj.mp (hl2.symm.trans hlk2)
      have hlen : index < s.elements.length :=
        (List.getElem?_eq_some_iff.mp helem).1
      have hget : s.elements[index] = cur0 :=
        (List.getElem?_eq_some_iff.mp helem).2
      have hc0 : cur0 = (cur, id) := by
        rw [← hcur0, ← hkey]
      refine ⟨h2, s.elements.take index ++ s.elements.drop (index + 1),
        hred, hinv2, ?_, ?_⟩
      · conv_lhs => rw [← List.take_append_drop index s.elements,
          List.drop_eq_getElem_cons hlen, hget]
        rw [← hc0]
        exact List.perm_middle
      · refine hperm.trans ?_
        rw [List.set_eq_take_cons_drop _ hlen, hkey]
        exact List.perm_middle
  · intro s hinv hne
    cases hel : s.elements with
    | nil => exact absurd hel hne
    | cons mn t =>
      obtain ⟨h2, hpop, hinv2, hperm⟩ :=
        BinaryHeap.PopMinimum_spec swo_dnLt s hinv mn t hel
      refine ⟨mn, h2, hpop, hinv2, ?_, ?_⟩
      · exact hperm.cons mn
      · intro x hx
        have hord : HeapOrdered dnLt (mn :: t) := by
          rw [← hel]
          exact hinv.1
        obtain ⟨i, hi⟩ := List.getElem?_of_mem hx
        exact heapOrdered_min swo_dnLt hord mn List.getElem?_cons_zero i x hi

/-! ### Helper instances for the claim theorems -/

theorem swo_intLt : SWO intLt := by
  refine ⟨?_, ?_, ?_⟩
  · intro a
    rw [intLt]
    exact decide_eq_false (by omega)
  · intro a b c hab hbc
    rw [intLt] at hab hbc
    rw [intLt]
    have h1 := of_decide_eq_true hab
    have h2 := of_decide_eq_true hbc
    exact decide_eq_true (by omega)
  · intro a b c hab hbc
    rw [intLt] at hab hbc
    rw [intLt]
    have h1 := of_decide_eq_false hab
    have h2 := of_decide_eq_false hbc
    exact decide_eq_false (by omega)

theorem binomInv_empty {α : Type u} (lt : α → α → Bool) :
    BinomInv lt BinomialHeap.empty := by
  refine ⟨⟨?_, ?_⟩, ?_, ?_, ?_⟩
  · intro n hn
    exact absurd hn (List.not_mem_nil _)
  · rfl
  · intro n hn
    exact absurd hn (List.not_mem_nil _)
  · exact List.Perm.nil
  · exact List.nodup_nil

theorem binMin_eq_pop {α : Type u} (lt : α → α → Bool) (h : BinaryHeap α) :
    h.Min = (h.PopMinimum lt).map Prod.fst := by
  obtain ⟨el, kti⟩ := h
  cases el with
  | nil => rfl
  | cons mn t =>
    cases t with
    | nil => rfl
    | cons r rs => rfl

/-! ### Pairing heap lemmas -/

theorem phOrdered_mk {α : Type u} (lt : α → α → Bool) (v : α) (k : Nat)
    (ch : List (PairingHeapNode α)) :
    phOrdered lt (PairingHeapNode.mk v k ch) = true ↔
      ∀ c ∈ ch, lt c.value v = false ∧ phOrdered lt c = true := by
  rw [phOrdered]
  simp only [List.all_eq_true, List.mem_attach, true_implies,
    Bool.and_eq_true, Bool.not_eq_true']
  constructor
  · intro h c hc
    exact h ⟨c, hc⟩
  · intro h c
    exact h c.1 c.2

theorem phPairs_mk {α : Type u} (v : α) (k : Nat)
    (ch : List (PairingHeapNode α)) :
    phPairs (PairingHeapNode.mk v k ch) =
      (v, k) :: (ch.map phPairs).flatten := by
  rw [phPairs]
  rw [List.attach_map_coe]

theorem phPairs_eq {α : Type u} (r : PairingHeapNode α) :
    phPairs r = (r.value, r.key) :: (r.children.map phPairs).flatten := by
  cases r with
  | mk v k ch =>
    rw [phPairs_mk]
    rfl

/-- The value at the root of an ordered pairing tree is minimal. -/
theorem phOrdered_pairs {α : Type u} {lt : α → α → Bool} (hswo : SWO lt)
    (n : PairingHeapNode α) (hord : phOrdered lt n = true) :
    ∀ p ∈ phPairs n, lt p.1 n.value = false := by
  induction n using phPairs.induct with
  | _ v k ch ih =>
    rw [phOrdered_mk] at hord
    intro p hp
    rw [phPairs_mk] at hp
    simp only [PairingHeapNode.value]
    rcases List.mem_cons.mp hp with h | h
    · subst h
      exact hswo.irrefl v
    · obtain ⟨l2, hl2, hpl⟩ := List.mem_flatten.mp h
      obtain ⟨c, hc, rfl⟩ := List.mem_map.mp hl2
      have hc2 : lt p.1 c.value = false := ih ⟨c, hc⟩ (hord c hc).2 p hpl
      exact hswo.negTrans _ _ _ hc2 (hord c hc).1

theorem phPairs_addChild {α : Type u} (n c : PairingHeapNode α) :
    (phPairs (n.AddChild c)).Perm (phPairs n ++ phPairs c) := by
  cases n with
  | mk v k ch =>
    simp only [PairingHeapNode.AddChild, PairingHeapNode.value,
      PairingHeapNode.key, PairingHeapNode.children]
    rw [phPairs_mk, List.map_cons, List.flatten_cons, phPairs_mk]
    show ((v, k) :: (phPairs c ++ (ch.map phPairs).flatten)).Perm
      ((v, k) :: ((ch.map phPairs).flatten ++ phPairs c))
    exact List.Perm.cons _ List.perm_append_comm

theorem phOrdered_addChild {α : Type u} (lt : α → α → Bool)
    (n c : PairingHeapNode α) (hn : phOrdered lt n = true)
    (hc : phOrdered lt c = true) (hle : lt c.value n.value = false) :
    phOrdered lt (n.AddChild c) = true := by
  cases n with
  | mk v k ch =>
    simp only [PairingHeapNode.value] at hle
    simp only [PairingHeapNode.AddChild, PairingHeapNode.value,
      PairingHeapNode.key, PairingHeapNode.children]
    rw [phOrdered_mk]
    intro d hd
    rcases List.mem_cons.mp hd with heq | hdm
    · subst heq
      exact ⟨hle, hc⟩
    · exact (phOrdered_mk lt v k ch).mp hn d hdm

/-- `MergeTrees` preserves heap order and the payload multiset. -/
theorem phMergeTrees_spec {α : Type u} {lt : α → α → Bool} (hswo : SWO lt)
    (a b : PairingHeapNode α) (hoa : phOrdered lt a = true)
    (hob : phOrdered lt b = true) :
    phOrdered lt (PairingHeapNode.MergeTrees lt a b) = true ∧
    (phPairs (PairingHeapNode.MergeTrees lt a b)).Perm
      (phPairs a ++ phPairs b) := by
  rw [PairingHeapNode.MergeTrees]
  by_cases hlt : lt a.value b.value = true
  · rw [if_pos hlt]
    exact ⟨phOrdered_addChild lt a b hoa hob (SWO.asymm hswo _ _ hlt),
      phPairs_addChild a b⟩
  · rw [if_neg hlt]
    have hf : lt a.value b.value = false := by
      cases h2 : lt a.value b.value with
      | false => rfl
      | true => exact absurd h2 hlt
    exact ⟨phOrdered_addChild lt b a hob hoa hf,
      (phPairs_addChild b a).trans List.perm_append_comm⟩

theorem phPass1_spec {α : Type u} {lt : α → α → Bool} (hswo : SWO lt) :
    ∀ (l acc : List (PairingHeapNode α)),
      (∀ n ∈ acc, phOrdered lt n = true) →
      (∀ n ∈ l, phOrdered lt n = true) →
      (∀ n ∈ phPass1 lt acc l, phOrdered lt n = true) ∧
      ((phPass1 lt acc l).map phPairs).flatten.Perm
        ((acc.map phPairs).flatten ++ (l.map phPairs).flatten) := by
  intro l acc
  induction acc, l using phPass1.induct lt with
  | case1 acc =>
    intro hacc _
    exact ⟨hacc, by simp [phPass1]⟩
  | case2 acc a =>
    intro hacc hl
    refine ⟨?_, ?_⟩
    · intro n hn
      rcases List.mem_cons.mp hn with heq | hnm
      · subst heq
        exact hl n (List.mem_cons_self _ _)
      · exact hacc n hnm
    · rw [List.map_cons, List.flatten_cons]
      show (phPairs a ++ (acc.map phPairs).flatten).Perm _
      refine List.perm_append_comm.trans ?_
      simp
  | case3 acc a b rest ih =>
    intro hacc hl
    have hoa := hl a (List.mem_cons_self _ _)
    have hob := hl b (List.mem_cons_of_mem _ (List.mem_cons_self _ _))
    obtain ⟨hom, hpm⟩ := phMergeTrees_spec hswo a b hoa hob
    have hacc2 : ∀ n ∈ PairingHeapNode.MergeTrees lt a b :: acc,
        phOrdered lt n = true := by
      intro n hn
      rcases List.mem_cons.mp hn with heq | hnm
      · subst heq
        exact hom
      · exact hacc n hnm
    have hl2 : ∀ n ∈ rest, phOrdered lt n = true :=
      fun n hn => hl n (List.mem_cons_of_mem _ (List.mem_cons_of_mem _ hn))
    obtain ⟨h1, h2⟩ := ih hacc2 hl2
    refine ⟨h1, ?_⟩
    refine h2.trans ?_
    rw [List.map_cons, List.flatten_cons]
    rw [List.map_cons, List.map_cons, List.flatten_cons, List.flatten_cons]
    refine ((hpm.append_right _).append_right _).trans ?_
    refine (List.perm_append_comm.append_right _).trans ?_
    rw [List.append_assoc, List.append_assoc]

theorem phPass2_spec {α : Type u} {lt : α → α → Bool} (hswo : SWO lt) :
    ∀ (l : List (PairingHeapNode α)) (m : PairingHeapNode α),
      phOrdered lt m = true →
      (∀ n ∈ l, phOrdered lt n = true) →
      phOrdered lt (phPass2 lt m l) = true ∧
      (phPairs (phPass2 lt m l)).Perm
        (phPairs m ++ (l.map phPairs).flatten) := by
  intro l
  induction l with
  | nil =>
    intro m hm _
    exact ⟨hm, by simp [phPass2]⟩
  | cons a rest ih =>
    intro m hm hl
    have hoa := hl a (List.mem_cons_self _ _)
    obtain ⟨hom, hpm⟩ := phMergeTrees_spec hswo a m hoa hm
    have hl2 : ∀ n ∈ rest, phOrdered lt n = true :=
      fun n hn => hl n (List.mem_cons_of_mem _ hn)
    obtain ⟨h1, h2⟩ := ih (PairingHeapNode.MergeTrees lt a m) hom hl2
    refine ⟨h1, ?_⟩
    rw [show phPass2 lt m (a :: rest) =
      phPass2 lt (PairingHeapNode.MergeTrees lt a m) rest from rfl]
    refine h2.trans ?_
    rw [List.map_cons, List.flatten_cons]
    refine (hpm.append_right _).trans ?_
    show ((phPairs a ++ phPairs m) ++ (rest.map phPairs).flatten).Perm
      (phPairs m ++ (phPairs a ++ (rest.map phPairs).flatten))
    refine (List.perm_append_comm.append_right _).trans ?_
    rw [List.append_assoc]

theorem phPass1_ne_nil {α : Type u} (lt : α → α → Bool) :
    ∀ (l acc : List (PairingHeapNode α)), acc ≠ [] ∨ l ≠ [] →
      phPass1 lt acc l ≠ [] := by
  intro l acc
  induction acc, l using phPass1.induct lt with
  | case1 acc =>
    intro h
    rcases h with h | h
    · exact h
    · exact absurd rfl h
  | case2 acc a =>
    intro _
    exact List.cons_ne_nil _ _
  | case3 acc a b rest ih =>
    intro _
    exact ih (Or.inl (List.cons_ne_nil _ _))

/-- `MergeTreeList` of a non-empty ordered forest produces one ordered
tree carrying every payload; of the empty forest, `none`. -/
theorem phMergeTreeList_spec {α : Type u} {lt : α → α → Bool}
    (hswo : SWO lt) (l : List (PairingHeapNode α))
    (hl : ∀ n ∈ l, phOrdered lt n = true) (hne : l ≠ []) :
    ∃ m, PairingHeapNode.MergeTreeList lt l = some m ∧
      phOrdered lt m = true ∧
      (phPairs m).Perm (l.map phPairs).flatten := by
  obtain ⟨h1, h2⟩ := phPass1_spec hswo l []
    (fun n hn => absurd hn (List.not_mem_nil _)) hl
  have hne2 := phPass1_ne_nil lt l [] (Or.inr hne)
  cases hp : phPass1 lt [] l with
  | nil => exact absurd hp hne2
  | cons m rest =>
    rw [hp] at h1 h2
    obtain ⟨h3, h4⟩ := phPass2_spec hswo rest m
      (h1 m (List.mem_cons_self _ _))
      (fun n hn => h1 n (List.mem_cons_of_mem _ hn))
    refine ⟨phPass2 lt m rest, ?_, h3, ?_⟩
    · rw [PairingHeapNode.MergeTreeList, hp]
    · refine h4.trans ?_
      exact h2

theorem phAdd_spec {α : Type u} {lt : α → α → Bool} (hswo : SWO lt)
    (h : PairingHeap α) (value : α) (key : Nat)
    (hord : ∀ r, h.root = some r → phOrdered lt r = true)
    (hfresh : key ∉ h.keys) :
    ∃ h2, h.Add lt value key = some h2 ∧
      (∀ r, h2.root = some r → phOrdered lt r = true) ∧
      (phHeapPairs h2).Perm ((value, key) :: phHeapPairs h) ∧
      h2.keys = key :: h.keys := by
  have hsingle : phOrdered lt (PairingHeapNode.mk value key []) = true := by
    rw [phOrdered_mk]
    intro c hc
    exact absurd hc (List.not_mem_nil _)
  cases hr : h.root with
  | none =>
    refine ⟨⟨some (PairingHeapNode.mk value key []), key :: h.keys⟩,
      ?_, ?_, ?_, rfl⟩
    · rw [PairingHeap.Add, if_neg hfresh, hr]
    · intro r hr2
      have := Option.some_inj.mp hr2
      rw [← this]
      exact hsingle
    · show (phPairs (PairingHeapNode.mk value key [])).Perm _
      rw [phPairs_mk, phHeapPairs, hr]
      simp
  | some r =>
    obtain ⟨hom, hpm⟩ := phMergeTrees_spec hswo r
      (PairingHeapNode.mk value key []) (hord r hr) hsingle
    refine ⟨⟨some (PairingHeapNode.MergeTrees lt r
      (PairingHeapNode.mk value key [])), key :: h.keys⟩, ?_, ?_, ?_, rfl⟩
    · rw [PairingHeap.Add, if_neg hfresh, hr]
    · intro r2 hr2
      have := Option.some_inj.mp hr2
      rw [← this]
      exact hom
    · show (phPairs (PairingHeapNode.MergeTrees lt r
        (PairingHeapNode.mk value key []))).Perm _
      rw [phHeapPairs, hr]
      refine hpm.trans ?_
      rw [phPairs_mk]
      show (phPairs r ++ [(value, key)]).Perm ((value, key) :: phPairs r)
      exact List.perm_append_comm

theorem phPop_spec {α : Type u} {lt : α → α → Bool} (hswo : SWO lt)
    (h : PairingHeap α) (r : PairingHeapNode α) (hr : h.root = some r)
    (hord : ∀ r2, h.root = some r2 → phOrdered lt r2 = true) :
    ∃ h2, h.PopMinimum lt = some ((r.value, r.key), h2) ∧
      (∀ r2, h2.root = some r2 → phOrdered lt r2 = true) ∧
      ((r.value, r.key) :: phHeapPairs h2).Perm (phHeapPairs h) ∧
      (∀ p ∈ phHeapPairs h, lt p.1 r.value = false) := by
  have hordr := hord r hr
  have hmin := phOrdered_pairs hswo r hordr
  cases hch : r.children with
  | nil =>
    refine ⟨⟨PairingHeapNode.MergeTreeList lt r.children, h.keys.erase r.key⟩,
      ?_, ?_, ?_, ?_⟩
    · rw [PairingHeap.PopMinimum, hr]
    · intro r2 hr2
      rw [hch] at hr2
      exact Option.noConfusion (show (none : Option (PairingHeapNode α)) =
        some r2 from hr2)
    · show ((r.value, r.key) :: phHeapPairs
        ⟨PairingHeapNode.MergeTreeList lt r.children, h.keys.erase r.key⟩).Perm _
      rw [phHeapPairs, phHeapPairs, hr, hch]
      show ((r.value, r.key) :: []).Perm (phPairs r)
      rw [phPairs_eq, hch]
      exact List.Perm.refl _
    · intro p hp
      rw [phHeapPairs, hr] at hp
      exact hmin p hp
  | cons c cs =>
    obtain ⟨m, hml, hom, hpm⟩ := phMergeTreeList_spec hswo r.children
      (by
        intro n hn
        cases r with
        | mk v k ch =>
          rw [phOrdered_mk] at hordr
          simp only [PairingHeapNode.children] at hn
          exact (hordr n hn).2)
      (by rw [hch]; exact List.cons_ne_nil _ _)
    refine ⟨⟨PairingHeapNode.MergeTreeList lt r.children, h.keys.erase r.key⟩,
      ?_, ?_, ?_, ?_⟩
    · rw [PairingHeap.PopMinimum, hr]
    · intro r2 hr2
      rw [hml] at hr2
      have := Option.some_inj.mp hr2
      rw [← this]
      exact hom
    · show ((r.value, r.key) :: phHeapPairs
        ⟨PairingHeapNode.MergeTreeList lt r.children, h.keys.erase r.key⟩).Perm _
      rw [phHeapPairs, phHeapPairs, hml, hr]
      show ((r.value, r.key) :: phPairs m).Perm (phPairs r)
      refine (List.Perm.cons _ hpm).trans ?_
      show ((r.value, r.key) :: (r.children.map phPairs).flatten).Perm
        (phPairs r)
      rw [phPairs_eq]
    · intro p hp
      rw [phHeapPairs, hr] at hp
      exact hmin p hp

theorem phAddAll_spec {α : Type u} {lt : α → α → Bool} (hswo : SWO lt) :
    ∀ (l : List (α × Nat)) (h : PairingHeap α),
      (∀ r, h.root = some r → phOrdered lt r = true) →
      (∀ p ∈ l, p.2 ∉ h.keys) → (l.map Prod.snd).Nodup →
      ∃ h2, phAddAll lt h l = some h2 ∧
        (∀ r, h2.root = some r → phOrdered lt r = true) ∧
        (phHeapPairs h2).Perm (phHeapPairs h ++ l) := by
  intro l
  induction l with
  | nil =>
    intro h hord _ _
    exact ⟨h, rfl, hord, by simp⟩
  | cons p rest ih =>
    intro h hord hfresh hnd
    obtain ⟨h3, heq, hord3, hperm3, hkeys3⟩ := phAdd_spec hswo h p.1 p.2
      hord (hfresh p (List.mem_cons_self _ _))
    rw [List.map_cons, List.nodup_cons] at hnd
    have hfresh2 : ∀ q ∈ rest, q.2 ∉ h3.keys := by
      intro q hq hmem
      rw [hkeys3] at hmem
      rcases List.mem_cons.mp hmem with h2 | h2
      · exact hnd.1 (h2 ▸ List.mem_map_of_mem Prod.snd hq)
      · exact hfresh q (List.mem_cons_of_mem _ hq) h2
    obtain ⟨h2, hrun, hord2, hperm2⟩ := ih h3 hord3 hfresh2 hnd.2
    have hstep : phAddAll lt h (p :: rest) = phAddAll lt h3 rest := by
      unfold phAddAll
      rw [List.foldl_cons]
      simp only [Option.some_bind, heq]
    refine ⟨h2, by rw [hstep]; exact hrun, hord2, ?_⟩
    refine hperm2.trans ?_
    refine (List.Perm.append_right rest hperm3).trans ?_
    exact List.perm_middle.symm

theorem phPopAll_spec {α : Type u} {lt : α → α → Bool} (hswo : SWO lt) :
    ∀ (fuel : Nat) (h : PairingHeap α),
      (∀ r, h.root = some r → phOrdered lt r = true) →
      (phHeapPairs h).length ≤ fuel →
      (phPopAll lt h fuel).Perm (phHeapPairs h) ∧
      List.Pairwise (fun a b : α × Nat => lt b.1 a.1 = false)
        (phPopAll lt h fuel) := by
  intro fuel
  induction fuel with
  | zero =>
    intro h hord hlen
    have hemp : phHeapPairs h = [] := List.length_eq_zero.mp (by omega)
    rw [show phPopAll lt h 0 = [] from rfl, hemp]
    exact ⟨List.Perm.nil, List.Pairwise.nil⟩
  | succ fuel ih =>
    intro h hord hlen
    cases hr : h.root with
    | none =>
      have hnone : h.PopMinimum lt = none := by
        rw [PairingHeap.PopMinimum, hr]
      rw [phPopAll, hnone]
      have hemp : phHeapPairs h = [] := by
        rw [phHeapPairs, hr]
      rw [hemp]
      exact ⟨List.Perm.nil, List.Pairwise.nil⟩
    | some r =>
      obtain ⟨h2, heq, hord2, hperm, hmin⟩ := phPop_spec hswo h r hr hord
      rw [phPopAll, heq]
      show ((r.value, r.key) :: phPopAll lt h2 fuel).Perm (phHeapPairs h) ∧
        List.Pairwise (fun a b : α × Nat => lt b.1 a.1 = false)
          ((r.value, r.key) :: phPopAll lt h2 fuel)
      have hlen2 : (phHeapPairs h2).length ≤ fuel := by
        have := hperm.length_eq
        rw [List.length_cons] at this
        omega
      obtain ⟨hpa, hpb⟩ := ih h2 hord2 hlen2
      constructor
      · exact (List.Perm.cons _ hpa).trans hperm
      · refine List.Pairwise.cons ?_ hpb
        intro y hy
        have hym : y ∈ phHeapPairs h :=
          hperm.mem_iff.mp (List.mem_cons_of_mem _ (hpa.mem_iff.mp hy))
        exact hmin y hym

theorem phMin_eq_pop {α : Type u} (lt : α → α → Bool) (h : PairingHeap α) :
    h.Min = (h.PopMinimum lt).map Prod.fst := by
  obtain ⟨root, keys⟩ := h
  cases root with
  | none => rfl
  | some r => rfl

/-! ## Claim theorems -/

/-- C1: for every directed graph with non-negative edge weights and every
heap backend (any `HeapImpl` satisfying the heap laws), `
DijkstraShortestPath::Run` started at `start` returns a map in which (a)
each path's recorded distance equals the sum of the weights of the edges
along its vertex sequence, (b) that distance is minimal over all paths
from `start` to that vertex, and (c) a vertex appears in the map if and
only if it is reachable from `start`. -/
theorem C1_dijkstra_run_correct {σ : Type} (H : HeapImpl σ) (inv : σ → Prop)
    (view : σ → List (DistanceNode × Nat)) (laws : HeapLaws H inv view)
    (wg : WeightedGraph) (start fuel : Nat)
    (hwf : WFGraph wg.graph) (hw : WNonneg wg)
    (hstart : start < wg.graph.vertices.length)
    (hfuel : wg.graph.vertices.length + 1 ≤ fuel) :
    ∃ out, DijkstraRun H wg start fuel = some out ∧
      (∀ b ∈ out, ∃ es, WalkFrom wg.graph start es b.1 ∧
        walkWeight wg es = b.2.distance ∧
        b.2.vertices = start :: es.map Edge.to_vertex_id) ∧
      (∀ b ∈ out, ∀ es, WalkFrom wg.graph start es b.1 →
        b.2.distance ≤ walkWeight wg es) ∧
      (∀ v, (∃ b ∈ out, b.1 = v) ↔ ReachableG wg start v) :=
  dijkstraRun_correct H inv view laws wg start fuel hwf hw hstart hfuel

theorem C1_dijkstra_run_correct_witness :
    ∃ out, DijkstraRun binHeapImpl g1 0 5 = some out ∧
      (∀ b ∈ out, ∃ es, WalkFrom g1.graph 0 es b.1 ∧
        walkWeight g1 es = b.2.distance ∧
        b.2.vertices = 0 :: es.map Edge.to_vertex_id) ∧
      (∀ b ∈ out, ∀ es, WalkFrom g1.graph 0 es b.1 →
        b.2.distance ≤ walkWeight g1 es) ∧
      (∀ v, (∃ b ∈ out, b.1 = v) ↔ ReachableG g1 0 v) :=
  C1_dijkstra_run_correct binHeapImpl _ _ binHeapLaws g1 0 5
    (by
      constructor
      · intro i h
        have h4 : i < 4 := h
        interval_cases i <;> rfl
      · decide)
    (WNonneg_of_entries g1 (by decide) (by decide))
    (by decide) (by decide)

/-- C10: during any run of `DijkstraShortestPath::Run` on a graph with
non-negative edge weights, every call into the heap satisfies the heap's
preconditions and the `CHECK(total_distance >= 0)` holds — the model
returns `none` whenever one of those error branches is taken, so success
of the whole run shows they are unreachable. -/
theorem C10_dijkstra_heap_calls_ok {σ : Type} (H : HeapImpl σ)
    (inv : σ → Prop) (view : σ → List (DistanceNode × Nat))
    (laws : HeapLaws H inv view) (wg : WeightedGraph) (start fuel : Nat)
    (hwf : WFGraph wg.graph) (hw : WNonneg wg)
    (hstart : start < wg.graph.vertices.length)
    (hfuel : wg.graph.vertices.length + 1 ≤ fuel) :
    (DijkstraRun H wg start fuel).isSome = true := by
  obtain ⟨out, hrun, _⟩ :=
    dijkstraRun_correct H inv view laws wg start fuel hwf hw hstart hfuel
  rw [hrun]
  rfl

theorem C10_dijkstra_heap_calls_ok_witness :
    (DijkstraRun binHeapImpl g1 0 5).isSome = true :=
  C10_dijkstra_heap_calls_ok binHeapImpl _ _ binHeapLaws g1 0 5
    (by
      constructor
      · intro i h
        have h4 : i < 4 := h
        interval_cases i <;> rfl
      · decide)
    (WNonneg_of_entries g1 (by decide) (by decide))
    (by decide) (by decide)

/-- C2: for the binary, binomial and pairing heaps, after `Add`-ing any
finite sequence of `(key, id)` pairs with pairwise-distinct ids into an
empty heap and then calling `PopMinimum` until empty, the popped
sequence of keys is non-decreasing (no later key is less than an earlier
one) and the popped multiset of pairs is exactly the inserted
multiset. -/
theorem C2_sorting_law {α : Type u} (lt : α → α → Bool) (hswo : SWO lt)
    (l : List (α × Nat)) (hnd : (l.map Prod.snd).Nodup) :
    (∃ hb, binAddAll lt BinaryHeap.empty l = some hb ∧
      (binPopAll lt hb l.length).Perm l ∧
      List.Pairwise (fun a b : HeapElement α => lt b.1 a.1 = false)
        (binPopAll lt hb l.length)) ∧
    (∃ ho, binomAddAll lt BinomialHeap.empty l = some ho ∧
      (binomPopAll lt ho l.length).Perm l ∧
      List.Pairwise (fun a b : α × Nat => lt b.1 a.1 = false)
        (binomPopAll lt ho l.length)) ∧
    (∃ hp, phAddAll lt PairingHeap.empty l = some hp ∧
      (phPopAll lt hp l.length).Perm l ∧
      List.Pairwise (fun a b : α × Nat => lt b.1 a.1 = false)
        (phPopAll lt hp l.length)) := by
  refine ⟨?_, ?_, ?_⟩
  · obtain ⟨hb, heq, hinv, hperm⟩ := binAddAll_spec hswo l BinaryHeap.empty
      (binInv_empty lt) (fun p _ => List.not_mem_nil p.2) hnd
    have hperm2 : hb.elements.Perm l := hperm
    have hlen : hb.elements.length ≤ l.length := by
      rw [hperm2.length_eq]
    obtain ⟨hp, hpw⟩ := binPopAll_spec hswo l.length hb hinv hlen
    exact ⟨hb, heq, hp.trans hperm2, hpw⟩
  · obtain ⟨ho, heq, hinv, hperm⟩ := binomAddAll_spec hswo l
      BinomialHeap.empty (binomInv_empty lt)
      (fun p _ => List.not_mem_nil p.2) hnd
    have hperm2 : (bnForestPairs ho.root).Perm l := hperm
    have hsz : ho.size ≤ l.length := by
      show ho.ids.length ≤ l.length
      rw [hinv.2.2.1.length_eq]
      have h3 : (bnForestIds ho.root).length =
          (bnForestPairs ho.root).length := by
        show ((bnForestPairs ho.root).map Prod.snd).length = _
        rw [List.length_map]
      rw [h3, hperm2.length_eq]
    obtain ⟨hp, hpw⟩ := binomPopAll_spec hswo l.length ho hinv hsz
    exact ⟨ho, heq, hp.trans hperm2, hpw⟩
  · obtain ⟨hph, heq, hord, hperm⟩ := phAddAll_spec hswo l
      PairingHeap.empty
      (fun r hr => Option.noConfusion hr)
      (fun p _ => List.not_mem_nil p.2) hnd
    have hperm2 : (phHeapPairs hph).Perm l := hperm
    have hlen : (phHeapPairs hph).length ≤ l.length := by
      rw [hperm2.length_eq]
    obtain ⟨hp, hpw⟩ := phPopAll_spec hswo l.length hph hord hlen
    exact ⟨hph, heq, hp.trans hperm2, hpw⟩

theorem C2_sorting_law_witness :
    (∃ hb, binAddAll intLt BinaryHeap.empty [(5, 0), (1, 1), (3, 2)] =
        some hb ∧
      (binPopAll intLt hb 3).Perm [(5, 0), (1, 1), (3, 2)] ∧
      List.Pairwise (fun a b : HeapElement Int => intLt b.1 a.1 = false)
        (binPopAll intLt hb 3)) ∧
    (∃ ho, binomAddAll intLt BinomialHeap.empty [(5, 0), (1, 1), (3, 2)] =
        some ho ∧
      (binomPopAll intLt ho 3).Perm [(5, 0), (1, 1), (3, 2)] ∧
      List.Pairwise (fun a b : Int × Nat => intLt b.1 a.1 = false)
        (binomPopAll intLt ho 3)) ∧
    (∃ hp, phAddAll intLt PairingHeap.empty [(5, 0), (1, 1), (3, 2)] =
        some hp ∧
      (phPopAll intLt hp 3).Perm [(5, 0), (1, 1), (3, 2)] ∧
      List.Pairwise (fun a b : Int × Nat => intLt b.1 a.1 = false)
        (phPopAll intLt hp 3)) :=
  C2_sorting_law intLt swo_intLt [(5, 0), (1, 1), (3, 2)] (by decide)

/-- C3 (corrected): the two cited decrease-key implementations behave
differently on a violated precondition.  `BinaryHeap::ReduceValue` always
aborts (`CHECK`), modelled as `none`, when the id is absent or the new
key is greater than the stored one.  `BinomialHeap::ReduceKey` performs
no check at all: on a reachable two-element heap, reducing id 0 to a
larger key succeeds silently and leaves a heap violating the heap-order
invariant of §3 — it does silently corrupt state. -/
theorem C3_reduce_violation_behavior :
    (∀ (h : BinaryHeap Int) (new_value : Int) (key : Nat),
      BinInv intLt h →
      (h.LookUp key = none ∨
        ∃ c, h.LookUp key = some c ∧ intLt c new_value = true) →
      h.ReduceValue intLt new_value key = none) ∧
    (∃ hb : BinomialHeap Int,
      binomAddAll intLt BinomialHeap.empty [(1, 0), (2, 1)] = some hb ∧
      BinomInv intLt hb ∧
      (∃ c, hb.LookUp 0 = some c ∧ intLt c 5 = true) ∧
      ¬ ((hb.ReduceKey intLt 5 0).root.all
        (fun n => bnOrdered intLt n) = true)) := by
  constructor
  · intro h new_value key hinv hviol
    rcases BinaryHeap.ReduceValue_cases swo_intLt h new_value key hinv with
      ⟨hn, _⟩ | ⟨h2, index, cur0, hred, hidx, helem, hkey, hno, _, _⟩
    · exact hn
    · exfalso
      have hl2 := BinaryHeap.LookUp_of_getElem h hinv index cur0 helem
      rw [hkey] at hl2
      rcases hviol with hnone | ⟨c, hlc, hlt⟩
      · rw [hl2] at hnone
        exact Option.noConfusion hnone
      · have hc : c = cur0.1 := Option.some_inj.mp (hlc.symm.trans hl2)
        rw [hc, hno] at hlt
        exact Bool.noConfusion hlt
  · refine ⟨BinomialHeap.mk
      [BinomialHeapNode.mk 1 0 1 [BinomialHeapNode.mk 2 1 0 []]] [1, 0],
      ?_, ⟨⟨?_, ?_⟩, ?_, ?_, ?_⟩, ⟨1, ?_, by decide⟩, ?_⟩
    · simp [binomAddAll, BinomialHeap.Add, BinomialHeap.empty, ainsertNew,
        BinomialHeapNode.AddToTreeList, BinomialHeapNode.MergeTrees, intLt,
        BinomialHeapNode.key, BinomialHeapNode.id,
        BinomialHeapNode.dimension, BinomialHeapNode.children]
    · intro n hn
      rw [List.mem_singleton] at hn
      subst hn
      simp [bnValidate, BinomialHeapNode.dimension]
      decide
    · simp [bnAscending]
    · intro n hn
      rw [List.mem_singleton] at hn
      subst hn
      simp [bnOrdered, intLt, BinomialHeapNode.key]
    · show ([1, 0] : List Nat).Perm _
      have h : bnForestIds [BinomialHeapNode.mk (1 : Int) 0 1
          [BinomialHeapNode.mk 2 1 0 []]] = [0, 1] := by
        simp [bnForestIds, bnForestPairs, bnPairs, BinomialHeapNode.key,
          BinomialHeapNode.id, BinomialHeapNode.children]
      rw [h]
      decide
    · decide
    · simp [BinomialHeap.LookUp, bnFindList, bnFindNode,
        BinomialHeapNode.id, BinomialHeapNode.key,
        BinomialHeapNode.children]
    · intro hcon
      have h2 : ((BinomialHeap.mk
          [BinomialHeapNode.mk (1 : Int) 0 1 [BinomialHeapNode.mk 2 1 0 []]]
          [1, 0]).ReduceKey intLt 5 0).root.all
            (fun n => bnOrdered intLt n) = false := by
        simp [BinomialHeap.ReduceKey, BinomialHeap.ReduceKey.bnSiftRoots,
          bnSiftNode, bnSiftList, bnReplaceRootPayload, bnFindNode,
          bnFindList, bnOrdered, intLt, BinomialHeapNode.key,
          BinomialHeapNode.id, BinomialHeapNode.dimension,
          BinomialHeapNode.children]
      rw [hcon] at h2
      exact Bool.noConfusion h2

/-- C3 counterexample: on the binomial heap holding keys 1 (id 0) and
2 (id 1) in one rank-1 tree, `ReduceKey(5, 0)` violates the
precondition (5 > 1) yet aborts nothing and leaves a tree whose root
key 5 exceeds its child's key 2: the heap-order check fails. -/
theorem C3_counterexample :
    ((BinomialHeap.mk
        [BinomialHeapNode.mk (1 : Int) 0 1 [BinomialHeapNode.mk 2 1 0 []]]
        [1, 0]).ReduceKey intLt 5 0).root.all
      (fun n => bnOrdered intLt n) = false ∧
    (BinomialHeap.mk
        [BinomialHeapNode.mk (1 : Int) 0 1 [BinomialHeapNode.mk 2 1 0 []]]
        [1, 0]).LookUp 0 = some 1 ∧
    intLt 1 5 = true := by
  refine ⟨?_, ?_, by decide⟩
  · simp [BinomialHeap.ReduceKey, BinomialHeap.ReduceKey.bnSiftRoots,
      bnSiftNode, bnSiftList, bnReplaceRootPayload, bnFindNode, bnFindList,
      bnOrdered, intLt, BinomialHeapNode.key, BinomialHeapNode.id,
      BinomialHeapNode.dimension, BinomialHeapNode.children]
  · simp [BinomialHeap.LookUp, bnFindList, bnFindNode,
      BinomialHeapNode.id, BinomialHeapNode.key, BinomialHeapNode.children]

/-- C4 (corrected): in `FibonacciHeap::ReduceKey`, when the decreased
node has a parent and the new key violates heap order, the node is cut
and moved to the root list — but its mark bit is *kept*, not cleared:
the moved node reappears as a root carrying its previous mark. -/
theorem C4_fib_cut_keeps_mark {α : Type u} (lt : α → α → Bool)
    (h : FibHeap α) (k : α) (id : Nat) (q : FibNode α)
    (hq : fibParentList id h.roots = some q) (hlt : lt k q.key = true) :
    ∃ orig, fibFindList id h.roots = some orig ∧
      FibNode.mk k id orig.marked orig.children ∈
        (h.ReduceKey lt k id).roots :=
  fibReduceKey_cut_keeps_mark lt h k id q hq hlt

theorem C4_fib_cut_keeps_mark_witness :
    ∃ orig, fibFindList 3 fibMarkHeap.roots = some orig ∧
      FibNode.mk (1 : Int) 3 orig.marked orig.children ∈
        (fibMarkHeap.ReduceKey intLt 1 3).roots :=
  C4_fib_cut_keeps_mark intLt fibMarkHeap 1 3
    (FibNode.mk 2 1 false [FibNode.mk 4 3 true [], FibNode.mk 3 2 false []])
    (by simp [fibMarkHeap, fibParentList, fibParentScan, fibParentNode,
      FibNode.id])
    (by decide)

/-- C4 counterexample: in the concrete heap `fibMarkHeap` node 3 is
marked and its key 4 sits under parent key 2; `ReduceKey(1, 3)` cuts it,
and afterwards node 3 is a root whose mark bit is still set — the
original claim said the mark is cleared. -/
theorem C4_counterexample :
    (fibParentList 3 fibMarkHeap.roots).map FibNode.key = some 2 ∧
    intLt 1 2 = true ∧
    (fibFindList 3 fibMarkHeap.roots).map FibNode.marked = some true ∧
    (fibFindRoot 3 ((fibMarkHeap.ReduceKey intLt 1 3).roots)).map
      FibNode.marked = some true := by
  refine ⟨?_, by decide, ?_, ?_⟩
  · simp [fibMarkHeap, fibParentList, fibParentScan, fibParentNode,
      FibNode.id, FibNode.key]
  · simp [fibMarkHeap, fibFindList, fibFindNode, FibNode.id,
      FibNode.marked, FibNode.children]
  · simp [fibMarkHeap, FibHeap.ReduceKey, fibSiftRoots, fibSiftNode,
      fibSiftChildren, fibFindRoot, intLt, fibRemoveId, fibRunMin,
      FibNode.id, FibNode.key, FibNode.marked, FibNode.children]

/-- C5: for the binary and binomial heaps, after any
precondition-respecting operation sequence starting from the empty heap,
`size()` equals the number of `Add`s minus the number of `PopMinimum`s,
it equals the number of entries of the id-to-node index, and `LookUp(id)`
reports presence exactly for the ids currently stored. -/
theorem C5_size_bookkeeping :
    (∀ (α : Type u) (lt : α → α → Bool), SWO lt →
      ∀ (ops : List (HeapOp α)) (h2 : BinaryHeap α)
        (popped : List (HeapElement α)),
      runBinOps lt BinaryHeap.empty ops = some (h2, popped) →
      popped.length = numPops ops ∧
      h2.size + numPops ops = numAdds ops ∧
      h2.size = h2.key_to_index.length ∧
      ∀ id, (h2.LookUp id).isSome = true ↔ id ∈ h2.elements.map Prod.snd) ∧
    (∀ (α : Type u) (lt : α → α → Bool), SWO lt →
      ∀ (ops : List (HeapOp α)) (h2 : BinomialHeap α)
        (popped : List (α × Nat)),
      runBinomOps lt BinomialHeap.empty ops = some (h2, popped) →
      popped.length = numPops ops ∧
      h2.size + numPops ops = numAdds ops ∧
      h2.size = h2.ids.length ∧
      ∀ id, (h2.LookUp id).isSome ↔ id ∈ h2.ids) := by
  constructor
  · intro α lt hswo ops h2 popped hrun
    obtain ⟨hinv, hplen, hsize, _⟩ :=
      runBinOps_spec hswo ops BinaryHeap.empty h2 popped
        (binInv_empty lt) hrun
    have hsize2 : h2.elements.length + popped.length = 0 + numAdds ops :=
      hsize
    refine ⟨hplen, ?_, ?_, fun id => BinaryHeap.LookUp_isSome_iff h2 hinv id⟩
    · show h2.elements.length + numPops ops = numAdds ops
      omega
    · exact hinv.2.2.2.2.symm
  · intro α lt hswo ops h2 popped hrun
    obtain ⟨hinv, hplen, hsize, _⟩ :=
      runBinomOps_spec hswo ops BinomialHeap.empty h2 popped
        (binomInv_empty lt) hrun
    have hsize2 : h2.size + popped.length = 0 + numAdds ops := hsize
    refine ⟨hplen, by omega, rfl,
      fun id => binomLookUp_isSome_iff h2 hinv id⟩

/-- C6: every binomial-heap operation — `Add` on a fresh id, `ReduceKey`
under its precondition, `PopMinimum` on a non-empty heap — preserves the
full structural invariant: every tree passes `Validate` (a node of
dimension `k` has exactly `k` children of dimensions `k-1, …, 0` in
descending order) and the root list is strictly ascending by dimension,
together with heap order and id-index agreement. -/
theorem C6_binomial_structure :
    (∀ (α : Type u) (lt : α → α → Bool), SWO lt →
      ∀ (h : BinomialHeap α) (key : α) (id : Nat), BinomInv lt h →
      id ∉ h.ids →
      ∃ h2, h.Add lt key id = some h2 ∧ BinomInv lt h2) ∧
    (∀ (α : Type u) (lt : α → α → Bool), SWO lt →
      ∀ (h : BinomialHeap α) (key : α) (id : Nat), BinomInv lt h →
      id ∈ h.ids → (∀ ok, h.LookUp id = some ok → lt ok key = false) →
      BinomInv lt (h.ReduceKey lt key id)) ∧
    (∀ (α : Type u) (lt : α → α → Bool), SWO lt →
      ∀ (h : BinomialHeap α), BinomInv lt h → h.root ≠ [] →
      ∃ m h2, h.PopMinimum lt = some (m, h2) ∧ BinomInv lt h2) := by
  refine ⟨?_, ?_, ?_⟩
  · intro α lt hswo h key id hinv hid
    obtain ⟨h2, heq, hinv2, _, _⟩ := binomAdd_some_spec hswo h key id hinv hid
    exact ⟨h2, heq, hinv2⟩
  · intro α lt hswo h key id hinv hid hpre
    exact (binomReduceKey_spec hswo h key id hinv hid hpre).1
  · intro α lt hswo h hinv hne
    obtain ⟨m, h2, heq, hinv2, _⟩ := binomPop_spec hswo h hinv hne
    exact ⟨m, h2, heq, hinv2⟩

/-- C8: `Properties<T>` with default `d`: after any sequence of `Set`s,
`Get(i)` returns the value of the most recent `Set(i, v)` when one
occurred and `d` otherwise, and `Set(j, v)` with `j ≠ i` leaves `Get(i)`
unchanged. -/
theorem C8_properties_get_set :
    (∀ (α : Type u) (d : α) (i : Nat) (ops : List (Nat × α)),
      ((Properties.mk [] d).applySets ops).Get i =
        (((ops.reverse.find? (fun q => q.1 == i)).map Prod.snd).getD d)) ∧
    (∀ (α : Type u) (p : Properties α) (i j : Nat) (v : α), j ≠ i →
      (p.Set j v).Get i = p.Get i) ∧
    (∀ (α : Type u) (p : Properties α) (i : Nat) (v : α),
      (p.Set i v).Get i = v) := by
  refine ⟨?_, ?_, ?_⟩
  · intro α d i ops
    exact Properties.applySets_get d i ops
  · intro α p i j v hne
    exact Properties.Get_Set_ne p i j v hne
  · intro α p i v
    exact Properties.Get_Set_self p i v

/-- C9: for the binary, binomial, Fibonacci and pairing heaps, `Min()`
returns exactly the `(key, id)` pair that an immediately following
`PopMinimum()` would return (on the empty heap both report nothing), and
`Min` is a pure function of the heap state — it performs no mutation. -/
theorem C9_min_matches_pop :
    (∀ (α : Type u) (lt : α → α → Bool) (h : BinaryHeap α),
      h.Min = (h.PopMinimum lt).map Prod.fst) ∧
    (∀ (α : Type u) (lt : α → α → Bool) (h : BinomialHeap α),
      h.Min lt = (h.PopMinimum lt).map Prod.fst) ∧
    (∀ (α : Type u) (lt : α → α → Bool) (h : FibHeap α),
      h.Min = (h.PopMinimum lt).map Prod.fst) ∧
    (∀ (α : Type u) (lt : α → α → Bool) (h : PairingHeap α),
      h.Min = (h.PopMinimum lt).map Prod.fst) := by
  refine ⟨?_, ?_, ?_, ?_⟩
  · intro α lt h
    exact binMin_eq_pop lt h
  · intro α lt h
    exact binomMin_eq_pop lt h
  · intro α lt h
    exact fibMin_eq_pop lt h
  · intro α lt h
    exact phMin_eq_pop lt h
